import Mathlib

/-!
# Propagation pass of the Verilog toolkit

A shallow embedding of `verilog/propagate/propagator.{h,cc}` and of the batch
driver `verilog/tools/propagate/verilog_propagate.cc`, with the properties of
the dependency extraction, the link rewrite and the batch resolution step.

Conventions of the embedding:
* `std::string` and `absl::string_view` are `String`;
* `std::set<std::string>` is a duplicate-free `List String` (only membership
  is observed by the code under study);
* `std::map<std::string, T>` is an association list with at most one entry per
  key (`insert` keeps an existing entry, `find` is `mapFind`);
* a `verible::SymbolPtr` slot is an `Option Symbol` (`none` is `nullptr`);
* a failed `verible::down_cast` or a null dereference makes the operation
  return `none`.
-/

namespace verilog.propagate

/-- The enumerator values from the generated headers `verilog_nonterminals.h`
and `verilog_token_enum.h` that the pass compares tags against.  The headers
are not part of the sources, so the values are parameters. -/
structure Enums where
  kPreprocessorInclude : Int
  kBinaryExpression : Int
  TK_StringLiteral : Int
  deriving DecidableEq

/-- A `verible::TokenInfo`: the token kind and the text it spans.  The text is
a `string_view` into the source buffer: `text` holds its characters and `left`
the offset in the buffer of the first of them, the location `text.data()`
stands for. -/
structure TokenInfo where
  token_enum : Int
  text : String
  left : Nat
  deriving DecidableEq

/-- A handle standing for a `Propagator*`: the batch driver owns exactly one
`Propagator` per key of its `parsed` map, so a pointer is identified with the
key of the unit it points to. -/
abbrev UnitRef := String

/-- A `verible::Symbol`: a `SyntaxTreeLeaf`, a `PropagatorNode` (the subclass
of `SyntaxTreeLeaf` declared in `propagator.cc`, a leaf with a `Propagator*`)
or a `SyntaxTreeNode` with its tag and its child slots. -/
inductive Symbol where
  | leaf (token : TokenInfo)
  | propagatorNode (token : TokenInfo) (propagator : UnitRef)
  | node (tag : Int) (children : List (Option Symbol))

/-- The `convert2Leaf` helpers: `down_cast` of a non-null symbol to
`SyntaxTreeLeaf`, giving access to the token through `get()`.  The cast fails on
a `SyntaxTreeNode`. -/
def convert2Leaf : Symbol → Option TokenInfo
  | .leaf token => some token
  | .propagatorNode token _ => some token
  | .node _ _ => none

/-- The erase-remove idiom `filename.erase(std::remove(begin, end, '"'), end)`:
every double-quote character is removed. -/
def stripQuotes (text : String) : String :=
  String.mk (text.data.filter (fun c => c != '"'))

/-- The member `std::set::insert`. -/
def setInsert (x : String) (s : List String) : List String :=
  if x ∈ s then s else s ++ [x]

/-- The body of the `kPreprocessorInclude` test of `DependencyVisitor::Visit`
for one non-null child: under an include node the child is cast to a leaf and,
when its token is a `TK_StringLiteral`, its quote-stripped text is inserted. -/
def DependencyVisitor.noteChild (E : Enums) (tag : Int) (child : Symbol)
    (dependencies : List String) : Option (List String) :=
  if tag = E.kPreprocessorInclude then
    match convert2Leaf child with
    | none => none
    | some token =>
      if token.token_enum = E.TK_StringLiteral then
        some (setInsert (stripQuotes token.text) dependencies)
      else some dependencies
  else some dependencies

mutual
/-- The call `symbol.Accept(&dependency_visitor)` for `DependencyVisitor`: a leaf
dispatches to the empty `Visit(leaf)`, a node to `Visit(node)`.  The visitor's
member `dependencies` is threaded through. -/
def DependencyVisitor.Accept (E : Enums) : Symbol → List String → Option (List String)
  | .leaf _, dependencies => some dependencies
  | .propagatorNode _ _, dependencies => some dependencies
  | .node tag children, dependencies => DependencyVisitor.VisitChildren E tag children dependencies
/-- The loop over `node.children()` of `DependencyVisitor::Visit(node)`. -/
def DependencyVisitor.VisitChildren (E : Enums) (tag : Int) :
    List (Option Symbol) → List String → Option (List String)
  | [], dependencies => some dependencies
  | none :: rest, dependencies => DependencyVisitor.VisitChildren E tag rest dependencies
  | some child :: rest, dependencies =>
    match DependencyVisitor.noteChild E tag child dependencies with
    | none => none
    | some dependencies1 =>
      match DependencyVisitor.Accept E child dependencies1 with
      | none => none
      | some dependencies2 => DependencyVisitor.VisitChildren E tag rest dependencies2
end

/-- The member `std::map::find`, as the mapped value when the key is present. -/
def mapFind {β : Type} (k : String) : List (String × β) → Option β
  | [] => none
  | (k1, v) :: rest => if k = k1 then some v else mapFind k rest

/-- The member `std::map::insert`: an entry whose key is present is kept. -/
def mapInsert {β : Type} (k : String) (v : β) (m : List (String × β)) : List (String × β) :=
  match mapFind k m with
  | some _ => m
  | none => m ++ [(k, v)]

/-- The body of the `kPreprocessorInclude` test of
`ResolveDependencyVisitor::Visit` for one non-null child slot, after the child
was visited: under an include node the slot content is cast to a leaf and, when
its token is a `TK_StringLiteral` whose quote-stripped text is found in
`propagator->dependencies`, the slot receives a new `PropagatorNode`. -/
def ResolveDependencyVisitor.linkChild (E : Enums) (dependencies : List (String × UnitRef))
    (tag : Int) (child : Symbol) : Option Symbol :=
  if tag = E.kPreprocessorInclude then
    match convert2Leaf child with
    | none => none
    | some token =>
      if token.token_enum = E.TK_StringLiteral then
        match mapFind (stripQuotes token.text) dependencies with
        | some target => some (.propagatorNode token target)
        | none => some child
      else some child
  else some child

mutual
/-- The call `child->Accept(this, &child)` for `ResolveDependencyVisitor`; the
result is the content of the slot afterwards.  At a node the slot holds the
node itself, which is the node `convert2Node(symbol_ptr)` yields. -/
def ResolveDependencyVisitor.Accept (E : Enums) (dependencies : List (String × UnitRef)) :
    Symbol → Option Symbol
  | .leaf token => some (.leaf token)
  | .propagatorNode token target => some (.propagatorNode token target)
  | .node tag children =>
    match ResolveDependencyVisitor.VisitChildren E dependencies tag children with
    | none => none
    | some children1 => some (.node tag children1)
/-- The loop over `mutable_node->mutable_children()` of
`ResolveDependencyVisitor::Visit(node, symbol_ptr)`. -/
def ResolveDependencyVisitor.VisitChildren (E : Enums) (dependencies : List (String × UnitRef))
    (tag : Int) : List (Option Symbol) → Option (List (Option Symbol))
  | [] => some []
  | none :: rest =>
    match ResolveDependencyVisitor.VisitChildren E dependencies tag rest with
    | none => none
    | some rest1 => some (none :: rest1)
  | some child :: rest =>
    match ResolveDependencyVisitor.Accept E dependencies child with
    | none => none
    | some child1 =>
      match ResolveDependencyVisitor.linkChild E dependencies tag child1 with
      | none => none
      | some child2 =>
        match ResolveDependencyVisitor.VisitChildren E dependencies tag rest with
        | none => none
        | some rest1 => some (some child2 :: rest1)
end

mutual
/-- The call `child->Accept(this, &child)` for `ConstantVisitor`; the result is
the content of the slot afterwards.  Both arms of the `switch` on the tag are
empty. -/
def ConstantVisitor.Accept (E : Enums) : Symbol → Symbol
  | .leaf token => .leaf token
  | .propagatorNode token target => .propagatorNode token target
  | .node tag children =>
    let children1 := ConstantVisitor.VisitChildren E children
    if tag = E.kBinaryExpression then .node tag children1 else .node tag children1
/-- The loop over `mutable_node->mutable_children()` of
`ConstantVisitor::Visit(node, symbol_ptr)`. -/
def ConstantVisitor.VisitChildren (E : Enums) : List (Option Symbol) → List (Option Symbol)
  | [] => []
  | none :: rest => none :: ConstantVisitor.VisitChildren E rest
  | some child :: rest => some (ConstantVisitor.Accept E child) :: ConstantVisitor.VisitChildren E rest
end

/-! ## Predicates and reference definitions used in the statements -/

mutual
/-- Every non-null child of every `kPreprocessorInclude` node is a leaf. -/
def includeChildrenAreLeaves (E : Enums) : Symbol → Bool
  | .leaf _ => true
  | .propagatorNode _ _ => true
  | .node tag children => includeChildrenAreLeaves.slots E tag children
/-- The check of `includeChildrenAreLeaves` on the child slots of a node. -/
def includeChildrenAreLeaves.slots (E : Enums) (tag : Int) : List (Option Symbol) → Bool
  | [] => true
  | none :: rest => includeChildrenAreLeaves.slots E tag rest
  | some child :: rest =>
    (decide (tag ≠ E.kPreprocessorInclude) || (convert2Leaf child).isSome)
      && includeChildrenAreLeaves E child && includeChildrenAreLeaves.slots E tag rest
end

mutual
/-- The tree contains a node tagged `kPreprocessorInclude`. -/
def hasInclude (E : Enums) : Symbol → Bool
  | .leaf _ => false
  | .propagatorNode _ _ => false
  | .node tag children => decide (tag = E.kPreprocessorInclude) || hasInclude.slots E children
/-- Some child slot holds a tree with a `kPreprocessorInclude` node. -/
def hasInclude.slots (E : Enums) : List (Option Symbol) → Bool
  | [] => false
  | none :: rest => hasInclude.slots E rest
  | some child :: rest => hasInclude E child || hasInclude.slots E rest
end

/-- The name an include operand stands for, in the words of the specification:
the quote-stripped text of a leaf whose token kind is `TK_StringLiteral`. -/
def operandName (E : Enums) : Symbol → List String
  | .leaf token => if token.token_enum = E.TK_StringLiteral then [stripQuotes token.text] else []
  | .propagatorNode token _ =>
    if token.token_enum = E.TK_StringLiteral then [stripQuotes token.text] else []
  | .node _ _ => []

mutual
/-- The referenced names of a tree in the words of the specification: the
quote-stripped texts of the leaf children of kind `TK_StringLiteral` of the
nodes tagged `kPreprocessorInclude`, at any depth. -/
def includeOperandNames (E : Enums) : Symbol → List String
  | .leaf _ => []
  | .propagatorNode _ _ => []
  | .node tag children => includeOperandNames.slots E tag children
/-- The referenced names found in and below the child slots of a node. -/
def includeOperandNames.slots (E : Enums) (tag : Int) : List (Option Symbol) → List String
  | [] => []
  | none :: rest => includeOperandNames.slots E tag rest
  | some child :: rest =>
    (if tag = E.kPreprocessorInclude then operandName E child else [])
      ++ includeOperandNames E child ++ includeOperandNames.slots E tag rest
end

/-- The replacement of a child slot in the words of the specification: a leaf
of kind `TK_StringLiteral` under a node tagged `kPreprocessorInclude` whose
quote-stripped text is a key of the map is replaced by a leaf with the same
token and a reference to the unit the map gives; no other slot is replaced. -/
def replacement (E : Enums) (dependencies : List (String × UnitRef)) (tag : Int) :
    Symbol → Option Symbol
  | .leaf token =>
    if tag = E.kPreprocessorInclude ∧ token.token_enum = E.TK_StringLiteral then
      (mapFind (stripQuotes token.text) dependencies).map (Symbol.propagatorNode token)
    else none
  | .propagatorNode token _ =>
    if tag = E.kPreprocessorInclude ∧ token.token_enum = E.TK_StringLiteral then
      (mapFind (stripQuotes token.text) dependencies).map (Symbol.propagatorNode token)
    else none
  | .node _ _ => none

mutual
/-- The linked tree in the words of the specification: every slot that has a
`replacement` holds it, every other slot holds its linked content. -/
def linkSpec (E : Enums) (dependencies : List (String × UnitRef)) : Symbol → Symbol
  | .leaf token => .leaf token
  | .propagatorNode token target => .propagatorNode token target
  | .node tag children => .node tag (linkSpec.slots E dependencies tag children)
/-- The child slots of a node in the linked tree. -/
def linkSpec.slots (E : Enums) (dependencies : List (String × UnitRef)) (tag : Int) :
    List (Option Symbol) → List (Option Symbol)
  | [] => []
  | none :: rest => none :: linkSpec.slots E dependencies tag rest
  | some child :: rest =>
    some (match replacement E dependencies tag child with
          | some linked => linked
          | none => linkSpec E dependencies child)
      :: linkSpec.slots E dependencies tag rest
end

mutual
/-- The left-to-right sequence of the leaf tokens of a tree. -/
def leafTokens : Symbol → List TokenInfo
  | .leaf token => [token]
  | .propagatorNode token _ => [token]
  | .node _ children => leafTokens.slots children
/-- The leaf tokens below a list of child slots. -/
def leafTokens.slots : List (Option Symbol) → List TokenInfo
  | [] => []
  | none :: rest => leafTokens.slots rest
  | some child :: rest => leafTokens child ++ leafTokens.slots rest
end

mutual
/-- The number of leaves and interior nodes reachable from a symbol. -/
def nodeCount : Symbol → Nat
  | .leaf _ => 1
  | .propagatorNode _ _ => 1
  | .node _ children => 1 + nodeCount.slots children
/-- The number of leaves and interior nodes below a list of child slots. -/
def nodeCount.slots : List (Option Symbol) → Nat
  | [] => 0
  | none :: rest => nodeCount.slots rest
  | some child :: rest => nodeCount child + nodeCount.slots rest
end

/-- What identifies a node apart from the content of its child slots: the token
of a leaf (and the linked unit of a `PropagatorNode`), the tag and the number
of child slots of an interior node. -/
inductive NodeHead where
  | leaf (token : TokenInfo)
  | propagatorNode (token : TokenInfo) (propagator : UnitRef)
  | node (tag : Int) (slots : Nat)
  deriving DecidableEq

/-- The head of a symbol. -/
def nodeHead : Symbol → NodeHead
  | .leaf token => .leaf token
  | .propagatorNode token target => .propagatorNode token target
  | .node tag children => .node tag children.length

/-- The content of the child slot reached from a symbol by a non-empty path of
child indices, with the tag of the node that owns the slot; `none` when the
path leaves the tree or ends in a null slot. -/
def slotAt : Symbol → List Nat → Option (Int × Symbol)
  | .node tag children, [i] =>
    match children[i]? with
    | some (some child) => some (tag, child)
    | _ => none
  | .node _ children, i :: j :: path =>
    match children[i]? with
    | some (some child) => slotAt child (j :: path)
    | _ => none
  | _, _ => none

/-- The shape of a tree: tags, child slots and null slots, without the leaves'
content. -/
inductive Skeleton where
  | leaf
  | node (tag : Int) (slots : List (Option Skeleton))

mutual
/-- The shape of a symbol. -/
def skeleton : Symbol → Skeleton
  | .leaf _ => .leaf
  | .propagatorNode _ _ => .leaf
  | .node tag children => .node tag (skeleton.slots children)
/-- The shapes of the child slots of a node. -/
def skeleton.slots : List (Option Symbol) → List (Option Skeleton)
  | [] => []
  | none :: rest => none :: skeleton.slots rest
  | some child :: rest => some (skeleton child) :: skeleton.slots rest
end

/-- The content of a non-null child slot of a node tagged `tag` in the linked
tree: its `replacement` when it has one, its linked content otherwise. -/
def linkedSlot (E : Enums) (dependencies : List (String × UnitRef)) (tag : Int)
    (child : Symbol) : Symbol :=
  match replacement E dependencies tag child with
  | some linked => linked
  | none => linkSpec E dependencies child

/-! ## The unit (`Propagator`) and the batch driver (`main`) -/

/-- What the pass reads of a `verilog::VerilogAnalyzer` (the analyzer itself is
an external collaborator): whether `LexStatus()` and `ParseStatus()` are ok,
and the syntax tree, a `SymbolPtr` that may be null. -/
structure VerilogAnalyzer where
  lex_ok : Bool
  parse_ok : Bool
  SyntaxTree : Option Symbol

/-- The data members of a `Propagator`; `dependency_visitor` is the set held by
the member visitor, `analyzer` is `none` while the `unique_ptr` is null. -/
structure Propagator where
  filename : String
  content : String
  analyzer : Option VerilogAnalyzer
  got_dependencies : Bool
  dependency_visitor : List String
  dependencies : List (String × UnitRef)

/-- The constructor `Propagator(const std::string& _filename)`. -/
def Propagator.new (filename : String) : Propagator :=
  { filename := filename, content := "", analyzer := none, got_dependencies := false,
    dependency_visitor := [], dependencies := [] }

/-- The member `Propagator::parse`, with its return value.  The analysis
`VerilogAnalyzer::AnalyzeAutomaticMode` is a parameter; the messages written to
`std::cerr` are not part of the state. -/
def Propagator.parse (AnalyzeAutomaticMode : String → String → VerilogAnalyzer)
    (self : Propagator) (_content : String) : Propagator × Int :=
  if _content.length = 0 then (self, 0)
  else
    let analyzer := AnalyzeAutomaticMode _content self.filename
    let self1 := { self with content := _content, analyzer := some analyzer }
    if !analyzer.lex_ok || !analyzer.parse_ok then (self1, 1) else (self1, 0)

/-- The member `Propagator::getDependencies`, with the copy of the set it
returns: the cached set when `got_dependencies` holds, else the result of the
traversal of `analyzer->Data().SyntaxTree()` by the member visitor. -/
def Propagator.getDependencies (E : Enums) (self : Propagator) :
    Option (List String × Propagator) :=
  if self.got_dependencies then some (self.dependency_visitor, self)
  else
    match self.analyzer with
    | none => none
    | some analyzer =>
      match analyzer.SyntaxTree with
      | none => none
      | some tree =>
        match DependencyVisitor.Accept E tree self.dependency_visitor with
        | none => none
        | some collected =>
          some (collected, { self with dependency_visitor := collected, got_dependencies := true })

/-- The member `Propagator::resolveDependency`. -/
def Propagator.resolveDependency (self : Propagator) (name : String) (propagator : UnitRef) :
    Propagator :=
  { self with dependencies := mapInsert name propagator self.dependencies }

/-- The tree held by the unit's analyzer, when there is one. -/
def Propagator.tree (self : Propagator) : Option Symbol :=
  match self.analyzer with
  | none => none
  | some analyzer => analyzer.SyntaxTree

/-- The call `analyzer->Data().SyntaxTree()->Accept(&visitor,
&analyzer->MutableData().MutableSyntaxTree())`: the visitor runs on the tree
the analyzer holds and on the slot that owns it; `visit` gives the content of
the slot after the traversal. -/
def Propagator.acceptMutable (visit : Symbol → Option Symbol) (self : Propagator) :
    Option Propagator :=
  match self.analyzer with
  | none => none
  | some analyzer =>
    match analyzer.SyntaxTree with
    | none => none
    | some tree =>
      match visit tree with
      | none => none
      | some tree1 => some { self with analyzer := some { analyzer with SyntaxTree := some tree1 } }

/-- The visitors `Propagator::propagate` builds on its stack: the
`ResolveDependencyVisitor`, built on `this` and reading the map `dependencies`
of the unit, and the `ConstantVisitor`. -/
inductive MutableTreeVisitor where
  | resolve_dependency_visitor (dependencies : List (String × UnitRef))
  | constant_visitor
  deriving DecidableEq

/-- The traversal a visitor of `propagate` makes of the tree it is handed; the
result is the content of the root slot afterwards. -/
def MutableTreeVisitor.Accept (E : Enums) : MutableTreeVisitor → Symbol → Option Symbol
  | .resolve_dependency_visitor dependencies, tree =>
    ResolveDependencyVisitor.Accept E dependencies tree
  | .constant_visitor, tree => some (ConstantVisitor.Accept E tree)

/-- One call `Accept(&visitor, &MutableSyntaxTree())` as it is made: the
visitor handed over and the tree the analyzer holds at that moment. -/
structure AcceptCall where
  visitor : MutableTreeVisitor
  tree : Symbol

/-- A statement `analyzer->Data().SyntaxTree()->Accept(&visitor,
&analyzer->MutableData().MutableSyntaxTree())` of `propagate`, on the unit and
the calls made before it: the call is recorded with the tree the visitor is
handed, and the visitor leaves its result in the analyzer. -/
def Propagator.acceptRecorded (E : Enums) (visitor : MutableTreeVisitor) (self : Propagator)
    (calls : List AcceptCall) : Option (Propagator × List AcceptCall) :=
  match self.tree with
  | none => none
  | some tree =>
    match self.acceptMutable (visitor.Accept E) with
    | none => none
    | some self1 => some (self1, calls ++ [{ visitor := visitor, tree := tree }])

/-- The body of `Propagator::propagate`, statement by statement, with the
record of the `Accept` calls it makes: the `ResolveDependencyVisitor` built on
`this` is handed the tree first, the `ConstantVisitor` second. -/
def Propagator.propagateCalls (E : Enums) (self : Propagator) :
    Option (Propagator × List AcceptCall) :=
  match self.acceptRecorded E (.resolve_dependency_visitor self.dependencies) [] with
  | none => none
  | some state => state.1.acceptRecorded E .constant_visitor state.2

/-- The member `Propagator::propagate`: the unit its body leaves. -/
def Propagator.propagate (E : Enums) (self : Propagator) : Option Propagator :=
  (self.propagateCalls E).map Prod.fst

/-- The function `synthesizeMacro` of the driver; the `std::map` of macros is
given by its entries in key order. -/
def synthesizeMacro (macros : List (String × String)) : String :=
  let macros_str := "`ifndef MACRO_GENERATED\n" ++ "`define MACRO_GENERATED\n"
  let macros_str :=
    macros.foldl (fun acc m => acc ++ "`define " ++ m.1 ++ " " ++ m.2 ++ "\n") macros_str
  macros_str ++ "`endif\n\n"

/-- The locals `parsed` and `order` of `main`.  A `Propagator*` held in `parsed`
is represented by the `Propagator` it points to, stored under its key. -/
structure Batch where
  parsed : List (String × Propagator)
  order : List String

/-- A write through the pointer `parsed[k]`: the unit stored under `k` becomes
`v`. -/
def mapStore {β : Type} (k : String) (v : β) : List (String × β) → List (String × β)
  | [] => []
  | (k1, v1) :: rest => if k = k1 then (k1, v) :: rest else (k1, v1) :: mapStore k v rest

/-- How a loop of `main` ends: by dereferencing a null pointer or failing a
cast, by a `return` with a status, or by running to its end. -/
inductive LoopResult where
  | crashed
  | returned (status : Int) (state : Batch)
  | completed (state : Batch)

/-- The first loop of `main`, over `args.files`: read the file, prepend the
macros, create the unit, parse, `return 1` on a failure, record the name. -/
def main.parseLoop (GetContents : String → Option String)
    (AnalyzeAutomaticMode : String → String → VerilogAnalyzer) (macros : String) :
    List String → Batch → LoopResult
  | [], state => .completed state
  | filename :: rest, state =>
    match GetContents filename with
    | none => .returned 1 state
    | some content =>
      let content := macros ++ content
      let parsed := mapInsert filename (Propagator.new filename) state.parsed
      match mapFind filename parsed with
      | none => .crashed
      | some unit =>
        let (unit1, status) := unit.parse AnalyzeAutomaticMode content
        let parsed1 := mapStore filename unit1 parsed
        if status ≠ 0 then .returned 1 { state with parsed := parsed1 }
        else
          main.parseLoop GetContents AnalyzeAutomaticMode macros rest
            { parsed := parsed1, order := state.order ++ [filename] }

/-- The innermost loop of the resolution step, over `order`, for one unit and
one of its dependencies. -/
def main.resolveOthers (filename dependency : String) : List String → Propagator → Propagator
  | [], unit => unit
  | other :: rest, unit =>
    if filename ≠ other ∧ dependency = other then
      main.resolveOthers filename dependency rest (unit.resolveDependency other filename)
    else main.resolveOthers filename dependency rest unit

/-- The loop of the resolution step over the dependencies of one unit. -/
def main.resolveDependencies (order : List String) (filename : String) :
    List String → Propagator → Propagator
  | [], unit => unit
  | dependency :: rest, unit =>
    main.resolveDependencies order filename rest
      (main.resolveOthers filename dependency order unit)

/-- The outer loop of the resolution step, over `order`. -/
def main.resolveLoop (E : Enums) (order : List String) :
    List String → List (String × Propagator) → Option (List (String × Propagator))
  | [], parsed => some parsed
  | filename :: rest, parsed =>
    match mapFind filename parsed with
    | none => none
    | some unit =>
      match unit.getDependencies E with
      | none => none
      | some (found, unit1) =>
        main.resolveLoop E order rest
          (mapStore filename (main.resolveDependencies order filename found unit1) parsed)

/-- The propagation loop of `main`, over `order`. -/
def main.propagateLoop (E : Enums) :
    List String → List (String × Propagator) → Option (List (String × Propagator))
  | [], parsed => some parsed
  | filename :: rest, parsed =>
    match mapFind filename parsed with
    | none => none
    | some unit =>
      match unit.propagate E with
      | none => none
      | some unit1 => main.propagateLoop E rest (mapStore filename unit1 parsed)

/-- The parse step of `main` from the empty `parsed` and `order`. -/
def main.parsePhase (GetContents : String → Option String)
    (AnalyzeAutomaticMode : String → String → VerilogAnalyzer)
    (macros : List (String × String)) (files : List String) : LoopResult :=
  main.parseLoop GetContents AnalyzeAutomaticMode (synthesizeMacro macros) files
    { parsed := [], order := [] }

/-- The resolution step of `main` on the state the parse step left. -/
def main.resolvePhase (E : Enums) (state : Batch) : Option Batch :=
  match main.resolveLoop E state.order state.order state.parsed with
  | none => none
  | some parsed1 => some { state with parsed := parsed1 }

/-- The propagation step of `main`. -/
def main.propagatePhase (E : Enums) (state : Batch) : Option Batch :=
  match main.propagateLoop E state.order state.parsed with
  | none => none
  | some parsed1 => some { state with parsed := parsed1 }

/-- The function `main` after `parseArgs`: the exit status with the final
`parsed` and `order`, or `none` when a step crashes.  The last loop only prints
and calls the empty `dump`. -/
def main (E : Enums) (GetContents : String → Option String)
    (AnalyzeAutomaticMode : String → String → VerilogAnalyzer)
    (macros : List (String × String)) (files : List String) : Option (Int × Batch) :=
  match main.parsePhase GetContents AnalyzeAutomaticMode macros files with
  | .crashed => none
  | .returned status state => some (status, state)
  | .completed state =>
    match main.resolvePhase E state with
    | none => none
    | some state1 =>
      match main.propagatePhase E state1 with
      | none => none
      | some state2 => some (0, state2)

/-! ## Predicates on units used in the statements -/

/-- The unit has not been through the resolution step: nothing is cached and
its resolved-reference map is empty. -/
def Propagator.unresolved (self : Propagator) : Prop :=
  self.got_dependencies = false ∧ self.dependency_visitor = [] ∧ self.dependencies = []

/-- The unit stored under `filename` holds the state `parse` leaves: it is
unresolved and its analyzer is the one the analysis returned for some content. -/
def Propagator.justParsed (AnalyzeAutomaticMode : String → String → VerilogAnalyzer)
    (filename : String) (self : Propagator) : Prop :=
  self.unresolved ∧ self.filename = filename ∧
    ∃ content, self.analyzer = some (AnalyzeAutomaticMode content filename)

/-- The unit stored under `filename` has been through the resolution step for
the batch `order`: its cached set is the set extracted from its tree, and its
resolved-reference map has an entry exactly for the names of that set that are
in `order` and differ from `filename`, each mapped to `filename` itself. -/
def Propagator.resolvedIn (E : Enums) (order : List String) (filename : String)
    (self : Propagator) : Prop :=
  self.got_dependencies = true ∧
  (∃ analyzer tree, self.analyzer = some analyzer ∧ analyzer.SyntaxTree = some tree ∧
    DependencyVisitor.Accept E tree [] = some self.dependency_visitor) ∧
  ∀ n, mapFind n self.dependencies =
    if n ∈ self.dependency_visitor ∧ n ∈ order ∧ n ≠ filename then some filename else none

/-- The invariant of the first loop of `main`: every stored unit is in the state
`parse` leaves, and every recorded name has a unit. -/
def Batch.parsedOk (AnalyzeAutomaticMode : String → String → VerilogAnalyzer)
    (state : Batch) : Prop :=
  (∀ k u, mapFind k state.parsed = some u → u.justParsed AnalyzeAutomaticMode k) ∧
  (∀ k, k ∈ state.order → ∃ u, mapFind k state.parsed = some u) ∧
  (∀ k u, mapFind k state.parsed = some u → k ∈ state.order)

/-! ## A concrete batch, used to evaluate the definitions -/

/-- Enumerator values for the evaluations: any three values serve, only
equality of tags is observed. -/
def exampleEnums : Enums :=
  { kPreprocessorInclude := 1, kBinaryExpression := 2, TK_StringLiteral := 3 }

/-- The tree of a source file whose only directive includes `operand`: a root
node with a null slot and a `kPreprocessorInclude` node holding the keyword and
the string literal. -/
def exampleIncludeTree (operand : String) : Symbol :=
  .node 0 [none,
    some (.node 1 [some (.leaf ⟨9, "`include", 0⟩), some (.leaf ⟨3, operand, 9⟩)])]

/-- A tree in which a `kPreprocessorInclude` node has an interior child. -/
def exampleInteriorOperand : Symbol :=
  .node 0 [some (.node 1 [some (.leaf ⟨9, "`include", 0⟩), some (.node 7 [])])]

/-- An analysis for the evaluations: `A.sv` includes `B.sv`, `B.sv` includes
`A.sv`, `C.sv` includes itself, and every other file fails to parse. -/
def exampleAnalyze (_content filename : String) : VerilogAnalyzer :=
  if filename = "A.sv" then
    { lex_ok := true, parse_ok := true, SyntaxTree := some (exampleIncludeTree "\"B.sv\"") }
  else if filename = "B.sv" then
    { lex_ok := true, parse_ok := true, SyntaxTree := some (exampleIncludeTree "\"A.sv\"") }
  else if filename = "C.sv" then
    { lex_ok := true, parse_ok := true, SyntaxTree := some (exampleIncludeTree "\"C.sv\"") }
  else { lex_ok := true, parse_ok := false, SyntaxTree := none }

/-- A file system for the evaluations in which every file is readable. -/
def exampleGetContents (_filename : String) : Option String :=
  some "module m; endmodule\n"

/-- The state the parse step leaves for the batch `A.sv`, `B.sv`, `C.sv`. -/
def exampleParsed : Batch :=
  match main.parsePhase exampleGetContents exampleAnalyze [] ["A.sv", "B.sv", "C.sv"] with
  | .completed state => state
  | _ => { parsed := [], order := [] }

/-- A parsed unit named `A.sv` holding `tree`, with the resolved-reference map
`dependencies`. -/
def exampleUnit (tree : Symbol) (dependencies : List (String × UnitRef)) : Propagator :=
  { filename := "A.sv", content := "module m; endmodule\n",
    analyzer := some { lex_ok := true, parse_ok := true, SyntaxTree := some tree },
    got_dependencies := false, dependency_visitor := [], dependencies := dependencies }

/-- The state the resolution step leaves for the batch `A.sv`, `B.sv`, `C.sv`. -/
def exampleResolved : Batch :=
  match main.resolvePhase exampleEnums exampleParsed with
  | some state => state
  | none => { parsed := [], order := [] }

/-! ## The node cast of the mutating visitors -/

/-- The `convert2Node` helpers: `down_cast` of the content of a slot to
`SyntaxTreeNode`, giving access to its tag and its child slots.  The cast fails
on a leaf; on a null slot the pointer it yields is null and cannot be
dereferenced. -/
def convert2Node : Option Symbol → Option (Int × List (Option Symbol))
  | some (.node tag children) => some (tag, children)
  | _ => none

/-- The member `ResolveDependencyVisitor::Visit(node, symbol_ptr)` with its two
arguments kept apart: `tag` is `node.Tag().tag`, the child slots are those of
the node `convert2Node(symbol_ptr)` yields; the result is the content of the
slot afterwards. -/
def ResolveDependencyVisitor.Visit (E : Enums) (dependencies : List (String × UnitRef))
    (tag : Int) (symbol_ptr : Option Symbol) : Option Symbol :=
  match convert2Node symbol_ptr with
  | none => none
  | some (tag1, children) =>
    match ResolveDependencyVisitor.VisitChildren E dependencies tag children with
    | none => none
    | some children1 => some (.node tag1 children1)

/-- The member `ConstantVisitor::Visit(node, symbol_ptr)` with its two arguments
kept apart, as for `ResolveDependencyVisitor.Visit`. -/
def ConstantVisitor.Visit (E : Enums) (tag : Int) (symbol_ptr : Option Symbol) :
    Option Symbol :=
  match convert2Node symbol_ptr with
  | none => none
  | some (tag1, children) =>
    let children1 := ConstantVisitor.VisitChildren E children
    if tag = E.kBinaryExpression then some (.node tag1 children1)
    else some (.node tag1 children1)

/-- An analysis for the evaluations whose tree depends on the content: the
tree of a file that includes the content, quoted. -/
def exampleAnalyzeContent (content _filename : String) : VerilogAnalyzer :=
  { lex_ok := true, parse_ok := true,
    SyntaxTree := some (exampleIncludeTree ("\"" ++ content ++ "\"")) }

/-! ## Copying a unit, and the macro arguments of the driver -/

/-- The getter `Propagator::getFilename`. -/
def Propagator.getFilename (self : Propagator) : String := self.filename

/-- The getter `Propagator::getContent`. -/
def Propagator.getContent (self : Propagator) : String := self.content

/-- The getter `Propagator::getResolvedDependencies`. -/
def Propagator.getResolvedDependencies (self : Propagator) : List (String × UnitRef) :=
  self.dependencies

/-- The copy constructor `Propagator(const Propagator& _propagator)`: its
initialiser list copies the filename, the content and the resolved-reference
map; the other members take their default values. -/
def Propagator.copy (_propagator : Propagator) : Propagator :=
  { filename := _propagator.getFilename, content := _propagator.getContent,
    analyzer := none, got_dependencies := false, dependency_visitor := [],
    dependencies := _propagator.getResolvedDependencies }

/-- The member `Propagator::clone`: the copy, on which `parse()` is called
without an argument, so with the default argument, the empty string. -/
def Propagator.clone (AnalyzeAutomaticMode : String → String → VerilogAnalyzer)
    (self : Propagator) : Propagator :=
  ((Propagator.copy self).parse AnalyzeAutomaticMode "").1

/-- The call `std::string::find` with a one-character pattern: the position of
the first occurrence of the character, `none` for `npos`. -/
def stringFind (c : Char) : List Char → Option Nat
  | [] => none
  | x :: rest => if x = c then some 0 else (stringFind c rest).map (fun i => i + 1)

/-- The function `parseMacro` of the driver; `substr(pos, count)` is `drop pos`
followed by `take count`. -/
def parseMacro (definition : String) : String × String :=
  match stringFind '=' definition.data with
  | none => (definition, "")
  | some equal_index =>
    (String.mk (definition.data.take equal_index),
      String.mk ((definition.data.drop (equal_index + 1)).take
        (definition.data.length - equal_index - 1)))

end verilog.propagate

/-!
# Lint rules

A shallow embedding of `verilog/analysis/checkers/package_filename_rule.cc` and
`verilog/analysis/checkers/void_cast_rule.cc`.  The syntax-tree search, the
matchers, the file-name helpers and the citation helper these rules call are
not part of the sources and are parameters of the embedding.
-/

namespace verilog.analysis

open verilog.propagate

/-- Modelled from the spec: a `verible::LintViolation`, an anchor token, a
message and the ancestor context; the constructor without a context leaves it
empty. -/
structure LintViolation where
  token : TokenInfo
  reason : String
  context : List Int
  deriving DecidableEq

/-- Modelled from the spec: the place of a new violation in a set ordered by
the source offset of the anchor token, before the first violation whose anchor
does not precede its own. -/
def insertByOffset (v : LintViolation) : List LintViolation → List LintViolation
  | [] => [v]
  | w :: rest =>
    if v.token.left ≤ w.token.left then v :: w :: rest else w :: insertByOffset v rest

/-- Modelled from the spec: the insertion into a rule's violation set, a set
ordered by the source offset of the anchor token in which a violation with an
identical anchor and message is not added again.  The anchor is the token with
its offset, so violations anchored at different places are all kept. -/
def violationsInsert (v : LintViolation) (s : List LintViolation) : List LintViolation :=
  if v ∈ s then s else insertByOffset v s

/-- The functions `PackageFilenameRule` calls that are declared outside the
sources: the tree search `FindAllPackageDeclarations` (the matched symbols, in
the order of the search), `GetPackageNameToken`, `verible::file::Basename`,
`verible::file::Stem` and `GetStyleGuideCitation`. -/
structure PackageHelpers where
  FindAllPackageDeclarations : Symbol → List Symbol
  GetPackageNameToken : Symbol → TokenInfo
  Basename : String → String
  Stem : String → String
  GetStyleGuideCitation : String → String

/-- The constant `optional_suffix`. -/
def optional_suffix : String := "_pkg"

/-- The constant `PackageFilenameRule::kMessage`. -/
def PackageFilenameRule.kMessage : String :=
  "Package declaration name must match the file name " ++
  "(ignoring optional \"_pkg\" file name suffix).  "

/-- The first element of `absl::StrSplit(basename, '.')`: the text before the
first dot, the whole text when there is no dot. -/
def firstComponent (basename : String) : String :=
  String.mk (basename.data.takeWhile (fun c => c != '.'))

/-- The local `unitname` of `PackageFilenameRule::Lint`. -/
def PackageFilenameRule.unitname (H : PackageHelpers) (filename : String) : String :=
  firstComponent (H.Basename (H.Stem filename))

/-- The loop of `PackageFilenameRule::Lint` over `package_matches`; the member
`violations_` is threaded through. -/
def PackageFilenameRule.lintMatches (H : PackageHelpers) (unitname : String) :
    List Symbol → List LintViolation → List LintViolation
  | [], violations_ => violations_
  | package_match :: rest, violations_ =>
    let package_name_token := H.GetPackageNameToken package_match
    let package_id := package_name_token.text
    let package_id_plus_suffix := package_id ++ optional_suffix
    if package_id ≠ unitname ∧ package_id_plus_suffix ≠ unitname then
      PackageFilenameRule.lintMatches H unitname rest
        (violationsInsert
          { token := package_name_token,
            reason := PackageFilenameRule.kMessage ++ "declaration: \"" ++ package_id ++
              "\" vs. basename(file): \"" ++ unitname ++ "\"",
            context := [] }
          violations_)
    else PackageFilenameRule.lintMatches H unitname rest violations_

/-- The member `PackageFilenameRule::Lint`; `SyntaxTree` is
`text_structure.SyntaxTree()`, the result is the member `violations_`
afterwards. -/
def PackageFilenameRule.Lint (H : PackageHelpers) (violations_ : List LintViolation)
    (SyntaxTree : Option Symbol) (filename : String) : List LintViolation :=
  match SyntaxTree with
  | none => violations_
  | some tree =>
    let package_matches := H.FindAllPackageDeclarations tree
    let unitname := PackageFilenameRule.unitname H filename
    if unitname = "" then violations_
    else PackageFilenameRule.lintMatches H unitname package_matches violations_

/-- Modelled from the spec: the named captures of a match, a mapping from
capture name to the captured symbol (`verible::matcher::BoundSymbolManager`). -/
structure BoundSymbolManager where
  bound_symbols : List (String × Symbol)

/-- Modelled from the spec: `manager.GetAs<verible::SyntaxTreeLeaf>(key)`, the
leaf captured under `key`: null (`some none`) when nothing is captured under
the name; a captured interior node cannot be cast to a leaf (`none`). -/
def BoundSymbolManager.GetAsLeaf (manager : BoundSymbolManager) (key : String) :
    Option (Option TokenInfo) :=
  match mapFind key manager.bound_symbols with
  | none => some none
  | some symbol =>
    match convert2Leaf symbol with
    | none => none
    | some token => some (some token)

/-- Modelled from the spec: `manager.GetAs<verible::SyntaxTreeNode>(key)`, the
interior node captured under `key`: null when nothing is captured under the
name; a captured leaf cannot be cast to a node. -/
def BoundSymbolManager.GetAsNode (manager : BoundSymbolManager) (key : String) :
    Option (Option Symbol) :=
  match mapFind key manager.bound_symbols with
  | none => some none
  | some symbol =>
    match convert2Node (some symbol) with
    | none => none
    | some _ => some (some symbol)

/-- What `VoidCastRule` uses that is declared outside the sources: its two
matcher members (`Matches` yields the captures of a match, `none` when the
symbol does not match) and `verible::GetLeftmostLeaf` (null for a tree without
a leaf). -/
structure VoidCastHelpers where
  blacklisted_function_matcher_ : Symbol → Option BoundSymbolManager
  randomize_matcher_ : Symbol → Option BoundSymbolManager
  GetLeftmostLeaf : Symbol → Option TokenInfo

/-- The function `VoidCastRule::BlacklistedFunctionsSet`. -/
def VoidCastRule.BlacklistedFunctionsSet : List String := ["uvm_hdl_read"]

/-- The member `VoidCastRule::FormatReason`, on the token of the leaf. -/
def VoidCastRule.FormatReason (leaf : TokenInfo) : String :=
  leaf.text ++ " is an invalid call within this void cast"

/-- The first check of `VoidCastRule::HandleSymbol`, for blacklisted function
names; `none` when a cast or a dereference fails. -/
def VoidCastRule.checkBlacklisted (H : VoidCastHelpers) (violations_ : List LintViolation)
    (symbol : Symbol) (context : List Int) : Option (List LintViolation) :=
  match H.blacklisted_function_matcher_ symbol with
  | none => some violations_
  | some manager =>
    match manager.GetAsLeaf "id" with
    | none => none
    | some none => some violations_
    | some (some function_id) =>
      if function_id.text ∈ VoidCastRule.BlacklistedFunctionsSet then
        some (violationsInsert
          { token := function_id, reason := VoidCastRule.FormatReason function_id,
            context := context }
          violations_)
      else some violations_

/-- The second check of `VoidCastRule::HandleSymbol`, for calls to randomize,
after `manager.Clear()`; `ABSL_DIE_IF_NULL` ends the run on a null leaf. -/
def VoidCastRule.checkRandomize (H : VoidCastHelpers) (violations_ : List LintViolation)
    (symbol : Symbol) (context : List Int) : Option (List LintViolation) :=
  match H.randomize_matcher_ symbol with
  | none => some violations_
  | some manager =>
    match manager.GetAsNode "id" with
    | none => none
    | some none => some violations_
    | some (some randomize_node) =>
      match H.GetLeftmostLeaf randomize_node with
      | none => none
      | some token =>
        some (violationsInsert
          { token := token, reason := "randomize() is forbidden within void casts",
            context := context }
          violations_)

/-- The member `VoidCastRule::HandleSymbol`: the two checks in sequence on the
member `violations_`. -/
def VoidCastRule.HandleSymbol (H : VoidCastHelpers) (violations_ : List LintViolation)
    (symbol : Symbol) (context : List Int) : Option (List LintViolation) :=
  match VoidCastRule.checkBlacklisted H violations_ symbol context with
  | none => none
  | some violations1 => VoidCastRule.checkRandomize H violations1 symbol context

/-! ## Concrete helpers, used to evaluate the definitions -/

/-- A package declaration, tagged 20, that starts at the offset `left`: it
holds the keyword, the name and the closing keyword. -/
def examplePackageDeclaration (name : String) (left : Nat) : Symbol :=
  .node 20 [some (.leaf ⟨30, "package", left⟩), some (.leaf ⟨31, name, left + 8⟩),
    some (.leaf ⟨32, "endpackage", left + 50⟩)]

/-- The child slots of `examplePackageTree`: one declaration per name, each 100
characters after the one before. -/
def examplePackageSlots (left : Nat) : List String → List (Option Symbol)
  | [] => []
  | name :: rest =>
    some (examplePackageDeclaration name left) :: examplePackageSlots (left + 100) rest

/-- A tree with one package declaration per name, in source order. -/
def examplePackageTree (names : List String) : Symbol :=
  .node 0 (examplePackageSlots 0 names)

/-- Helpers for the evaluations: the package declarations are the children of
the root tagged 20, the name token is the second child, `Basename` keeps what
follows the last slash, `Stem` drops the last dot and what follows it. -/
def examplePackageHelpers : PackageHelpers :=
  { FindAllPackageDeclarations := fun tree =>
      match tree with
      | .node _ children =>
        children.filterMap (fun slot =>
          match slot with
          | some (.node 20 cs) => some (.node 20 cs)
          | _ => none)
      | _ => []
    GetPackageNameToken := fun package_match =>
      match package_match with
      | .node _ (_ :: some (.leaf token) :: _) => token
      | _ => ⟨0, "", 0⟩
    Basename := fun filename =>
      String.mk (filename.data.reverse.takeWhile (fun c => c != '/')).reverse
    Stem := fun filename =>
      match filename.data.reverse.dropWhile (fun c => c != '.') with
      | [] => filename
      | _ :: rest => String.mk rest.reverse
    GetStyleGuideCitation := fun topic => "[Style: " ++ topic ++ "]" }

/-- Helpers for the evaluations of `VoidCastRule`: a node tagged 40 whose only
child is a leaf matches the blacklisted-function matcher with that leaf
captured under `id`; only nodes tagged 41 match the randomize matcher. -/
def exampleVoidCastHelpers : VoidCastHelpers :=
  { blacklisted_function_matcher_ := fun symbol =>
      match symbol with
      | .node 40 [some (.leaf token)] => some { bound_symbols := [("id", .leaf token)] }
      | _ => none
    randomize_matcher_ := fun symbol =>
      match symbol with
      | .node 41 [some (.node tag cs)] => some { bound_symbols := [("id", .node tag cs)] }
      | _ => none
    GetLeftmostLeaf := fun symbol =>
      match symbol with
      | .node _ (some (.leaf token) :: _) => some token
      | _ => none }

end verilog.analysis

/-!
# Tree builders of function declarations

A shallow embedding of `MakeFunctionHeader` and `MakeFunctionDeclaration` of
`verilog/CST/functions.h`.  The helpers `ExpectString` and
`verible::MakeTaggedNode` and the enumerators are declared outside the sources.
-/

namespace verilog.CST

open verilog.propagate

/-- The enumerator values of `verilog_nonterminals.h` the two builders use; the
header is not part of the sources, so the values are parameters. -/
structure FunctionNodeEnums where
  kFunctionHeader : Int
  kFunctionDeclaration : Int

/-- Modelled from the spec: an argument of `verible::MakeTaggedNode`, which is
either a symbol pointer, filling one child slot (null allowed), or a group of
children forwarded to the node under construction, the case the comment
`flattens to separate type and id nodes` refers to. -/
inductive TreeArgument where
  | symbol (slot : Option Symbol)
  | forwardChildren (children : List (Option Symbol))

/-- The child slots an argument contributes. -/
def TreeArgument.slots : TreeArgument → List (Option Symbol)
  | .symbol slot => [slot]
  | .forwardChildren children => children

/-- The child slots a list of arguments contributes, in the order of the
arguments. -/
def TreeArgument.allSlots : List TreeArgument → List (Option Symbol)
  | [] => []
  | argument :: rest => argument.slots ++ TreeArgument.allSlots rest

/-- Modelled from the spec: `verible::MakeTaggedNode`, which builds an interior
node with the tag and, as its ordered child slots, what the arguments
contribute, in the order of the arguments. -/
def MakeTaggedNode (tag : Int) (arguments : List TreeArgument) : Symbol :=
  .node tag (TreeArgument.allSlots arguments)

/-- The function `MakeFunctionHeader`; `ExpectString`, a parameter, tells
whether the check of a symbol against the expected text passes, and a failed
check ends the run (`none`). -/
def MakeFunctionHeader (N : FunctionNodeEnums) (ExpectString : Option Symbol → String → Bool)
    (qualifiers : TreeArgument) (function_start : Option Symbol) (lifetime : TreeArgument)
    (return_type_id : TreeArgument) (ports : TreeArgument) (semicolon : Option Symbol) :
    Option Symbol :=
  if ExpectString function_start "function" = false then none
  else if ExpectString semicolon ";" = false then none
  else
    some (MakeTaggedNode N.kFunctionHeader
      [qualifiers, .symbol function_start, lifetime, return_type_id, ports, .symbol semicolon])

/-- The function `MakeFunctionDeclaration`. -/
def MakeFunctionDeclaration (N : FunctionNodeEnums)
    (ExpectString : Option Symbol → String → Bool)
    (qualifiers : TreeArgument) (function_start : Option Symbol) (lifetime : TreeArgument)
    (return_type_id : TreeArgument) (ports : TreeArgument) (semicolon : Option Symbol)
    (function_items : TreeArgument) (body : TreeArgument) (function_end : Option Symbol)
    (label : TreeArgument) : Option Symbol :=
  if ExpectString function_end "endfunction" = false then none
  else
    some (MakeTaggedNode N.kFunctionDeclaration
      [.symbol (some (MakeTaggedNode N.kFunctionHeader
          [qualifiers, .symbol function_start, lifetime, return_type_id, ports,
            .symbol semicolon])),
        function_items, body, .symbol function_end, label])

/-! ## Concrete helpers, used to evaluate the definitions -/

/-- Enumerator values for the evaluations. -/
def exampleFunctionNodeEnums : FunctionNodeEnums :=
  { kFunctionHeader := 60, kFunctionDeclaration := 61 }

/-- A check for the evaluations: it passes on a leaf whose text is the expected
string and fails on every other symbol and on null. -/
def exampleExpectString (symbol : Option Symbol) (expected : String) : Bool :=
  match symbol with
  | some (.leaf token) => decide (token.text = expected)
  | _ => false

end verilog.CST

namespace verilog.propagate

/-! ## Lemmas on sets, maps and quote stripping -/

theorem mem_setInsert (x y : String) (s : List String) :
    y ∈ setInsert x s ↔ y = x ∨ y ∈ s := by
  unfold setInsert
  split
  · constructor
    · intro h; exact Or.inr h
    · rintro (rfl | h)
      · assumption
      · exact h
  · simp [or_comm]

theorem nodup_setInsert (x : String) (s : List String) (h : s.Nodup) :
    (setInsert x s).Nodup := by
  unfold setInsert
  split
  · exact h
  · rename_i hx
    rw [List.nodup_append]
    refine ⟨h, by simp, ?_⟩
    intro a ha hb
    simp at hb
    subst hb
    exact hx ha

theorem stripQuotes_noQuote (text : String) : '"' ∉ (stripQuotes text).data := by
  simp [stripQuotes, List.mem_filter]

theorem stripQuotes_quoted (s : String) (h : '"' ∉ s.data) :
    stripQuotes ("\"" ++ s ++ "\"") = s := by
  have hf : s.data.filter (fun c => c != '"') = s.data := by
    rw [List.filter_eq_self]
    intro c hc
    simp only [bne_iff_ne, ne_eq]
    rintro rfl
    exact h hc
  show String.mk _ = s
  simp only [String.data_append, List.filter_append, hf]
  cases s
  simp [List.filter]

/-! ## Dependency extraction -/

theorem noteChild_leaves (E : Enums) (tag : Int) (child : Symbol) (acc : List String)
    (h : (decide (tag ≠ E.kPreprocessorInclude) || (convert2Leaf child).isSome) = true) :
    ∃ ds, DependencyVisitor.noteChild E tag child acc = some ds ∧
      (∀ n, n ∈ ds ↔ n ∈ acc ∨ n ∈ (if tag = E.kPreprocessorInclude then operandName E child else [])) ∧
      (acc.Nodup → ds.Nodup) := by
  unfold DependencyVisitor.noteChild
  by_cases ht : tag = E.kPreprocessorInclude
  · simp only [ht, if_true]
    simp only [ht, ne_eq, not_true_eq_false, decide_False, Bool.false_or] at h
    cases child with
    | leaf token =>
      simp only [convert2Leaf, operandName]
      split
      · exact ⟨_, rfl, fun n => by simp [mem_setInsert, or_comm], nodup_setInsert _ _⟩
      · exact ⟨_, rfl, fun n => by simp, id⟩
    | propagatorNode token target =>
      simp only [convert2Leaf, operandName]
      split
      · exact ⟨_, rfl, fun n => by simp [mem_setInsert, or_comm], nodup_setInsert _ _⟩
      · exact ⟨_, rfl, fun n => by simp, id⟩
    | node tag1 cs => simp [convert2Leaf] at h
  · simp only [ht, if_false]
    exact ⟨_, rfl, fun n => by simp, id⟩

mutual
theorem dependencyVisitor_accept_spec (E : Enums) :
    ∀ (t : Symbol) (acc : List String), includeChildrenAreLeaves E t = true →
      ∃ ds, DependencyVisitor.Accept E t acc = some ds ∧
        (∀ n, n ∈ ds ↔ n ∈ acc ∨ n ∈ includeOperandNames E t) ∧ (acc.Nodup → ds.Nodup)
  | .leaf _, acc, _ => ⟨acc, by simp [DependencyVisitor.Accept, includeOperandNames]⟩
  | .propagatorNode _ _, acc, _ => ⟨acc, by simp [DependencyVisitor.Accept, includeOperandNames]⟩
  | .node tag children, acc, h => by
    simp only [includeChildrenAreLeaves] at h
    simpa only [DependencyVisitor.Accept, includeOperandNames] using
      dependencyVisitor_visitChildren_spec E tag children acc h
theorem dependencyVisitor_visitChildren_spec (E : Enums) (tag : Int) :
    ∀ (cs : List (Option Symbol)) (acc : List String),
      includeChildrenAreLeaves.slots E tag cs = true →
      ∃ ds, DependencyVisitor.VisitChildren E tag cs acc = some ds ∧
        (∀ n, n ∈ ds ↔ n ∈ acc ∨ n ∈ includeOperandNames.slots E tag cs) ∧
        (acc.Nodup → ds.Nodup)
  | [], acc, _ => ⟨acc, by simp [DependencyVisitor.VisitChildren, includeOperandNames.slots]⟩
  | none :: rest, acc, h => by
    simp only [includeChildrenAreLeaves.slots] at h
    simpa only [DependencyVisitor.VisitChildren, includeOperandNames.slots] using
      dependencyVisitor_visitChildren_spec E tag rest acc h
  | some child :: rest, acc, h => by
    simp only [includeChildrenAreLeaves.slots, Bool.and_eq_true] at h
    obtain ⟨⟨h1, h2⟩, h3⟩ := h
    obtain ⟨d1, e1, m1, n1⟩ := noteChild_leaves E tag child acc h1
    obtain ⟨d2, e2, m2, n2⟩ := dependencyVisitor_accept_spec E child d1 h2
    obtain ⟨d3, e3, m3, n3⟩ := dependencyVisitor_visitChildren_spec E tag rest d2 h3
    refine ⟨d3, ?_, ?_, fun hn => n3 (n2 (n1 hn))⟩
    · simp only [DependencyVisitor.VisitChildren, e1, e2, e3]
    · intro n
      simp only [includeOperandNames.slots, List.mem_append, m3, m2, m1]
      tauto
end

mutual
theorem dependencyVisitor_accept_noInclude (E : Enums) :
    ∀ (t : Symbol) (acc : List String), hasInclude E t = false →
      DependencyVisitor.Accept E t acc = some acc
  | .leaf _, acc, _ => by simp [DependencyVisitor.Accept]
  | .propagatorNode _ _, acc, _ => by simp [DependencyVisitor.Accept]
  | .node tag children, acc, h => by
    simp only [hasInclude, Bool.or_eq_false_iff, decide_eq_false_iff_not] at h
    simpa only [DependencyVisitor.Accept] using
      dependencyVisitor_visitChildren_noInclude E tag children acc h.1 h.2
theorem dependencyVisitor_visitChildren_noInclude (E : Enums) (tag : Int) :
    ∀ (cs : List (Option Symbol)) (acc : List String), tag ≠ E.kPreprocessorInclude →
      hasInclude.slots E cs = false →
      DependencyVisitor.VisitChildren E tag cs acc = some acc
  | [], acc, _, _ => by simp [DependencyVisitor.VisitChildren]
  | none :: rest, acc, ht, h => by
    simp only [hasInclude.slots] at h
    simpa only [DependencyVisitor.VisitChildren] using
      dependencyVisitor_visitChildren_noInclude E tag rest acc ht h
  | some child :: rest, acc, ht, h => by
    simp only [hasInclude.slots, Bool.or_eq_false_iff] at h
    simp only [DependencyVisitor.VisitChildren, DependencyVisitor.noteChild, ht, if_false,
      dependencyVisitor_accept_noInclude E child acc h.1,
      dependencyVisitor_visitChildren_noInclude E tag rest acc ht h.2]
end

mutual
theorem dependencyVisitor_accept_noQuote (E : Enums) :
    ∀ (t : Symbol) (acc ds : List String), DependencyVisitor.Accept E t acc = some ds →
      (∀ n ∈ acc, '"' ∉ n.data) → ∀ n ∈ ds, '"' ∉ n.data
  | .leaf _, acc, ds, h, hacc => by
    simp only [DependencyVisitor.Accept, Option.some.injEq] at h
    subst h; exact hacc
  | .propagatorNode _ _, acc, ds, h, hacc => by
    simp only [DependencyVisitor.Accept, Option.some.injEq] at h
    subst h; exact hacc
  | .node tag children, acc, ds, h, hacc => by
    simp only [DependencyVisitor.Accept] at h
    exact dependencyVisitor_visitChildren_noQuote E tag children acc ds h hacc
theorem dependencyVisitor_visitChildren_noQuote (E : Enums) (tag : Int) :
    ∀ (cs : List (Option Symbol)) (acc ds : List String),
      DependencyVisitor.VisitChildren E tag cs acc = some ds →
      (∀ n ∈ acc, '"' ∉ n.data) → ∀ n ∈ ds, '"' ∉ n.data
  | [], acc, ds, h, hacc => by
    simp only [DependencyVisitor.VisitChildren, Option.some.injEq] at h
    subst h; exact hacc
  | none :: rest, acc, ds, h, hacc => by
    simp only [DependencyVisitor.VisitChildren] at h
    exact dependencyVisitor_visitChildren_noQuote E tag rest acc ds h hacc
  | some child :: rest, acc, ds, h, hacc => by
    simp only [DependencyVisitor.VisitChildren] at h
    split at h
    · exact absurd h (by simp)
    · rename_i d1 e1
      split at h
      · exact absurd h (by simp)
      · rename_i d2 e2
        have h1 : ∀ n ∈ d1, '"' ∉ n.data := by
          unfold DependencyVisitor.noteChild at e1
          split at e1
          · split at e1
            · exact absurd e1 (by simp)
            · split at e1
              · simp only [Option.some.injEq] at e1
                subst e1
                intro n hn
                rcases (mem_setInsert _ _ _).1 hn with rfl | hn
                · exact stripQuotes_noQuote _
                · exact hacc n hn
              · simp only [Option.some.injEq] at e1
                subst e1; exact hacc
          · simp only [Option.some.injEq] at e1
            subst e1; exact hacc
        exact dependencyVisitor_visitChildren_noQuote E tag rest d2 ds h
          (dependencyVisitor_accept_noQuote E child d1 d2 e2 h1)
end

mutual
theorem dependencyVisitor_accept_some_leaves (E : Enums) :
    ∀ (t : Symbol) (acc ds : List String), DependencyVisitor.Accept E t acc = some ds →
      includeChildrenAreLeaves E t = true
  | .leaf _, _, _, _ => rfl
  | .propagatorNode _ _, _, _, _ => rfl
  | .node tag children, acc, ds, h => by
    simp only [DependencyVisitor.Accept] at h
    simpa only [includeChildrenAreLeaves] using
      dependencyVisitor_visitChildren_some_leaves E tag children acc ds h
theorem dependencyVisitor_visitChildren_some_leaves (E : Enums) (tag : Int) :
    ∀ (cs : List (Option Symbol)) (acc ds : List String),
      DependencyVisitor.VisitChildren E tag cs acc = some ds →
      includeChildrenAreLeaves.slots E tag cs = true
  | [], _, _, _ => rfl
  | none :: rest, acc, ds, h => by
    simp only [DependencyVisitor.VisitChildren] at h
    simpa only [includeChildrenAreLeaves.slots] using
      dependencyVisitor_visitChildren_some_leaves E tag rest acc ds h
  | some child :: rest, acc, ds, h => by
    simp only [DependencyVisitor.VisitChildren] at h
    split at h
    · exact absurd h (by simp)
    · rename_i d1 e1
      split at h
      · exact absurd h (by simp)
      · rename_i d2 e2
        simp only [includeChildrenAreLeaves.slots, Bool.and_eq_true]
        refine ⟨⟨?_, dependencyVisitor_accept_some_leaves E child d1 d2 e2⟩,
          dependencyVisitor_visitChildren_some_leaves E tag rest d2 ds h⟩
        unfold DependencyVisitor.noteChild at e1
        by_cases ht : tag = E.kPreprocessorInclude
        · simp only [ht, if_true] at e1
          cases hc : convert2Leaf child with
          | none => simp [hc] at e1
          | some token => simp
        · simp [ht]
end

/-! ## The link rewrite -/

theorem linkChild_eq (E : Enums) (deps : List (String × UnitRef)) (tag : Int) (child : Symbol)
    (h : (decide (tag ≠ E.kPreprocessorInclude) || (convert2Leaf child).isSome) = true) :
    ResolveDependencyVisitor.linkChild E deps tag (linkSpec E deps child) =
      some (match replacement E deps tag child with
            | some linked => linked
            | none => linkSpec E deps child) := by
  unfold ResolveDependencyVisitor.linkChild
  by_cases ht : tag = E.kPreprocessorInclude
  · simp only [ht, ne_eq, not_true_eq_false, decide_False, Bool.false_or] at h
    cases child with
    | leaf token =>
      simp only [ht, if_true, linkSpec, convert2Leaf, replacement, true_and]
      by_cases hk : token.token_enum = E.TK_StringLiteral
      · simp only [hk, if_true]
        cases mapFind (stripQuotes token.text) deps <;> rfl
      · simp only [hk, if_false]
    | propagatorNode token target =>
      simp only [ht, if_true, linkSpec, convert2Leaf, replacement, true_and]
      by_cases hk : token.token_enum = E.TK_StringLiteral
      · simp only [hk, if_true]
        cases mapFind (stripQuotes token.text) deps <;> rfl
      · simp only [hk, if_false]
    | node tag1 cs => simp [convert2Leaf] at h
  · cases child <;> simp [ht, replacement]

mutual
theorem resolveVisitor_accept_eq (E : Enums) (deps : List (String × UnitRef)) :
    ∀ (t : Symbol), includeChildrenAreLeaves E t = true →
      ResolveDependencyVisitor.Accept E deps t = some (linkSpec E deps t)
  | .leaf _, _ => rfl
  | .propagatorNode _ _, _ => rfl
  | .node tag children, h => by
    simp only [includeChildrenAreLeaves] at h
    simp only [ResolveDependencyVisitor.Accept, linkSpec,
      resolveVisitor_visitChildren_eq E deps tag children h]
theorem resolveVisitor_visitChildren_eq (E : Enums) (deps : List (String × UnitRef))
    (tag : Int) :
    ∀ (cs : List (Option Symbol)), includeChildrenAreLeaves.slots E tag cs = true →
      ResolveDependencyVisitor.VisitChildren E deps tag cs = some (linkSpec.slots E deps tag cs)
  | [], _ => rfl
  | none :: rest, h => by
    simp only [includeChildrenAreLeaves.slots] at h
    simp only [ResolveDependencyVisitor.VisitChildren, linkSpec.slots,
      resolveVisitor_visitChildren_eq E deps tag rest h]
  | some child :: rest, h => by
    simp only [includeChildrenAreLeaves.slots, Bool.and_eq_true] at h
    obtain ⟨⟨h1, h2⟩, h3⟩ := h
    simp only [ResolveDependencyVisitor.VisitChildren, linkSpec.slots,
      resolveVisitor_accept_eq E deps child h2, linkChild_eq E deps tag child h1,
      resolveVisitor_visitChildren_eq E deps tag rest h3]
end

theorem convert2Leaf_accept (E : Enums) (deps : List (String × UnitRef)) (child child1 : Symbol)
    (h : ResolveDependencyVisitor.Accept E deps child = some child1) :
    (convert2Leaf child1).isSome = (convert2Leaf child).isSome := by
  cases child with
  | leaf token =>
    simp only [ResolveDependencyVisitor.Accept, Option.some.injEq] at h
    subst h; rfl
  | propagatorNode token target =>
    simp only [ResolveDependencyVisitor.Accept, Option.some.injEq] at h
    subst h; rfl
  | node tag cs =>
    simp only [ResolveDependencyVisitor.Accept] at h
    split at h
    · exact absurd h (by simp)
    · simp only [Option.some.injEq] at h
      subst h; rfl

mutual
theorem resolveVisitor_accept_some_leaves (E : Enums) (deps : List (String × UnitRef)) :
    ∀ (t t1 : Symbol), ResolveDependencyVisitor.Accept E deps t = some t1 →
      includeChildrenAreLeaves E t = true
  | .leaf _, _, _ => rfl
  | .propagatorNode _ _, _, _ => rfl
  | .node tag children, t1, h => by
    simp only [ResolveDependencyVisitor.Accept] at h
    split at h
    · exact absurd h (by simp)
    · rename_i cs1 e1
      simpa only [includeChildrenAreLeaves] using
        resolveVisitor_visitChildren_some_leaves E deps tag children cs1 e1
theorem resolveVisitor_visitChildren_some_leaves (E : Enums)
    (deps : List (String × UnitRef)) (tag : Int) :
    ∀ (cs cs1 : List (Option Symbol)),
      ResolveDependencyVisitor.VisitChildren E deps tag cs = some cs1 →
      includeChildrenAreLeaves.slots E tag cs = true
  | [], _, _ => rfl
  | none :: rest, cs1, h => by
    simp only [ResolveDependencyVisitor.VisitChildren] at h
    split at h
    · exact absurd h (by simp)
    · rename_i r1 e1
      simpa only [includeChildrenAreLeaves.slots] using
        resolveVisitor_visitChildren_some_leaves E deps tag rest r1 e1
  | some child :: rest, cs1, h => by
    simp only [ResolveDependencyVisitor.VisitChildren] at h
    split at h
    · exact absurd h (by simp)
    · rename_i c1 e1
      split at h
      · exact absurd h (by simp)
      · rename_i c2 e2
        split at h
        · exact absurd h (by simp)
        · rename_i r1 e3
          simp only [includeChildrenAreLeaves.slots, Bool.and_eq_true]
          refine ⟨⟨?_, resolveVisitor_accept_some_leaves E deps child c1 e1⟩,
            resolveVisitor_visitChildren_some_leaves E deps tag rest r1 e3⟩
          rw [← convert2Leaf_accept E deps child c1 e1]
          unfold ResolveDependencyVisitor.linkChild at e2
          by_cases ht : tag = E.kPreprocessorInclude
          · simp only [ht, if_true] at e2
            cases hc : convert2Leaf c1 with
            | none => simp [hc] at e2
            | some token => simp
          · simp [ht]
end

theorem linkSpec_slots_eq_map (E : Enums) (deps : List (String × UnitRef)) (tag : Int) :
    ∀ cs : List (Option Symbol),
      linkSpec.slots E deps tag cs = cs.map (Option.map (linkedSlot E deps tag))
  | [] => rfl
  | none :: rest => by
    simp only [linkSpec.slots, List.map_cons, Option.map_none', linkSpec_slots_eq_map E deps tag rest]
  | some child :: rest => by
    simp only [linkSpec.slots, List.map_cons, Option.map_some', linkedSlot,
      linkSpec_slots_eq_map E deps tag rest]

theorem replacement_some (E : Enums) (deps : List (String × UnitRef)) (tag : Int)
    (child linked : Symbol) (h : replacement E deps tag child = some linked) :
    ∃ token target, convert2Leaf child = some token ∧ tag = E.kPreprocessorInclude ∧
      token.token_enum = E.TK_StringLiteral ∧
      mapFind (stripQuotes token.text) deps = some target ∧
      linked = .propagatorNode token target := by
  cases child with
  | leaf token =>
    simp only [replacement] at h
    split at h
    · rename_i hc
      cases hm : mapFind (stripQuotes token.text) deps with
      | none => simp [hm] at h
      | some target =>
        simp only [hm, Option.map_some', Option.some.injEq] at h
        exact ⟨token, target, rfl, hc.1, hc.2, hm, h.symm⟩
    · exact absurd h (by simp)
  | propagatorNode token old =>
    simp only [replacement] at h
    split at h
    · rename_i hc
      cases hm : mapFind (stripQuotes token.text) deps with
      | none => simp [hm] at h
      | some target =>
        simp only [hm, Option.map_some', Option.some.injEq] at h
        exact ⟨token, target, rfl, hc.1, hc.2, hm, h.symm⟩
    · exact absurd h (by simp)
  | node tag1 cs => simp [replacement] at h

theorem leafTokens_of_convert2Leaf (child : Symbol) (token : TokenInfo)
    (h : convert2Leaf child = some token) : leafTokens child = [token] := by
  cases child with
  | leaf t => simp only [convert2Leaf, Option.some.injEq] at h; subst h; rfl
  | propagatorNode t p => simp only [convert2Leaf, Option.some.injEq] at h; subst h; rfl
  | node tag cs => simp [convert2Leaf] at h

theorem nodeCount_of_convert2Leaf (child : Symbol) (token : TokenInfo)
    (h : convert2Leaf child = some token) : nodeCount child = 1 := by
  cases child with
  | leaf t => rfl
  | propagatorNode t p => rfl
  | node tag cs => simp [convert2Leaf] at h

theorem skeleton_of_convert2Leaf (child : Symbol) (token : TokenInfo)
    (h : convert2Leaf child = some token) : skeleton child = .leaf := by
  cases child with
  | leaf t => rfl
  | propagatorNode t p => rfl
  | node tag cs => simp [convert2Leaf] at h

mutual
theorem leafTokens_linkSpec (E : Enums) (deps : List (String × UnitRef)) :
    ∀ t : Symbol, leafTokens (linkSpec E deps t) = leafTokens t
  | .leaf _ => rfl
  | .propagatorNode _ _ => rfl
  | .node tag children => by
    simp only [linkSpec, leafTokens, leafTokens_linkSpec_slots E deps tag children]
theorem leafTokens_linkSpec_slots (E : Enums) (deps : List (String × UnitRef)) (tag : Int) :
    ∀ cs : List (Option Symbol),
      leafTokens.slots (linkSpec.slots E deps tag cs) = leafTokens.slots cs
  | [] => rfl
  | none :: rest => by
    simp only [linkSpec.slots, leafTokens.slots, leafTokens_linkSpec_slots E deps tag rest]
  | some child :: rest => by
    simp only [linkSpec.slots, leafTokens.slots, leafTokens_linkSpec_slots E deps tag rest]
    congr 1
    cases hr : replacement E deps tag child with
    | none => exact leafTokens_linkSpec E deps child
    | some linked =>
      obtain ⟨token, target, hc, _, _, _, rfl⟩ := replacement_some E deps tag child linked hr
      simp only [leafTokens, leafTokens_of_convert2Leaf child token hc]
end

mutual
theorem nodeCount_linkSpec (E : Enums) (deps : List (String × UnitRef)) :
    ∀ t : Symbol, nodeCount (linkSpec E deps t) = nodeCount t
  | .leaf _ => rfl
  | .propagatorNode _ _ => rfl
  | .node tag children => by
    simp only [linkSpec, nodeCount, nodeCount_linkSpec_slots E deps tag children]
theorem nodeCount_linkSpec_slots (E : Enums) (deps : List (String × UnitRef)) (tag : Int) :
    ∀ cs : List (Option Symbol),
      nodeCount.slots (linkSpec.slots E deps tag cs) = nodeCount.slots cs
  | [] => rfl
  | none :: rest => by
    simp only [linkSpec.slots, nodeCount.slots, nodeCount_linkSpec_slots E deps tag rest]
  | some child :: rest => by
    simp only [linkSpec.slots, nodeCount.slots, nodeCount_linkSpec_slots E deps tag rest]
    congr 1
    cases hr : replacement E deps tag child with
    | none => exact nodeCount_linkSpec E deps child
    | some linked =>
      obtain ⟨token, target, hc, _, _, _, rfl⟩ := replacement_some E deps tag child linked hr
      simp only [nodeCount, nodeCount_of_convert2Leaf child token hc]
end

mutual
theorem skeleton_linkSpec (E : Enums) (deps : List (String × UnitRef)) :
    ∀ t : Symbol, skeleton (linkSpec E deps t) = skeleton t
  | .leaf _ => rfl
  | .propagatorNode _ _ => rfl
  | .node tag children => by
    simp only [linkSpec, skeleton, skeleton_linkSpec_slots E deps tag children]
theorem skeleton_linkSpec_slots (E : Enums) (deps : List (String × UnitRef)) (tag : Int) :
    ∀ cs : List (Option Symbol),
      skeleton.slots (linkSpec.slots E deps tag cs) = skeleton.slots cs
  | [] => rfl
  | none :: rest => by
    simp only [linkSpec.slots, skeleton.slots, skeleton_linkSpec_slots E deps tag rest]
  | some child :: rest => by
    simp only [linkSpec.slots, skeleton.slots, skeleton_linkSpec_slots E deps tag rest]
    congr 2
    cases hr : replacement E deps tag child with
    | none => exact skeleton_linkSpec E deps child
    | some linked =>
      obtain ⟨token, target, hc, _, _, _, rfl⟩ := replacement_some E deps tag child linked hr
      simp only [skeleton, skeleton_of_convert2Leaf child token hc]
end

mutual
theorem constantVisitor_accept_id (E : Enums) : ∀ t : Symbol, ConstantVisitor.Accept E t = t
  | .leaf _ => rfl
  | .propagatorNode _ _ => rfl
  | .node tag children => by
    simp only [ConstantVisitor.Accept, constantVisitor_visitChildren_id E children, ite_self]
theorem constantVisitor_visitChildren_id (E : Enums) :
    ∀ cs : List (Option Symbol), ConstantVisitor.VisitChildren E cs = cs
  | [] => rfl
  | none :: rest => by
    simp only [ConstantVisitor.VisitChildren, constantVisitor_visitChildren_id E rest]
  | some child :: rest => by
    simp only [ConstantVisitor.VisitChildren, constantVisitor_accept_id E child,
      constantVisitor_visitChildren_id E rest]
end

theorem linkedSlot_node (E : Enums) (deps : List (String × UnitRef)) (tag tag1 : Int)
    (cs : List (Option Symbol)) :
    linkedSlot E deps tag (.node tag1 cs) = linkSpec E deps (.node tag1 cs) := by
  simp [linkedSlot, replacement]

theorem slotAt_linkSpec (E : Enums) (deps : List (String × UnitRef)) :
    ∀ (path : List Nat) (t : Symbol) (tag : Int) (s : Symbol),
      slotAt t path = some (tag, s) →
      slotAt (linkSpec E deps t) path = some (tag, linkedSlot E deps tag s) := by
  intro path
  induction path with
  | nil => intro t tag s h; cases t <;> simp [slotAt] at h
  | cons i rest ih =>
    intro t tag s h
    cases t with
    | leaf token => simp [slotAt] at h
    | propagatorNode token target => simp [slotAt] at h
    | node tag0 cs =>
      cases rest with
      | nil =>
        simp only [slotAt] at h
        simp only [linkSpec, slotAt, linkSpec_slots_eq_map, List.getElem?_map]
        cases hg : cs[i]? with
        | none => simp [hg] at h
        | some slot =>
          cases slot with
          | none => simp [hg] at h
          | some child =>
            simp only [hg, Option.some.injEq, Prod.mk.injEq] at h
            obtain ⟨rfl, rfl⟩ := h
            simp
      | cons j p =>
        simp only [slotAt] at h
        simp only [linkSpec, slotAt, linkSpec_slots_eq_map, List.getElem?_map]
        cases hg : cs[i]? with
        | none => simp [hg] at h
        | some slot =>
          cases slot with
          | none => simp [hg] at h
          | some child =>
            simp only [hg] at h
            simp only [Option.map_some']
            cases child with
            | leaf token => simp [slotAt] at h
            | propagatorNode token target => simp [slotAt] at h
            | node tag1 cs1 =>
              rw [linkedSlot_node]
              exact ih _ _ _ h

/-! ## Maps -/

theorem mapFind_append_single {β : Type} (n k : String) (v : β) :
    ∀ m : List (String × β),
      mapFind n (m ++ [(k, v)]) =
        match mapFind n m with
        | some x => some x
        | none => if n = k then some v else none
  | [] => by simp [mapFind]
  | (k1, v1) :: rest => by
    by_cases h : n = k1
    · simp [mapFind, h]
    · simp [mapFind, h, mapFind_append_single n k v rest]

theorem mapFind_mapInsert {β : Type} (n k : String) (v : β) (m : List (String × β)) :
    mapFind n (mapInsert k v m) =
      match mapFind n m with
      | some x => some x
      | none => if n = k then some v else none := by
  unfold mapInsert
  cases hk : mapFind k m with
  | none => exact mapFind_append_single n k v m
  | some x =>
    cases hn : mapFind n m with
    | some y => rfl
    | none =>
      have : n ≠ k := by rintro rfl; simp [hk] at hn
      simp [this, hn]

theorem mapFind_mapStore {β : Type} (n k : String) (v : β) :
    ∀ m : List (String × β),
      mapFind n (mapStore k v m) =
        if n = k then (mapFind k m).map (fun _ => v) else mapFind n m
  | [] => by simp [mapStore, mapFind]
  | (k1, v1) :: rest => by
    by_cases hk : k = k1
    · subst hk
      by_cases hn : n = k
      · simp [mapStore, mapFind, hn]
      · simp [mapStore, mapFind, hn]
    · by_cases hn : n = k
      · subst hn
        simp [mapStore, mapFind, hk, mapFind_mapStore n n v rest]
      · by_cases hn1 : n = k1
        · subst hn1
          simp [mapStore, mapFind, hk, hn]
        · simp [mapStore, mapFind, hk, hn, hn1, mapFind_mapStore n k v rest]

/-! ## The resolution step -/

theorem resolveOthers_frame (filename dependency : String) :
    ∀ (others : List String) (u : Propagator),
      (main.resolveOthers filename dependency others u).analyzer = u.analyzer ∧
      (main.resolveOthers filename dependency others u).got_dependencies = u.got_dependencies ∧
      (main.resolveOthers filename dependency others u).dependency_visitor = u.dependency_visitor ∧
      (main.resolveOthers filename dependency others u).filename = u.filename ∧
      (main.resolveOthers filename dependency others u).content = u.content
  | [], u => by simp [main.resolveOthers]
  | other :: rest, u => by
    unfold main.resolveOthers
    split
    · simpa [Propagator.resolveDependency] using
        resolveOthers_frame filename dependency rest (u.resolveDependency other filename)
    · exact resolveOthers_frame filename dependency rest u

theorem resolveOthers_find (filename dependency n : String) :
    ∀ (others : List String) (u : Propagator),
      mapFind n (main.resolveOthers filename dependency others u).dependencies =
        match mapFind n u.dependencies with
        | some x => some x
        | none => if n = dependency ∧ n ∈ others ∧ n ≠ filename then some filename else none
  | [], u => by
    cases h : mapFind n u.dependencies <;> simp [main.resolveOthers, h]
  | other :: rest, u => by
    unfold main.resolveOthers
    split
    · rename_i hc
      obtain ⟨h1, h2⟩ := hc
      subst h2
      rw [resolveOthers_find filename dependency n rest (u.resolveDependency dependency filename)]
      simp only [Propagator.resolveDependency, mapFind_mapInsert]
      cases h : mapFind n u.dependencies with
      | some x => rfl
      | none =>
        by_cases hn : n = dependency
        · subst hn
          simp [Ne.symm h1]
        · simp [hn]
    · rename_i hc
      rw [resolveOthers_find filename dependency n rest u]
      cases h : mapFind n u.dependencies with
      | some x => rfl
      | none =>
        by_cases hn : n = dependency
        · subst hn
          have hne : ¬ (n ≠ filename ∧ n = other) := by
            rintro ⟨a, b⟩
            exact hc ⟨fun e => a (b.trans e.symm), b⟩
          by_cases ho : n = other
          · have : n = filename := by
              by_contra hf
              exact hne ⟨hf, ho⟩
            simp [this]
          · simp [ho]
        · simp [hn]

theorem resolveDependencies_frame (order : List String) (filename : String) :
    ∀ (found : List String) (u : Propagator),
      (main.resolveDependencies order filename found u).analyzer = u.analyzer ∧
      (main.resolveDependencies order filename found u).got_dependencies = u.got_dependencies ∧
      (main.resolveDependencies order filename found u).dependency_visitor
        = u.dependency_visitor ∧
      (main.resolveDependencies order filename found u).filename = u.filename ∧
      (main.resolveDependencies order filename found u).content = u.content
  | [], u => by simp [main.resolveDependencies]
  | dependency :: rest, u => by
    unfold main.resolveDependencies
    have h1 := resolveDependencies_frame order filename rest
      (main.resolveOthers filename dependency order u)
    have h2 := resolveOthers_frame filename dependency order u
    exact ⟨h1.1.trans h2.1, h1.2.1.trans h2.2.1, h1.2.2.1.trans h2.2.2.1,
      h1.2.2.2.1.trans h2.2.2.2.1, h1.2.2.2.2.trans h2.2.2.2.2⟩

theorem resolveDependencies_find (order : List String) (filename n : String) :
    ∀ (found : List String) (u : Propagator),
      mapFind n (main.resolveDependencies order filename found u).dependencies =
        match mapFind n u.dependencies with
        | some x => some x
        | none => if n ∈ found ∧ n ∈ order ∧ n ≠ filename then some filename else none
  | [], u => by
    cases h : mapFind n u.dependencies <;> simp [main.resolveDependencies, h]
  | dependency :: rest, u => by
    unfold main.resolveDependencies
    rw [resolveDependencies_find order filename n rest
      (main.resolveOthers filename dependency order u), resolveOthers_find]
    cases h : mapFind n u.dependencies with
    | some x => rfl
    | none =>
      by_cases hn : n = dependency
      · subst hn
        by_cases hc : n ∈ order ∧ n ≠ filename
        · simp [hc]
        · have : ¬ (n ∈ rest ∧ n ∈ order ∧ n ≠ filename) := fun a => hc a.2
          simp [hc, this]
      · simp [hn]

/-! ## The parse step -/

theorem synthesizeMacro_append_length (macros : List (String × String)) (content : String) :
    (synthesizeMacro macros ++ content).length ≠ 0 := by
  simp only [synthesizeMacro, String.length_append]
  have : ("`endif\n\n" : String).length = 8 := by decide
  omega

theorem parse_nonempty (analyze : String → String → VerilogAnalyzer) (u : Propagator)
    (content : String) (h : content.length ≠ 0) :
    u.parse analyze content =
      ({ u with content := content, analyzer := some (analyze content u.filename) },
        if (analyze content u.filename).lex_ok = true ∧
            (analyze content u.filename).parse_ok = true then 0 else 1) := by
  unfold Propagator.parse
  simp only [h, if_false]
  cases h1 : (analyze content u.filename).lex_ok <;>
    cases h2 : (analyze content u.filename).parse_ok <;> simp

theorem mapFind_mapInsert_self {β : Type} (k : String) (v : β) (m : List (String × β)) :
    mapFind k (mapInsert k v m) = some ((mapFind k m).getD v) := by
  rw [mapFind_mapInsert]
  cases mapFind k m <;> simp

theorem parseLoop_cons (GetContents : String → Option String)
    (analyze : String → String → VerilogAnalyzer) (macros : String)
    (hm : ∀ c, (macros ++ c).length ≠ 0) (f : String) (rest : List String) (st : Batch)
    (hst : st.parsedOk analyze) (c : String) (hc : GetContents f = some c) :
    ∃ (P1 : List (String × Propagator)) (u1 : Propagator),
      u1.justParsed analyze f ∧ u1.analyzer = some (analyze (macros ++ c) f) ∧
      (∀ k, mapFind k P1 = if k = f then some u1 else mapFind k st.parsed) ∧
      main.parseLoop GetContents analyze macros (f :: rest) st =
        if (analyze (macros ++ c) f).lex_ok = true ∧ (analyze (macros ++ c) f).parse_ok = true
        then main.parseLoop GetContents analyze macros rest
          { parsed := P1, order := st.order ++ [f] }
        else .returned 1 { st with parsed := P1 } := by
  have hu0 : ((mapFind f st.parsed).getD (Propagator.new f)).unresolved ∧
      ((mapFind f st.parsed).getD (Propagator.new f)).filename = f := by
    cases hf : mapFind f st.parsed with
    | none => simp [Propagator.new, Propagator.unresolved]
    | some u =>
      have := hst.1 f u hf
      exact ⟨this.1, this.2.1⟩
  refine ⟨mapStore f { (mapFind f st.parsed).getD (Propagator.new f) with
      content := macros ++ c, analyzer := some (analyze (macros ++ c) f) }
      (mapInsert f (Propagator.new f) st.parsed),
    { (mapFind f st.parsed).getD (Propagator.new f) with
      content := macros ++ c, analyzer := some (analyze (macros ++ c) f) },
    ⟨hu0.1, hu0.2, macros ++ c, rfl⟩, rfl, ?_, ?_⟩
  · intro k
    rw [mapFind_mapStore, mapFind_mapInsert_self]
    by_cases hk : k = f
    · simp [hk]
    · simp only [hk, if_false]
      rw [mapFind_mapInsert]
      cases mapFind k st.parsed <;> simp [hk]
  · simp only [main.parseLoop, hc, mapFind_mapInsert_self, parse_nonempty _ _ _ (hm c), hu0.2]
    by_cases hok : (analyze (macros ++ c) f).lex_ok = true ∧
        (analyze (macros ++ c) f).parse_ok = true
    · simp [hok]
    · simp [hok]

theorem parsedOk_snoc (analyze : String → String → VerilogAnalyzer) (st : Batch) (f : String)
    (P1 : List (String × Propagator)) (u1 : Propagator) (hst : st.parsedOk analyze)
    (hu1 : u1.justParsed analyze f)
    (hP1 : ∀ k, mapFind k P1 = if k = f then some u1 else mapFind k st.parsed) :
    Batch.parsedOk analyze { parsed := P1, order := st.order ++ [f] } := by
  refine ⟨?_, ?_, ?_⟩
  · intro k u hk
    rw [hP1] at hk
    by_cases h : k = f
    · simp only [h, if_true, Option.some.injEq] at hk
      subst hk; subst h; exact hu1
    · simp only [h, if_false] at hk
      exact hst.1 k u hk
  · intro k hk
    simp only [List.mem_append, List.mem_singleton] at hk
    rw [hP1]
    by_cases h : k = f
    · exact ⟨u1, by simp [h]⟩
    · simp only [h, if_false]
      rcases hk with hk | hk
      · exact hst.2.1 k hk
      · exact absurd hk h
  · intro k u hk
    rw [hP1] at hk
    simp only [List.mem_append, List.mem_singleton]
    by_cases h : k = f
    · exact Or.inr h
    · simp only [h, if_false] at hk
      exact Or.inl (hst.2.2 k u hk)

theorem parseLoop_completed (GetContents : String → Option String)
    (analyze : String → String → VerilogAnalyzer) (macros : String)
    (hm : ∀ c, (macros ++ c).length ≠ 0) :
    ∀ (files : List String) (st st1 : Batch), st.parsedOk analyze →
      main.parseLoop GetContents analyze macros files st = .completed st1 →
      st1.parsedOk analyze ∧ st1.order = st.order ++ files
  | [], st, st1, hst, h => by
    simp only [main.parseLoop, LoopResult.completed.injEq] at h
    subst h
    exact ⟨hst, by simp⟩
  | f :: rest, st, st1, hst, h => by
    cases hc : GetContents f with
    | none => simp [main.parseLoop, hc] at h
    | some c =>
      obtain ⟨P1, u1, hu1, _, hP1, hstep⟩ :=
        parseLoop_cons GetContents analyze macros hm f rest st hst c hc
      rw [hstep] at h
      split at h
      · have := parseLoop_completed GetContents analyze macros hm rest _ st1
          (parsedOk_snoc analyze st f P1 u1 hst hu1 hP1) h
        exact ⟨this.1, by simpa using this.2⟩
      · exact absurd h (by simp)

theorem parsedOk_empty (analyze : String → String → VerilogAnalyzer) :
    Batch.parsedOk analyze { parsed := [], order := [] } := by
  refine ⟨?_, ?_, ?_⟩ <;> simp [mapFind]

theorem resolve_step (E : Enums) (order : List String) (k : String) (u u1 : Propagator)
    (found : List String) (hu : u.unresolved ∨ u.resolvedIn E order k)
    (hg : u.getDependencies E = some (found, u1)) :
    (main.resolveDependencies order k found u1).resolvedIn E order k ∧
      (main.resolveDependencies order k found u1).analyzer = u.analyzer := by
  have hframe := resolveDependencies_frame order k found u1
  rcases hu with hu | hu
  · obtain ⟨h1, h2, h3⟩ := hu
    unfold Propagator.getDependencies at hg
    simp only [h1, Bool.false_eq_true, if_false, h2] at hg
    cases ha : u.analyzer with
    | none => simp [ha] at hg
    | some a =>
      cases ht : a.SyntaxTree with
      | none => simp [ha, ht] at hg
      | some t =>
        cases hacc : DependencyVisitor.Accept E t [] with
        | none => simp [ha, ht, hacc] at hg
        | some collected =>
          simp only [ha, ht, hacc, Option.some.injEq, Prod.mk.injEq] at hg
          obtain ⟨rfl, rfl⟩ := hg
          refine ⟨⟨by simpa using hframe.2.1, ⟨a, t, ?_, ht, ?_⟩, ?_⟩, by simpa using hframe.1⟩
          · rw [hframe.1]
          · rw [hframe.2.2.1, hacc]
          · intro n
            rw [resolveDependencies_find, hframe.2.2.1]
            simp [h3, mapFind]
  · obtain ⟨h1, ⟨a, t, ha, ht, hacc⟩, h3⟩ := hu
    unfold Propagator.getDependencies at hg
    simp only [h1, if_true, Option.some.injEq, Prod.mk.injEq] at hg
    obtain ⟨rfl, rfl⟩ := hg
    refine ⟨⟨by rw [hframe.2.1, h1], ⟨a, t, by rw [hframe.1, ha], ht, ?_⟩, ?_⟩, hframe.1⟩
    · rw [hframe.2.2.1, hacc]
    · intro n
      rw [resolveDependencies_find, hframe.2.2.1, h3]
      by_cases hc : n ∈ u.dependency_visitor ∧ n ∈ order ∧ n ≠ k
      · rw [if_pos hc]
      · rw [if_neg hc]

theorem resolveLoop_spec (E : Enums) (order : List String) :
    ∀ (todo : List String) (parsed parsed1 : List (String × Propagator)),
      main.resolveLoop E order todo parsed = some parsed1 →
      (∀ k u, mapFind k parsed = some u → u.unresolved ∨ u.resolvedIn E order k) →
      (∀ k u, mapFind k parsed1 = some u → u.unresolved ∨ u.resolvedIn E order k) ∧
      (∀ k, k ∈ todo → ∃ u, mapFind k parsed1 = some u ∧ u.resolvedIn E order k) ∧
      (∀ k u, mapFind k parsed = some u → ∃ u1, mapFind k parsed1 = some u1 ∧
        u1.analyzer = u.analyzer ∧ (u.resolvedIn E order k → u1.resolvedIn E order k)) ∧
      (∀ k u1, mapFind k parsed1 = some u1 → ∃ u, mapFind k parsed = some u)
  | [], parsed, parsed1, h, hinv => by
    simp only [main.resolveLoop, Option.some.injEq] at h
    subst h
    exact ⟨hinv, by simp, fun k u hk => ⟨u, hk, rfl, id⟩, fun k u hk => ⟨u, hk⟩⟩
  | f :: rest, parsed, parsed1, h, hinv => by
    simp only [main.resolveLoop] at h
    cases hf : mapFind f parsed with
    | none => simp [hf] at h
    | some u =>
      cases hg : u.getDependencies E with
      | none => simp [hf, hg] at h
      | some r =>
        obtain ⟨found, u1⟩ := r
        simp only [hf, hg] at h
        obtain ⟨hres, han⟩ := resolve_step E order f u u1 found (hinv f u hf) hg
        have hfind : ∀ k, mapFind k (mapStore f (main.resolveDependencies order f found u1) parsed)
            = if k = f then some (main.resolveDependencies order f found u1)
              else mapFind k parsed := by
          intro k
          rw [mapFind_mapStore, hf]
          rfl
        have hinv1 : ∀ k v,
            mapFind k (mapStore f (main.resolveDependencies order f found u1) parsed) = some v →
            v.unresolved ∨ v.resolvedIn E order k := by
          intro k v hk
          rw [hfind] at hk
          by_cases hkf : k = f
          · simp only [hkf, if_true, Option.some.injEq] at hk
            subst hk; subst hkf
            exact Or.inr hres
          · simp only [hkf, if_false] at hk
            exact hinv k v hk
        obtain ⟨i1, i2, i3, i4⟩ := resolveLoop_spec E order rest _ parsed1 h hinv1
        refine ⟨i1, ?_, ?_, ?_⟩
        · intro k hk
          rcases List.mem_cons.1 hk with rfl | hk
          · obtain ⟨w, hw1, _, hw3⟩ :=
              i3 k (main.resolveDependencies order k found u1) (by rw [hfind]; simp)
            exact ⟨w, hw1, hw3 hres⟩
          · exact i2 k hk
        · intro k v hk
          by_cases hkf : k = f
          · subst hkf
            rw [hf] at hk
            simp only [Option.some.injEq] at hk
            subst hk
            obtain ⟨w, hw1, hw2, hw3⟩ :=
              i3 k (main.resolveDependencies order k found u1) (by rw [hfind]; simp)
            exact ⟨w, hw1, hw2.trans han, fun _ => hw3 hres⟩
          · exact i3 k v (by rw [hfind]; simpa [hkf] using hk)
        · intro k v hk
          obtain ⟨w, hw⟩ := i4 k v hk
          rw [hfind] at hw
          by_cases hkf : k = f
          · subst hkf; exact ⟨u, hf⟩
          · simp only [hkf, if_false] at hw
            exact ⟨w, hw⟩

theorem getDependencies_total (E : Enums) (order : List String) (k : String) (u : Propagator)
    (hu : u.unresolved ∨ u.resolvedIn E order k)
    (hwf : ∃ a t, u.analyzer = some a ∧ a.SyntaxTree = some t ∧
      includeChildrenAreLeaves E t = true) :
    ∃ r, u.getDependencies E = some r := by
  unfold Propagator.getDependencies
  rcases hu with hu | hu
  · obtain ⟨a, t, ha, ht, hw⟩ := hwf
    obtain ⟨ds, hds, _⟩ := dependencyVisitor_accept_spec E t u.dependency_visitor hw
    simp only [hu.1, ha, ht, hds, Bool.false_eq_true, if_false]
    exact ⟨_, rfl⟩
  · simp only [hu.1, if_true]
    exact ⟨_, rfl⟩

theorem resolveLoop_total (E : Enums) (order : List String) :
    ∀ (todo : List String) (parsed : List (String × Propagator)),
      (∀ k u, mapFind k parsed = some u → u.unresolved ∨ u.resolvedIn E order k) →
      (∀ k, k ∈ todo → ∃ u, mapFind k parsed = some u) →
      (∀ k u, mapFind k parsed = some u → ∃ a t, u.analyzer = some a ∧ a.SyntaxTree = some t ∧
        includeChildrenAreLeaves E t = true) →
      ∃ parsed1, main.resolveLoop E order todo parsed = some parsed1
  | [], parsed, _, _, _ => ⟨parsed, rfl⟩
  | f :: rest, parsed, hinv, hkeys, hwf => by
    obtain ⟨u, hf⟩ := hkeys f (List.mem_cons_self _ _)
    obtain ⟨⟨found, u1⟩, hg⟩ := getDependencies_total E order f u (hinv f u hf) (hwf f u hf)
    obtain ⟨hres, han⟩ := resolve_step E order f u u1 found (hinv f u hf) hg
    have hfind : ∀ k, mapFind k (mapStore f (main.resolveDependencies order f found u1) parsed)
        = if k = f then some (main.resolveDependencies order f found u1)
          else mapFind k parsed := by
      intro k
      rw [mapFind_mapStore, hf]
      rfl
    simp only [main.resolveLoop, hf, hg]
    apply resolveLoop_total E order rest
    · intro k v hk
      rw [hfind] at hk
      by_cases hkf : k = f
      · simp only [hkf, if_true, Option.some.injEq] at hk
        subst hk; subst hkf
        exact Or.inr hres
      · simp only [hkf, if_false] at hk
        exact hinv k v hk
    · intro k hk
      rw [hfind]
      by_cases hkf : k = f
      · exact ⟨main.resolveDependencies order f found u1, by simp [hkf]⟩
      · simp only [hkf, if_false]
        exact hkeys k (List.mem_cons_of_mem _ hk)
    · intro k v hk
      rw [hfind] at hk
      by_cases hkf : k = f
      · simp only [hkf, if_true, Option.some.injEq] at hk
        subst hk
        rw [han]
        exact hwf f u hf
      · simp only [hkf, if_false] at hk
        exact hwf k v hk

theorem replacement_none_of_miss (E : Enums) (deps : List (String × UnitRef)) (tag : Int)
    (child : Symbol)
    (h : ∀ n ∈ (if tag = E.kPreprocessorInclude then operandName E child else []),
      mapFind n deps = none) :
    replacement E deps tag child = none := by
  cases child with
  | leaf token =>
    simp only [replacement]
    split
    · rename_i hc
      have := h (stripQuotes token.text) (by simp [hc.1, hc.2, operandName])
      simp [this]
    · rfl
  | propagatorNode token target =>
    simp only [replacement]
    split
    · rename_i hc
      have := h (stripQuotes token.text) (by simp [hc.1, hc.2, operandName])
      simp [this]
    · rfl
  | node tag1 cs => rfl

mutual
theorem linkSpec_id (E : Enums) (deps : List (String × UnitRef)) :
    ∀ t : Symbol, (∀ n ∈ includeOperandNames E t, mapFind n deps = none) →
      linkSpec E deps t = t
  | .leaf _, _ => rfl
  | .propagatorNode _ _, _ => rfl
  | .node tag children, h => by
    simp only [includeOperandNames] at h
    simp only [linkSpec, linkSpec_slots_id E deps tag children h]
theorem linkSpec_slots_id (E : Enums) (deps : List (String × UnitRef)) (tag : Int) :
    ∀ cs : List (Option Symbol),
      (∀ n ∈ includeOperandNames.slots E tag cs, mapFind n deps = none) →
      linkSpec.slots E deps tag cs = cs
  | [], _ => rfl
  | none :: rest, h => by
    simp only [includeOperandNames.slots] at h
    simp only [linkSpec.slots, linkSpec_slots_id E deps tag rest h]
  | some child :: rest, h => by
    simp only [includeOperandNames.slots, List.mem_append] at h
    have h1 := replacement_none_of_miss E deps tag child (fun n hn => h n (Or.inl (Or.inl hn)))
    have h2 := linkSpec_id E deps child (fun n hn => h n (Or.inl (Or.inr hn)))
    have h3 := linkSpec_slots_id E deps tag rest (fun n hn => h n (Or.inr hn))
    simp only [linkSpec.slots, h1, h2, h3]
end

theorem nodeHead_linkSpec (E : Enums) (deps : List (String × UnitRef)) (t : Symbol) :
    nodeHead (linkSpec E deps t) = nodeHead t := by
  cases t with
  | leaf token => rfl
  | propagatorNode token target => rfl
  | node tag cs => simp [linkSpec, nodeHead, linkSpec_slots_eq_map]

theorem propagateCalls_eq (E : Enums) (u : Propagator) (a : VerilogAnalyzer) (t t1 : Symbol)
    (ha : u.analyzer = some a) (ht : a.SyntaxTree = some t)
    (h1 : ResolveDependencyVisitor.Accept E u.dependencies t = some t1) :
    u.propagateCalls E =
      some ({ u with
              analyzer := some { a with SyntaxTree := some (ConstantVisitor.Accept E t1) } },
        [{ visitor := .resolve_dependency_visitor u.dependencies, tree := t },
         { visitor := .constant_visitor, tree := t1 }]) := by
  simp only [Propagator.propagateCalls, Propagator.acceptRecorded, Propagator.tree,
    MutableTreeVisitor.Accept, Propagator.acceptMutable, ha, ht, h1, List.nil_append,
    List.singleton_append]

theorem propagateCalls_none (E : Enums) (u : Propagator) :
    u.propagateCalls E = none ↔
      u.tree = none ∨
        ∃ t, u.tree = some t ∧ ResolveDependencyVisitor.Accept E u.dependencies t = none := by
  cases ha : u.analyzer with
  | none =>
    simp [Propagator.propagateCalls, Propagator.acceptRecorded, Propagator.tree, ha]
  | some a =>
    cases ht : a.SyntaxTree with
    | none =>
      simp [Propagator.propagateCalls, Propagator.acceptRecorded, Propagator.tree, ha, ht]
    | some t =>
      cases hr : ResolveDependencyVisitor.Accept E u.dependencies t with
      | none =>
        simp [Propagator.propagateCalls, Propagator.acceptRecorded, Propagator.tree,
          MutableTreeVisitor.Accept, Propagator.acceptMutable, ha, ht, hr]
      | some t1 =>
        rw [propagateCalls_eq E u a t t1 ha ht hr]
        simp [Propagator.tree, ha, ht, hr]

theorem propagate_eq (E : Enums) (u : Propagator) (a : VerilogAnalyzer) (t t1 : Symbol)
    (ha : u.analyzer = some a) (ht : a.SyntaxTree = some t)
    (h1 : ResolveDependencyVisitor.Accept E u.dependencies t = some t1) :
    u.propagate E = some { u with analyzer := some { a with SyntaxTree := some t1 } } := by
  rw [Propagator.propagate, propagateCalls_eq E u a t t1 ha ht h1, constantVisitor_accept_id]
  rfl

theorem parseLoop_prefix (GetContents : String → Option String)
    (analyze : String → String → VerilogAnalyzer) (macros : String)
    (hm : ∀ c, (macros ++ c).length ≠ 0) (more : List String) :
    ∀ (pre : List String) (st : Batch), st.parsedOk analyze →
      (∀ f ∈ pre, ∃ c, GetContents f = some c ∧ (analyze (macros ++ c) f).lex_ok = true ∧
        (analyze (macros ++ c) f).parse_ok = true) →
      ∃ st1 : Batch, st1.parsedOk analyze ∧ st1.order = st.order ++ pre ∧
        main.parseLoop GetContents analyze macros (pre ++ more) st =
          main.parseLoop GetContents analyze macros more st1
  | [], st, hst, _ => ⟨st, hst, by simp, rfl⟩
  | f :: pre, st, hst, hpre => by
    obtain ⟨c, hc, hl, hp⟩ := hpre f (List.mem_cons_self _ _)
    obtain ⟨P1, u1, hu1, _, hP1, hstep⟩ :=
      parseLoop_cons GetContents analyze macros hm f (pre ++ more) st hst c hc
    obtain ⟨st1, h1, h2, h3⟩ := parseLoop_prefix GetContents analyze macros hm more pre
      { parsed := P1, order := st.order ++ [f] } (parsedOk_snoc analyze st f P1 u1 hst hu1 hP1)
      (fun g hg => hpre g (List.mem_cons_of_mem _ hg))
    refine ⟨st1, h1, by simpa using h2, ?_⟩
    rw [List.cons_append, hstep, if_pos ⟨hl, hp⟩, h3]

theorem eq_singleton_of_nodup (s : String) :
    ∀ ds : List String, ds.Nodup → (∀ n, n ∈ ds ↔ n = s) → ds = [s]
  | [], _, h => absurd ((h s).2 rfl) (by simp)
  | a :: rest, hn, h => by
    have ha : a = s := (h a).1 (List.mem_cons_self _ _)
    subst ha
    have hr : rest = [] := by
      cases rest with
      | nil => rfl
      | cons b rest1 =>
        have hb : b = a := (h b).1 (by simp)
        subst hb
        simp at hn
    rw [hr]

/-! ## The batch driver: the resolution step, the claims -/

/-- C1, evaluated on the batch `A.sv`, `B.sv` in which `A.sv` includes
`"B.sv"`: after the resolution step, and at the end of `main`, the
resolved-reference map of `A.sv` associates the name `B.sv` with the unit
`A.sv` itself, not with the unit whose identity is `B.sv`. -/
theorem C1_resolved_reference_is_the_referencing_unit :
    (main.resolvePhase exampleEnums
        (match main.parsePhase exampleGetContents exampleAnalyze [] ["A.sv", "B.sv"] with
          | .completed state => state
          | _ => { parsed := [], order := [] })).bind
      (fun state => (mapFind "A.sv" state.parsed).bind
        (fun unit => mapFind "B.sv" unit.dependencies)) = some "A.sv" ∧
    (main exampleEnums exampleGetContents exampleAnalyze [] ["A.sv", "B.sv"]).bind
      (fun result => (mapFind "A.sv" result.2.parsed).bind
        (fun unit => mapFind "B.sv" unit.dependencies)) = some "A.sv" ∧
    (main exampleEnums exampleGetContents exampleAnalyze [] ["A.sv", "B.sv"]).bind
      (fun result => (mapFind "A.sv" result.2.parsed).bind Propagator.tree) =
      some (.node 0 [none, some (.node 1 [some (.leaf ⟨9, "`include", 0⟩),
        some (.propagatorNode ⟨3, "\"B.sv\"", 9⟩ "A.sv")])]) :=
  ⟨rfl, rfl, rfl⟩

/-- C2: after the resolution step of `main`, for every unit `A` of the batch
and every string `n`, `n` is a key of the resolved-reference map of `A` if and
only if `n` is in the reference set extracted from the tree of `A` and `n`
equals the identity of a unit of the batch other than `A`; the tree of `A` is
the one the parse step left.  The resolution step runs to its end whenever
every unit holds a tree whose include nodes have only leaves and null slots
below them. -/
theorem C2_resolved_keys_are_pairwise_matches (E : Enums)
    (GetContents : String → Option String)
    (AnalyzeAutomaticMode : String → String → VerilogAnalyzer)
    (macros : List (String × String)) (files : List String) (st : Batch)
    (hparse : main.parsePhase GetContents AnalyzeAutomaticMode macros files = .completed st) :
    ((∀ k u, mapFind k st.parsed = some u → ∃ a t, u.analyzer = some a ∧
        a.SyntaxTree = some t ∧ includeChildrenAreLeaves E t = true) →
      ∃ st1, main.resolvePhase E st = some st1) ∧
    (∀ st1, main.resolvePhase E st = some st1 →
      st1.order = files ∧
      ∀ A ∈ files, ∃ u0 u a t, mapFind A st.parsed = some u0 ∧ mapFind A st1.parsed = some u ∧
        u.analyzer = u0.analyzer ∧ u.analyzer = some a ∧ a.SyntaxTree = some t ∧
        DependencyVisitor.Accept E t [] = some u.dependency_visitor ∧
        ∀ n, (∃ p, mapFind n u.dependencies = some p) ↔
          (n ∈ u.dependency_visitor ∧ ∃ B ∈ files, B ≠ A ∧ n = B)) := by
  obtain ⟨hok, hord⟩ := parseLoop_completed GetContents AnalyzeAutomaticMode
    (synthesizeMacro macros) (synthesizeMacro_append_length macros) files _ st
    (parsedOk_empty AnalyzeAutomaticMode) hparse
  simp only [List.nil_append] at hord
  have hinv : ∀ k u, mapFind k st.parsed = some u →
      u.unresolved ∨ u.resolvedIn E st.order k := fun k u hk => Or.inl (hok.1 k u hk).1
  refine ⟨?_, ?_⟩
  · intro hwf
    obtain ⟨parsed1, h1⟩ := resolveLoop_total E st.order st.order st.parsed hinv hok.2.1 hwf
    exact ⟨{ st with parsed := parsed1 }, by simp only [main.resolvePhase, h1]⟩
  · intro st1 hres
    unfold main.resolvePhase at hres
    cases hl : main.resolveLoop E st.order st.order st.parsed with
    | none => simp [hl] at hres
    | some parsed1 =>
      simp only [hl, Option.some.injEq] at hres
      subst hres
      obtain ⟨_, i2, i3, _⟩ := resolveLoop_spec E st.order st.order st.parsed parsed1 hl hinv
      refine ⟨hord, ?_⟩
      intro A hA
      rw [← hord] at hA
      obtain ⟨u0, hu0⟩ := hok.2.1 A hA
      obtain ⟨u, hu, hsame, _⟩ := i3 A u0 hu0
      obtain ⟨u', hu', hr⟩ := i2 A hA
      have : u' = u := by
        have := hu'.symm.trans hu
        simpa using this
      subst this
      obtain ⟨_, ⟨a, t, ha, ht, hacc⟩, hfind⟩ := hr
      refine ⟨u0, u', a, t, hu0, hu, hsame, ha, ht, hacc, ?_⟩
      intro n
      rw [hfind n, ← hord]
      constructor
      · rintro ⟨p, hp⟩
        split at hp
        · rename_i hc
          exact ⟨hc.1, n, hc.2.1, hc.2.2, rfl⟩
        · exact absurd hp (by simp)
      · rintro ⟨h1, B, hB, hne, rfl⟩
        exact ⟨A, by rw [if_pos ⟨h1, hB, hne⟩]⟩

/-- Witness for C2 on the batch `A.sv`, `B.sv`, `C.sv`: the two units that
reference each other both get resolved, and `C.sv`, which references its own
identity, does not. -/
theorem C2_resolved_keys_are_pairwise_matches_witness :
    main.parsePhase exampleGetContents exampleAnalyze [] ["A.sv", "B.sv", "C.sv"]
      = .completed exampleParsed ∧
    main.resolvePhase exampleEnums exampleParsed = some exampleResolved ∧
    exampleResolved.parsed.map
        (fun p => (p.1, p.2.dependency_visitor, p.2.dependencies.map Prod.fst))
      = [("A.sv", ["B.sv"], ["B.sv"]), ("B.sv", ["A.sv"], ["A.sv"]), ("C.sv", ["C.sv"], [])] ∧
    exampleResolved.order = ["A.sv", "B.sv", "C.sv"] ∧
    ∀ A ∈ ["A.sv", "B.sv", "C.sv"], ∃ u0 u a t,
      mapFind A exampleParsed.parsed = some u0 ∧ mapFind A exampleResolved.parsed = some u ∧
      u.analyzer = u0.analyzer ∧ u.analyzer = some a ∧ a.SyntaxTree = some t ∧
      DependencyVisitor.Accept exampleEnums t [] = some u.dependency_visitor ∧
      ∀ n, (∃ p, mapFind n u.dependencies = some p) ↔
        (n ∈ u.dependency_visitor ∧ ∃ B ∈ ["A.sv", "B.sv", "C.sv"], B ≠ A ∧ n = B) :=
  ⟨rfl, rfl, rfl,
    (C2_resolved_keys_are_pairwise_matches exampleEnums exampleGetContents exampleAnalyze []
      ["A.sv", "B.sv", "C.sv"] exampleParsed rfl).2 exampleResolved rfl⟩

/-! ## Dependency extraction: the claims -/

/-- C3, as amended: for every syntax tree in which every non-null child of a
node tagged `kPreprocessorInclude` is a leaf, `DependencyVisitor` ends its
traversal with a duplicate-free set whose members are exactly the
quote-stripped texts of the leaf children of kind `TK_StringLiteral` of the
nodes tagged `kPreprocessorInclude`, at any depth, null slots being skipped;
and for every tree without a `kPreprocessorInclude` node it ends with the empty
set. -/
theorem C3_dependencyVisitor_collects (E : Enums) (t : Symbol) :
    (includeChildrenAreLeaves E t = true →
      ∃ ds, DependencyVisitor.Accept E t [] = some ds ∧ ds.Nodup ∧
        ∀ n, n ∈ ds ↔ n ∈ includeOperandNames E t) ∧
    (hasInclude E t = false → DependencyVisitor.Accept E t [] = some []) := by
  refine ⟨?_, dependencyVisitor_accept_noInclude E t []⟩
  intro h
  obtain ⟨ds, h1, hm, hn⟩ := dependencyVisitor_accept_spec E t [] h
  exact ⟨ds, h1, hn List.nodup_nil, fun n => by simpa using hm n⟩

/-- Witness for C3 on the tree of a file that includes `"foo.sv"`, and on a
tree without an include node. -/
theorem C3_dependencyVisitor_collects_witness :
    includeChildrenAreLeaves exampleEnums (exampleIncludeTree "\"foo.sv\"") = true ∧
    (∃ ds, DependencyVisitor.Accept exampleEnums (exampleIncludeTree "\"foo.sv\"") [] = some ds ∧
      ds.Nodup ∧
      ∀ n, n ∈ ds ↔ n ∈ includeOperandNames exampleEnums (exampleIncludeTree "\"foo.sv\"")) ∧
    hasInclude exampleEnums (.node 0 [none, some (.leaf ⟨3, "\"foo.sv\"", 0⟩)]) = false ∧
    DependencyVisitor.Accept exampleEnums (.node 0 [none, some (.leaf ⟨3, "\"foo.sv\"", 0⟩)]) []
      = some [] :=
  ⟨rfl,
    (C3_dependencyVisitor_collects exampleEnums (exampleIncludeTree "\"foo.sv\"")).1 rfl,
    rfl,
    (C3_dependencyVisitor_collects exampleEnums
      (.node 0 [none, some (.leaf ⟨3, "\"foo.sv\"", 0⟩)])).2 rfl⟩

/-- C3 fails as stated: on a tree whose `kPreprocessorInclude` node has an
interior child the visitor does not collect the set of the claim (the empty
set, the node having no string-literal leaf child): the cast of that child to
a leaf fails and no set is produced. -/
theorem C3_counterexample_interior_child :
    includeOperandNames exampleEnums exampleInteriorOperand = [] ∧
    DependencyVisitor.Accept exampleEnums exampleInteriorOperand [] = none ∧
    ¬ ∃ ds, DependencyVisitor.Accept exampleEnums exampleInteriorOperand [] = some ds ∧
      ∀ n, n ∈ ds ↔ n ∈ includeOperandNames exampleEnums exampleInteriorOperand := by
  refine ⟨rfl, rfl, ?_⟩
  rintro ⟨ds, h, _⟩
  have hnone : DependencyVisitor.Accept exampleEnums exampleInteriorOperand [] = none := rfl
  rw [hnone] at h
  exact Option.noConfusion h

/-- C4: for every string `s` without a double-quote character, a string-literal
operand with text `"s"` under an include node contributes exactly the name `s`
to the set, so an include construct with that operand, and every tree whose
include operands all have that text, yields exactly the set with the one member
`s`; and no name of an extracted set contains a double-quote character. -/
theorem C4_operand_name_is_unquoted (E : Enums) (s : String) (h : '"' ∉ s.data) :
    stripQuotes ("\"" ++ s ++ "\"") = s ∧
    (∀ (left : Nat) (rest : List (Option Symbol)) (acc : List String),
      DependencyVisitor.VisitChildren E E.kPreprocessorInclude
          (some (.leaf ⟨E.TK_StringLiteral, "\"" ++ s ++ "\"", left⟩) :: rest) acc
        = DependencyVisitor.VisitChildren E E.kPreprocessorInclude rest (setInsert s acc)) ∧
    (∀ (keyword : TokenInfo) (left : Nat), keyword.token_enum ≠ E.TK_StringLiteral →
      DependencyVisitor.Accept E
          (.node E.kPreprocessorInclude
            [some (.leaf keyword),
              some (.leaf ⟨E.TK_StringLiteral, "\"" ++ s ++ "\"", left⟩)]) []
        = some [s]) ∧
    (∀ t : Symbol, includeChildrenAreLeaves E t = true →
      (∀ n, n ∈ includeOperandNames E t ↔ n = stripQuotes ("\"" ++ s ++ "\"")) →
      DependencyVisitor.Accept E t [] = some [s]) ∧
    (∀ (t : Symbol) (ds : List String), DependencyVisitor.Accept E t [] = some ds →
      ∀ n ∈ ds, '"' ∉ n.data) := by
  have hs := stripQuotes_quoted s h
  refine ⟨hs, ?_, ?_, ?_, ?_⟩
  · intro left rest acc
    simp only [DependencyVisitor.VisitChildren, DependencyVisitor.noteChild, convert2Leaf,
      if_true, hs, DependencyVisitor.Accept]
  · intro keyword left hk
    simp only [DependencyVisitor.Accept, DependencyVisitor.VisitChildren,
      DependencyVisitor.noteChild, convert2Leaf, if_true, hs, hk, if_false, setInsert,
      List.not_mem_nil, List.nil_append]
  · intro t hw hn
    obtain ⟨ds, h1, hm, hnd⟩ := dependencyVisitor_accept_spec E t [] hw
    rw [h1, eq_singleton_of_nodup s ds (hnd List.nodup_nil)
      (fun n => by rw [hm n, hn n, hs]; simp)]
  · intro t ds hd
    exact dependencyVisitor_accept_noQuote E t [] ds hd (by simp)

/-- Witness for C4 with the name `foo.sv`. -/
theorem C4_operand_name_is_unquoted_witness :
    '"' ∉ ("foo.sv" : String).data ∧
    stripQuotes ("\"" ++ "foo.sv" ++ "\"") = "foo.sv" ∧
    DependencyVisitor.Accept exampleEnums
        (.node 1 [some (.leaf ⟨9, "`include", 0⟩), some (.leaf ⟨3, "\"" ++ "foo.sv" ++ "\"", 9⟩)]) []
      = some ["foo.sv"] :=
  ⟨by decide,
    (C4_operand_name_is_unquoted exampleEnums "foo.sv" (by decide)).1,
    (C4_operand_name_is_unquoted exampleEnums "foo.sv" (by decide)).2.2.1 ⟨9, "`include", 0⟩
      9 (by decide)⟩

/-! ## The link rewrite and the propagation of one unit: the claims -/

/-- C5, as amended: for every resolved-reference map and every tree in which
every non-null child of a `kPreprocessorInclude` node is a leaf, the link
rewrite yields the tree in which a slot is replaced if and only if it holds a
leaf of kind `TK_StringLiteral` under a `kPreprocessorInclude` node whose
quote-stripped text is a key of the map, the replacement being a leaf with the
identical token and the unit the map gives for that name; the left-to-right
sequence of leaf tokens is the same before and after the rewrite. -/
theorem C5_link_rewrite_replaces_resolved_operands (E : Enums)
    (deps : List (String × UnitRef)) (t : Symbol)
    (h : includeChildrenAreLeaves E t = true) :
    ResolveDependencyVisitor.Accept E deps t = some (linkSpec E deps t) ∧
    leafTokens (linkSpec E deps t) = leafTokens t ∧
    ∀ (tag : Int) (child linked : Symbol),
      replacement E deps tag child = some linked ↔
        ∃ token target, convert2Leaf child = some token ∧ tag = E.kPreprocessorInclude ∧
          token.token_enum = E.TK_StringLiteral ∧
          mapFind (stripQuotes token.text) deps = some target ∧
          linked = .propagatorNode token target := by
  refine ⟨resolveVisitor_accept_eq E deps t h, leafTokens_linkSpec E deps t, ?_⟩
  intro tag child linked
  constructor
  · exact replacement_some E deps tag child linked
  · rintro ⟨token, target, hc, ht, hk, hm, rfl⟩
    cases child with
    | leaf tk =>
      simp only [convert2Leaf, Option.some.injEq] at hc
      subst hc
      simp [replacement, ht, hk, hm]
    | propagatorNode tk old =>
      simp only [convert2Leaf, Option.some.injEq] at hc
      subst hc
      simp [replacement, ht, hk, hm]
    | node tag1 cs => simp [convert2Leaf] at hc

/-- Witness for C5: the include of `"B.sv"` is linked to the unit the map gives
for `B.sv`. -/
theorem C5_link_rewrite_replaces_resolved_operands_witness :
    includeChildrenAreLeaves exampleEnums (exampleIncludeTree "\"B.sv\"") = true ∧
    ResolveDependencyVisitor.Accept exampleEnums [("B.sv", "unit B")]
        (exampleIncludeTree "\"B.sv\"")
      = some (.node 0 [none, some (.node 1 [some (.leaf ⟨9, "`include", 0⟩),
          some (.propagatorNode ⟨3, "\"B.sv\"", 9⟩ "unit B")])]) :=
  ⟨rfl, (C5_link_rewrite_replaces_resolved_operands exampleEnums [("B.sv", "unit B")]
    (exampleIncludeTree "\"B.sv\"") rfl).1⟩

/-- C5 fails as stated: on a tree whose `kPreprocessorInclude` node has an
interior child the link rewrite does not yield the tree of the claim; it fails
the cast of that child to a leaf. -/
theorem C5_counterexample_interior_child :
    ResolveDependencyVisitor.Accept exampleEnums [("B.sv", "unit B")] exampleInteriorOperand
      ≠ some (linkSpec exampleEnums [("B.sv", "unit B")] exampleInteriorOperand) := by
  have hnone : ResolveDependencyVisitor.Accept exampleEnums [("B.sv", "unit B")]
      exampleInteriorOperand = none := rfl
  rw [hnone]
  exact fun h => Option.noConfusion h

/-- C6, as amended: under a `kPreprocessorInclude` node, a leaf whose
quote-stripped text is not a key of the resolved-reference map is left in its
slot unmodified and the loop goes on to the next slot; and for every unit whose
tree has only leaves and null slots under its `kPreprocessorInclude` nodes, when
no referenced name of the tree is a key of the unit's map, and in particular
when the map is empty, `Propagator::propagate` leaves the unit, and so its
tree, identical. -/
theorem C6_unresolved_operand_left_unmodified (E : Enums) (u : Propagator)
    (a : VerilogAnalyzer) (t : Symbol) (ha : u.analyzer = some a) (ht : a.SyntaxTree = some t)
    (h : includeChildrenAreLeaves E t = true) :
    (∀ (tag : Int) (child : Symbol) (token : TokenInfo) (rest : List (Option Symbol)),
      convert2Leaf child = some token →
      mapFind (stripQuotes token.text) u.dependencies = none →
      ResolveDependencyVisitor.linkChild E u.dependencies tag child = some child ∧
      ResolveDependencyVisitor.VisitChildren E u.dependencies tag (some child :: rest) =
        (ResolveDependencyVisitor.VisitChildren E u.dependencies tag rest).map
          (fun rest1 => some child :: rest1)) ∧
    ((∀ n ∈ includeOperandNames E t, mapFind n u.dependencies = none) →
      u.propagate E = some u) ∧
    (u.dependencies = [] → u.propagate E = some u) := by
  have hmiss : (∀ n ∈ includeOperandNames E t, mapFind n u.dependencies = none) →
      u.propagate E = some u := by
    intro hn
    have h1 := resolveVisitor_accept_eq E u.dependencies t h
    rw [linkSpec_id E u.dependencies t hn] at h1
    rw [propagate_eq E u a t t ha ht h1]
    cases u with
    | mk filename content analyzer got visitor deps =>
      simp only at ha
      subst ha
      cases a with
      | mk l p s =>
        simp only at ht
        subst ht
        rfl
  refine ⟨?_, hmiss, ?_⟩
  · intro tag child token rest hc hm
    have hl : ResolveDependencyVisitor.linkChild E u.dependencies tag child = some child := by
      unfold ResolveDependencyVisitor.linkChild
      simp only [hc, hm]
      split
      · split <;> rfl
      · rfl
    have hacc : ResolveDependencyVisitor.Accept E u.dependencies child = some child := by
      cases child with
      | leaf tk => rfl
      | propagatorNode tk p => rfl
      | node tag1 cs => simp [convert2Leaf] at hc
    refine ⟨hl, ?_⟩
    simp only [ResolveDependencyVisitor.VisitChildren, hacc, hl]
    cases ResolveDependencyVisitor.VisitChildren E u.dependencies tag rest <;> rfl
  · intro hd
    apply hmiss
    intro n _
    rw [hd]
    rfl

/-- Witness for C6: a unit that includes `"B.sv"` and has an empty
resolved-reference map is left identical by `propagate`. -/
theorem C6_unresolved_operand_left_unmodified_witness :
    (exampleUnit (exampleIncludeTree "\"B.sv\"") []).analyzer
      = some { lex_ok := true, parse_ok := true,
               SyntaxTree := some (exampleIncludeTree "\"B.sv\"") } ∧
    includeChildrenAreLeaves exampleEnums (exampleIncludeTree "\"B.sv\"") = true ∧
    (exampleUnit (exampleIncludeTree "\"B.sv\"") []).propagate exampleEnums
      = some (exampleUnit (exampleIncludeTree "\"B.sv\"") []) :=
  ⟨rfl, rfl,
    (C6_unresolved_operand_left_unmodified exampleEnums
      (exampleUnit (exampleIncludeTree "\"B.sv\"") [])
      { lex_ok := true, parse_ok := true, SyntaxTree := some (exampleIncludeTree "\"B.sv\"") }
      (exampleIncludeTree "\"B.sv\"") rfl rfl rfl).2.2 rfl⟩

/-- C6 fails as stated: for a unit with an empty resolved-reference map whose
tree has an interior child under a `kPreprocessorInclude` node, `propagate`
does not leave an identical tree; it fails the cast of that child to a leaf. -/
theorem C6_counterexample_interior_child :
    (exampleUnit exampleInteriorOperand []).dependencies = [] ∧
    (exampleUnit exampleInteriorOperand []).propagate exampleEnums = none ∧
    (exampleUnit exampleInteriorOperand []).propagate exampleEnums
      ≠ some (exampleUnit exampleInteriorOperand []) := by
  have hnone : (exampleUnit exampleInteriorOperand []).propagate exampleEnums = none := rfl
  refine ⟨rfl, hnone, ?_⟩
  rw [hnone]
  exact fun h => Option.noConfusion h

/-- C7, as amended: for every unit whose tree has only leaves and null slots
under its `kPreprocessorInclude` nodes, `Propagator::propagate` ends and the
number of leaves and interior nodes reachable from the root is the same
afterwards; the root is the same node, and every slot that held a node still
holds one: the replacement when the node was a replaced include operand, and
otherwise the same node (same token or linked unit for a leaf, same tag and
number of slots for an interior node). -/
theorem C7_propagate_preserves_nodes (E : Enums) (u : Propagator) (a : VerilogAnalyzer)
    (t : Symbol) (ha : u.analyzer = some a) (ht : a.SyntaxTree = some t)
    (h : includeChildrenAreLeaves E t = true) :
    ∃ u1 t1, u.propagate E = some u1 ∧ u1.tree = some t1 ∧
      nodeCount t1 = nodeCount t ∧ nodeHead t1 = nodeHead t ∧
      ∀ (path : List Nat) (tag : Int) (s : Symbol), slotAt t path = some (tag, s) →
        ∃ s1, slotAt t1 path = some (tag, s1) ∧
          (replacement E u.dependencies tag s = none → nodeHead s1 = nodeHead s) ∧
          (∀ linked, replacement E u.dependencies tag s = some linked → s1 = linked) := by
  have h1 := resolveVisitor_accept_eq E u.dependencies t h
  refine ⟨_, linkSpec E u.dependencies t, propagate_eq E u a t _ ha ht h1, rfl,
    nodeCount_linkSpec E u.dependencies t, nodeHead_linkSpec E u.dependencies t, ?_⟩
  intro path tag s hs
  refine ⟨_, slotAt_linkSpec E u.dependencies path t tag s hs, ?_, ?_⟩
  · intro hr
    simp only [linkedSlot, hr]
    exact nodeHead_linkSpec E u.dependencies s
  · intro linked hr
    simp only [linkedSlot, hr]

/-- Witness for C7: a unit that includes `"B.sv"`, resolved to the unit `B.sv`;
the operand slot, at path `1, 1`, holds the replacement afterwards. -/
theorem C7_propagate_preserves_nodes_witness :
    includeChildrenAreLeaves exampleEnums (exampleIncludeTree "\"B.sv\"") = true ∧
    ∃ u1 t1, (exampleUnit (exampleIncludeTree "\"B.sv\"") [("B.sv", "B.sv")]).propagate
        exampleEnums = some u1 ∧ u1.tree = some t1 ∧
      nodeCount t1 = nodeCount (exampleIncludeTree "\"B.sv\"") ∧
      nodeHead t1 = nodeHead (exampleIncludeTree "\"B.sv\"") ∧
      ∀ (path : List Nat) (tag : Int) (s : Symbol),
        slotAt (exampleIncludeTree "\"B.sv\"") path = some (tag, s) →
        ∃ s1, slotAt t1 path = some (tag, s1) ∧
          (replacement exampleEnums
              (exampleUnit (exampleIncludeTree "\"B.sv\"") [("B.sv", "B.sv")]).dependencies tag s
            = none → nodeHead s1 = nodeHead s) ∧
          (∀ linked, replacement exampleEnums
              (exampleUnit (exampleIncludeTree "\"B.sv\"") [("B.sv", "B.sv")]).dependencies tag s
            = some linked → s1 = linked) :=
  ⟨rfl, C7_propagate_preserves_nodes exampleEnums
    (exampleUnit (exampleIncludeTree "\"B.sv\"") [("B.sv", "B.sv")])
    { lex_ok := true, parse_ok := true, SyntaxTree := some (exampleIncludeTree "\"B.sv\"") }
    (exampleIncludeTree "\"B.sv\"") rfl rfl rfl⟩

/-- C7 fails as stated: for a unit whose tree has an interior child under a
`kPreprocessorInclude` node there is no tree after `propagate` with the node
count of the tree before; `propagate` fails the cast of that child to a leaf. -/
theorem C7_counterexample_interior_child :
    ¬ ∃ u1 t1, (exampleUnit exampleInteriorOperand [("B.sv", "B.sv")]).propagate exampleEnums
        = some u1 ∧ u1.tree = some t1 ∧ nodeCount t1 = nodeCount exampleInteriorOperand := by
  have hnone : (exampleUnit exampleInteriorOperand [("B.sv", "B.sv")]).propagate exampleEnums
      = none := rfl
  rintro ⟨u1, t1, h, _⟩
  rw [hnone] at h
  exact Option.noConfusion h

/-- C8, as amended: for every tree in which every non-null child of a
`kPreprocessorInclude` node is a leaf, `ResolveDependencyVisitor` ends and every
interior node has the same tag, the same number of child slots and null slots
at the same positions as before; `ConstantVisitor` ends on every tree with the
same tags, slots and null slots.  No traversal inserts or removes a slot. -/
theorem C8_traversals_preserve_slots (E : Enums) (t : Symbol) :
    (∀ deps : List (String × UnitRef), includeChildrenAreLeaves E t = true →
      ∃ t1, ResolveDependencyVisitor.Accept E deps t = some t1 ∧ skeleton t1 = skeleton t) ∧
    skeleton (ConstantVisitor.Accept E t) = skeleton t := by
  refine ⟨?_, by rw [constantVisitor_accept_id]⟩
  intro deps h
  exact ⟨_, resolveVisitor_accept_eq E deps t h, skeleton_linkSpec E deps t⟩

/-- Witness for C8 on the tree of a file that includes `"B.sv"`. -/
theorem C8_traversals_preserve_slots_witness :
    includeChildrenAreLeaves exampleEnums (exampleIncludeTree "\"B.sv\"") = true ∧
    (∃ t1, ResolveDependencyVisitor.Accept exampleEnums [("B.sv", "B.sv")]
        (exampleIncludeTree "\"B.sv\"") = some t1 ∧
      skeleton t1 = skeleton (exampleIncludeTree "\"B.sv\"")) ∧
    skeleton (ConstantVisitor.Accept exampleEnums (exampleIncludeTree "\"B.sv\""))
      = skeleton (exampleIncludeTree "\"B.sv\"") :=
  ⟨rfl,
    (C8_traversals_preserve_slots exampleEnums (exampleIncludeTree "\"B.sv\"")).1
      [("B.sv", "B.sv")] rfl,
    (C8_traversals_preserve_slots exampleEnums (exampleIncludeTree "\"B.sv\"")).2⟩

/-- C8 fails as stated: on a tree whose `kPreprocessorInclude` node has an
interior child, `ResolveDependencyVisitor` leaves no tree with the slots of the
tree before; it fails the cast of that child to a leaf. -/
theorem C8_counterexample_interior_child :
    ¬ ∃ t1, ResolveDependencyVisitor.Accept exampleEnums [] exampleInteriorOperand = some t1 ∧
      skeleton t1 = skeleton exampleInteriorOperand := by
  have hnone : ResolveDependencyVisitor.Accept exampleEnums [] exampleInteriorOperand = none :=
    rfl
  rintro ⟨t1, h, _⟩
  rw [hnone] at h
  exact Option.noConfusion h

/-- C9: `Propagator::propagate` makes two `Accept` calls on the tree of the
unit's analyzer, in this order: the first hands the original tree to the
`ResolveDependencyVisitor` built on the unit, the second hands the
`ConstantVisitor` the tree the first call left, so the constant pass runs after
linking and sees the linked tree; the tree after `propagate` is the result of
`ConstantVisitor` applied to the result of `ResolveDependencyVisitor`, run with
the unit's resolved-reference map, applied to the original tree.  On a tree
with only leaves and null slots under its include nodes the calls are made and
the tree the constant pass is handed is the tree with every resolved operand
replaced.  `propagate` yields nothing exactly when the unit has no tree or the
link rewrite fails, and whenever it returns it has made these two calls and no
other. -/
theorem C9_propagate_is_link_then_constant (E : Enums) (u : Propagator) :
    ((u.propagate E).bind Propagator.tree =
      u.tree.bind (fun t =>
        (ResolveDependencyVisitor.Accept E u.dependencies t).map
          (ConstantVisitor.Accept E))) ∧
    (∀ t t1 : Symbol, u.tree = some t →
      ResolveDependencyVisitor.Accept E u.dependencies t = some t1 →
      ∃ u1, u.propagateCalls E = some (u1,
          [{ visitor := .resolve_dependency_visitor u.dependencies, tree := t },
           { visitor := .constant_visitor, tree := t1 }]) ∧
        u.propagate E = some u1 ∧
        u1.tree = some (ConstantVisitor.Accept E t1)) ∧
    (∀ t : Symbol, u.tree = some t → includeChildrenAreLeaves E t = true →
      ∃ u1, u.propagateCalls E = some (u1,
          [{ visitor := .resolve_dependency_visitor u.dependencies, tree := t },
           { visitor := .constant_visitor, tree := linkSpec E u.dependencies t }]) ∧
        u.propagate E = some u1) ∧
    (u.propagate E = none ↔
      u.tree = none ∨
        ∃ t, u.tree = some t ∧ ResolveDependencyVisitor.Accept E u.dependencies t = none) ∧
    (∀ (u1 : Propagator) (calls : List AcceptCall), u.propagateCalls E = some (u1, calls) →
      u.propagate E = some u1 ∧
      calls.map AcceptCall.visitor =
        [.resolve_dependency_visitor u.dependencies, .constant_visitor]) := by
  have hcalls : ∀ t t1 : Symbol, u.tree = some t →
      ResolveDependencyVisitor.Accept E u.dependencies t = some t1 →
      ∃ u1, u.propagateCalls E = some (u1,
          [{ visitor := .resolve_dependency_visitor u.dependencies, tree := t },
           { visitor := .constant_visitor, tree := t1 }]) ∧
        u.propagate E = some u1 ∧
        u1.tree = some (ConstantVisitor.Accept E t1) := by
    intro t t1 ht h1
    cases ha : u.analyzer with
    | none => simp [Propagator.tree, ha] at ht
    | some a =>
      have hat : a.SyntaxTree = some t := by simpa [Propagator.tree, ha] using ht
      have hc := propagateCalls_eq E u a t t1 ha hat h1
      refine ⟨_, hc, by rw [Propagator.propagate, hc]; rfl, ?_⟩
      simp only [Propagator.tree]
  have hnone : u.propagate E = none ↔
      u.tree = none ∨
        ∃ t, u.tree = some t ∧ ResolveDependencyVisitor.Accept E u.dependencies t = none := by
    rw [← propagateCalls_none E u, Propagator.propagate, Option.map_eq_none']
  refine ⟨?_, hcalls, ?_, hnone, ?_⟩
  · cases ht : u.tree with
    | none =>
      rw [hnone.2 (Or.inl ht)]
      rfl
    | some t =>
      cases h1 : ResolveDependencyVisitor.Accept E u.dependencies t with
      | none =>
        rw [hnone.2 (Or.inr ⟨t, ht, h1⟩)]
        simp [h1]
      | some t1 =>
        obtain ⟨u1, _, hp, hu1⟩ := hcalls t t1 ht h1
        rw [hp]
        simp [h1, hu1]
  · intro t ht hw
    obtain ⟨u1, hc, hp, _⟩ := hcalls t _ ht (resolveVisitor_accept_eq E u.dependencies t hw)
    exact ⟨u1, hc, hp⟩
  · intro u1 calls hc
    have hp : u.propagate E = some u1 := by rw [Propagator.propagate, hc]; rfl
    refine ⟨hp, ?_⟩
    cases ht : u.tree with
    | none =>
      rw [hnone.2 (Or.inl ht)] at hp
      exact Option.noConfusion hp
    | some t =>
      cases h1 : ResolveDependencyVisitor.Accept E u.dependencies t with
      | none =>
        rw [hnone.2 (Or.inr ⟨t, ht, h1⟩)] at hp
        exact Option.noConfusion hp
      | some t1 =>
        obtain ⟨u2, hc2, _, _⟩ := hcalls t t1 ht h1
        rw [hc2] at hc
        simp only [Option.some.injEq, Prod.mk.injEq] at hc
        rw [← hc.2]
        rfl

/-- Witness for C9: the unit `A.sv` that includes `B.sv`, with the reference
resolved.  The link rewrite is handed the tree with the string-literal operand,
and the constant pass is handed the tree in which the operand is the leaf that
refers to the unit `B.sv`. -/
theorem C9_propagate_is_link_then_constant_witness :
    (exampleUnit (exampleIncludeTree "\"B.sv\"") [("B.sv", "B.sv")]).tree
      = some (exampleIncludeTree "\"B.sv\"") ∧
    includeChildrenAreLeaves exampleEnums (exampleIncludeTree "\"B.sv\"") = true ∧
    ResolveDependencyVisitor.Accept exampleEnums
        (exampleUnit (exampleIncludeTree "\"B.sv\"") [("B.sv", "B.sv")]).dependencies
        (exampleIncludeTree "\"B.sv\"")
      = some (.node 0 [none, some (.node 1 [some (.leaf ⟨9, "`include", 0⟩),
          some (.propagatorNode ⟨3, "\"B.sv\"", 9⟩ "B.sv")])]) ∧
    (∃ u1, (exampleUnit (exampleIncludeTree "\"B.sv\"") [("B.sv", "B.sv")]).propagateCalls
          exampleEnums = some (u1,
        [{ visitor := .resolve_dependency_visitor
             (exampleUnit (exampleIncludeTree "\"B.sv\"") [("B.sv", "B.sv")]).dependencies,
           tree := exampleIncludeTree "\"B.sv\"" },
         { visitor := .constant_visitor,
           tree := .node 0 [none, some (.node 1 [some (.leaf ⟨9, "`include", 0⟩),
             some (.propagatorNode ⟨3, "\"B.sv\"", 9⟩ "B.sv")])] }]) ∧
      (exampleUnit (exampleIncludeTree "\"B.sv\"") [("B.sv", "B.sv")]).propagate exampleEnums
        = some u1 ∧
      u1.tree = some (ConstantVisitor.Accept exampleEnums
        (.node 0 [none, some (.node 1 [some (.leaf ⟨9, "`include", 0⟩),
          some (.propagatorNode ⟨3, "\"B.sv\"", 9⟩ "B.sv")])]))) ∧
    (∃ u1, (exampleUnit (exampleIncludeTree "\"B.sv\"") [("B.sv", "B.sv")]).propagateCalls
          exampleEnums = some (u1,
        [{ visitor := .resolve_dependency_visitor
             (exampleUnit (exampleIncludeTree "\"B.sv\"") [("B.sv", "B.sv")]).dependencies,
           tree := exampleIncludeTree "\"B.sv\"" },
         { visitor := .constant_visitor,
           tree := linkSpec exampleEnums
             (exampleUnit (exampleIncludeTree "\"B.sv\"") [("B.sv", "B.sv")]).dependencies
             (exampleIncludeTree "\"B.sv\"") }]) ∧
      (exampleUnit (exampleIncludeTree "\"B.sv\"") [("B.sv", "B.sv")]).propagate exampleEnums
        = some u1) ∧
    ((exampleUnit (exampleIncludeTree "\"B.sv\"") [("B.sv", "B.sv")]).propagateCalls
        exampleEnums).map (fun state => state.2.map AcceptCall.visitor)
      = some [.resolve_dependency_visitor [("B.sv", "B.sv")], .constant_visitor] :=
  ⟨rfl, rfl, rfl,
    (C9_propagate_is_link_then_constant exampleEnums
      (exampleUnit (exampleIncludeTree "\"B.sv\"") [("B.sv", "B.sv")])).2.1 _ _ rfl rfl,
    (C9_propagate_is_link_then_constant exampleEnums
      (exampleUnit (exampleIncludeTree "\"B.sv\"") [("B.sv", "B.sv")])).2.2.1 _ rfl rfl,
    rfl⟩

/-! ## The batch driver: a failed parse -/

/-- C10, as amended: a lex or parse failure of one unit aborts the batch.  When
the files before `bad` are read and parsed and `bad` is read and fails to lex
or parse, `main` returns the status 1 at `bad`: the recorded order holds the
files before `bad` only, the stored units are those of these files and of
`bad`, so no later file is parsed, and every stored unit is as `parse` left
it, neither resolved nor propagated. -/
theorem C10_parse_failure_aborts_the_batch (E : Enums)
    (GetContents : String → Option String)
    (AnalyzeAutomaticMode : String → String → VerilogAnalyzer)
    (macros : List (String × String)) (pre : List String) (bad : String) (rest : List String)
    (hpre : ∀ f ∈ pre, ∃ c, GetContents f = some c ∧
      (AnalyzeAutomaticMode (synthesizeMacro macros ++ c) f).lex_ok = true ∧
      (AnalyzeAutomaticMode (synthesizeMacro macros ++ c) f).parse_ok = true)
    (hbad : ∃ c, GetContents bad = some c ∧
      ¬ ((AnalyzeAutomaticMode (synthesizeMacro macros ++ c) bad).lex_ok = true ∧
        (AnalyzeAutomaticMode (synthesizeMacro macros ++ c) bad).parse_ok = true)) :
    ∃ st : Batch,
      main E GetContents AnalyzeAutomaticMode macros (pre ++ bad :: rest) = some (1, st) ∧
      st.order = pre ∧
      ∀ k u, mapFind k st.parsed = some u →
        (k ∈ pre ∨ k = bad) ∧ u.justParsed AnalyzeAutomaticMode k := by
  obtain ⟨st1, hok, hord, hloop⟩ := parseLoop_prefix GetContents AnalyzeAutomaticMode
    (synthesizeMacro macros) (synthesizeMacro_append_length macros) (bad :: rest) pre
    { parsed := [], order := [] } (parsedOk_empty AnalyzeAutomaticMode) hpre
  obtain ⟨c, hc, hfail⟩ := hbad
  obtain ⟨P1, u1, hu1, _, hP1, hstep⟩ := parseLoop_cons GetContents AnalyzeAutomaticMode
    (synthesizeMacro macros) (synthesizeMacro_append_length macros) bad rest st1 hok c hc
  rw [if_neg hfail] at hstep
  simp only [List.nil_append] at hord
  refine ⟨{ st1 with parsed := P1 }, ?_, hord, ?_⟩
  · simp only [main, main.parsePhase, hloop, hstep]
  · intro k u hk
    rw [hP1] at hk
    by_cases hkb : k = bad
    · simp only [hkb, if_true, Option.some.injEq] at hk
      subst hk
      exact ⟨Or.inr hkb, hkb ▸ hu1⟩
    · simp only [hkb, if_false] at hk
      exact ⟨Or.inl (hord ▸ hok.2.2 k u hk), hok.1 k u hk⟩

/-- Witness for C10 on the batch `A.sv`, `bad.sv`, `B.sv`, where `bad.sv` fails
to parse. -/
theorem C10_parse_failure_aborts_the_batch_witness :
    (∀ f ∈ ["A.sv"], ∃ c, exampleGetContents f = some c ∧
      (exampleAnalyze (synthesizeMacro [] ++ c) f).lex_ok = true ∧
      (exampleAnalyze (synthesizeMacro [] ++ c) f).parse_ok = true) ∧
    (∃ c, exampleGetContents "bad.sv" = some c ∧
      ¬ ((exampleAnalyze (synthesizeMacro [] ++ c) "bad.sv").lex_ok = true ∧
        (exampleAnalyze (synthesizeMacro [] ++ c) "bad.sv").parse_ok = true)) ∧
    ∃ st : Batch,
      main exampleEnums exampleGetContents exampleAnalyze [] (["A.sv"] ++ "bad.sv" :: ["B.sv"])
        = some (1, st) ∧
      st.order = ["A.sv"] ∧
      ∀ k u, mapFind k st.parsed = some u →
        (k ∈ ["A.sv"] ∨ k = "bad.sv") ∧ u.justParsed exampleAnalyze k :=
  have hpre : ∀ f ∈ ["A.sv"], ∃ c, exampleGetContents f = some c ∧
      (exampleAnalyze (synthesizeMacro [] ++ c) f).lex_ok = true ∧
      (exampleAnalyze (synthesizeMacro [] ++ c) f).parse_ok = true := by
    intro f hf
    simp only [List.mem_singleton] at hf
    subst hf
    exact ⟨_, rfl, rfl, rfl⟩
  have hbad : ∃ c, exampleGetContents "bad.sv" = some c ∧
      ¬ ((exampleAnalyze (synthesizeMacro [] ++ c) "bad.sv").lex_ok = true ∧
        (exampleAnalyze (synthesizeMacro [] ++ c) "bad.sv").parse_ok = true) :=
    ⟨_, rfl, by decide⟩
  ⟨hpre, hbad, C10_parse_failure_aborts_the_batch exampleEnums exampleGetContents
    exampleAnalyze [] ["A.sv"] "bad.sv" ["B.sv"] hpre hbad⟩

/-- C10 fails as stated: in the batch `A.sv`, `bad.sv`, `B.sv`, where `bad.sv`
fails to parse, `main` returns 1; the remaining unit `B.sv` is never parsed
(it has no entry in `parsed`) and `A.sv`, which includes `"B.sv"`, is neither
resolved nor propagated. -/
theorem C10_counterexample_batch_aborted :
    (main exampleEnums exampleGetContents exampleAnalyze [] ["A.sv", "bad.sv", "B.sv"]).map
      (fun result => (result.1, result.2.order,
        result.2.parsed.map (fun p => (p.1, p.2.got_dependencies, p.2.dependencies)),
        (mapFind "B.sv" result.2.parsed).isSome,
        (mapFind "A.sv" result.2.parsed).bind Propagator.tree))
      = some (1, ["A.sv"], [("A.sv", false, []), ("bad.sv", false, [])], false,
          some (exampleIncludeTree "\"B.sv\"")) ∧
    (main exampleEnums exampleGetContents exampleAnalyze [] ["A.sv", "B.sv"]).bind
      (fun result => (mapFind "A.sv" result.2.parsed).bind Propagator.tree)
      ≠ some (exampleIncludeTree "\"B.sv\"") := by
  refine ⟨rfl, ?_⟩
  have h : (main exampleEnums exampleGetContents exampleAnalyze [] ["A.sv", "B.sv"]).bind
      (fun result => (mapFind "A.sv" result.2.parsed).bind Propagator.tree) =
      some (.node 0 [none, some (.node 1 [some (.leaf ⟨9, "`include", 0⟩),
        some (.propagatorNode ⟨3, "\"B.sv\"", 9⟩ "A.sv")])]) := rfl
  rw [h]
  simp [exampleIncludeTree]

theorem parse_frame (analyze : String → String → VerilogAnalyzer) (u : Propagator)
    (content : String) :
    (u.parse analyze content).1.filename = u.filename ∧
    (u.parse analyze content).1.got_dependencies = u.got_dependencies ∧
    (u.parse analyze content).1.dependency_visitor = u.dependency_visitor ∧
    (u.parse analyze content).1.dependencies = u.dependencies := by
  by_cases hc : content.length = 0
  · simp [Propagator.parse, hc]
  · rw [parse_nonempty analyze u content hc]
    exact ⟨rfl, rfl, rfl, rfl⟩

theorem getDependencies_returns (E : Enums) (v : Propagator) (a : VerilogAnalyzer) (t : Symbol)
    (ha : v.analyzer = some a) (ht : a.SyntaxTree = some t)
    (hw : includeChildrenAreLeaves E t = true) :
    ∃ r, v.getDependencies E = some r := by
  unfold Propagator.getDependencies
  split
  · exact ⟨_, rfl⟩
  · obtain ⟨ds, hds, _⟩ := dependencyVisitor_accept_spec E t v.dependency_visitor hw
    simp only [ha, ht, hds]
    exact ⟨_, rfl⟩

/-! ## The unit: parse and getDependencies, the claims -/

/-- C11: for every freshly created unit, `Propagator::parse` on the empty
source text returns 0 and leaves the unit as it was created: no analyzer, so
no tree, and an empty stored content. -/
theorem C11_parse_of_empty_text_is_a_successful_no_op
    (AnalyzeAutomaticMode : String → String → VerilogAnalyzer) (filename : String) :
    (Propagator.new filename).parse AnalyzeAutomaticMode "" = (Propagator.new filename, 0) ∧
    ((Propagator.new filename).parse AnalyzeAutomaticMode "").1.analyzer = none ∧
    ((Propagator.new filename).parse AnalyzeAutomaticMode "").1.tree = none ∧
    ((Propagator.new filename).parse AnalyzeAutomaticMode "").1.content = "" :=
  ⟨rfl, rfl, rfl, rfl⟩

/-- C12, as amended: for every unit and every non-empty content string `c2`,
after `Propagator::parse(c2)` the stored content is `c2` and the analyzer, and
so the tree, is the analysis of `c2` under the unit's filename, whatever the
unit held before, in particular for a unit already parsed with a content `c1`;
the other members are untouched, and the status is 0 exactly when the analysis
of `c2` lexed and parsed.  For the empty content string `parse` returns 0 and
leaves the unit, content and tree included, as it was. -/
theorem C12_reparse_replaces_content_and_tree
    (AnalyzeAutomaticMode : String → String → VerilogAnalyzer) (u : Propagator)
    (c1 c2 : String) (h2 : c2.length ≠ 0) :
    (u.parse AnalyzeAutomaticMode c2).1.content = c2 ∧
    (u.parse AnalyzeAutomaticMode c2).1.analyzer = some (AnalyzeAutomaticMode c2 u.filename) ∧
    (u.parse AnalyzeAutomaticMode c2).1.tree = (AnalyzeAutomaticMode c2 u.filename).SyntaxTree ∧
    (u.parse AnalyzeAutomaticMode c2).1.filename = u.filename ∧
    (u.parse AnalyzeAutomaticMode c2).1.dependencies = u.dependencies ∧
    ((u.parse AnalyzeAutomaticMode c2).2 = 0 ↔
      ((AnalyzeAutomaticMode c2 u.filename).lex_ok = true ∧
        (AnalyzeAutomaticMode c2 u.filename).parse_ok = true)) ∧
    (((u.parse AnalyzeAutomaticMode c1).1.parse AnalyzeAutomaticMode c2).1.content = c2 ∧
      ((u.parse AnalyzeAutomaticMode c1).1.parse AnalyzeAutomaticMode c2).1.tree
        = (AnalyzeAutomaticMode c2 u.filename).SyntaxTree) ∧
    u.parse AnalyzeAutomaticMode "" = (u, 0) := by
  have hp := parse_nonempty AnalyzeAutomaticMode u c2 h2
  have hf : (u.parse AnalyzeAutomaticMode c1).1.filename = u.filename :=
    (parse_frame AnalyzeAutomaticMode u c1).1
  have hp1 := parse_nonempty AnalyzeAutomaticMode (u.parse AnalyzeAutomaticMode c1).1 c2 h2
  refine ⟨by rw [hp], by rw [hp], by rw [hp]; rfl, by rw [hp], by rw [hp], ?_, ⟨by rw [hp1], ?_⟩, rfl⟩
  · rw [hp]
    by_cases hok : (AnalyzeAutomaticMode c2 u.filename).lex_ok = true ∧
        (AnalyzeAutomaticMode c2 u.filename).parse_ok = true
    · simp [hok]
    · simp [hok]
  · rw [hp1, hf]
    rfl

/-- Witness for C12: a unit parsed with the content `a` and parsed again with
the content `b` holds `b` and the tree of the analysis of `b`. -/
theorem C12_reparse_replaces_content_and_tree_witness :
    ("b" : String).length ≠ 0 ∧
    (((Propagator.new "A.sv").parse exampleAnalyzeContent "a").1.parse
        exampleAnalyzeContent "b").1.content = "b" ∧
    (((Propagator.new "A.sv").parse exampleAnalyzeContent "a").1.parse
        exampleAnalyzeContent "b").1.tree = some (exampleIncludeTree "\"b\"") :=
  ⟨by decide,
    (C12_reparse_replaces_content_and_tree exampleAnalyzeContent (Propagator.new "A.sv")
      "a" "b" (by decide)).2.2.2.2.2.2.1.1,
    (C12_reparse_replaces_content_and_tree exampleAnalyzeContent (Propagator.new "A.sv")
      "a" "b" (by decide)).2.2.2.2.2.2.1.2⟩

/-- C12 fails as stated: for a unit parsed with the content `a`, after
`parse` of the empty content string the stored content is still `a`, not the
empty string, and the tree is still the analysis of `a`. -/
theorem C12_counterexample_empty_content :
    (((Propagator.new "A.sv").parse exampleAnalyzeContent "a").1.parse
        exampleAnalyzeContent "").1.content = "a" ∧
    (((Propagator.new "A.sv").parse exampleAnalyzeContent "a").1.parse
        exampleAnalyzeContent "").1.content ≠ "" ∧
    (((Propagator.new "A.sv").parse exampleAnalyzeContent "a").1.parse
        exampleAnalyzeContent "").1.tree = (exampleAnalyzeContent "a" "A.sv").SyntaxTree ∧
    (((Propagator.new "A.sv").parse exampleAnalyzeContent "a").1.parse
        exampleAnalyzeContent "").1.tree ≠ (exampleAnalyzeContent "" "A.sv").SyntaxTree := by
  refine ⟨rfl, by decide, rfl, ?_⟩
  have h : (((Propagator.new "A.sv").parse exampleAnalyzeContent "a").1.parse
      exampleAnalyzeContent "").1.tree = some (exampleIncludeTree "\"a\"") := rfl
  rw [h]
  simp [exampleAnalyzeContent, exampleIncludeTree]

/-- C13: `Propagator::getDependencies` is lazy and cached.  `parse` computes no
set; the first call on a unit with a tree runs `DependencyVisitor` once on
that tree and records the set; when a call has returned, the next call, and so
every later one, returns the same set and leaves the unit as it is, and it does
so whatever the analyzer holds, without a traversal.  A call returns on every
unit whose tree has only leaves and null slots under its include nodes. -/
theorem C13_getDependencies_is_lazy_and_cached (E : Enums) (u u1 : Propagator)
    (found : List String) (h : u.getDependencies E = some (found, u1)) :
    u1.getDependencies E = some (found, u1) ∧
    (∀ found2 u2, u1.getDependencies E = some (found2, u2) →
      u2.getDependencies E = some (found, u1)) ∧
    (∀ analyzer : Option VerilogAnalyzer,
      ({ u1 with analyzer := analyzer }).getDependencies E
        = some (found, { u1 with analyzer := analyzer })) ∧
    (u.got_dependencies = false →
      ∃ a t, u.analyzer = some a ∧ a.SyntaxTree = some t ∧
        DependencyVisitor.Accept E t u.dependency_visitor = some found ∧
        u1 = { u with dependency_visitor := found, got_dependencies := true }) ∧
    (∀ (AnalyzeAutomaticMode : String → String → VerilogAnalyzer) (v : Propagator)
        (content : String),
      (v.parse AnalyzeAutomaticMode content).1.got_dependencies = v.got_dependencies ∧
      (v.parse AnalyzeAutomaticMode content).1.dependency_visitor = v.dependency_visitor) ∧
    (∀ (v : Propagator) (a : VerilogAnalyzer) (t : Symbol), v.analyzer = some a →
      a.SyntaxTree = some t → includeChildrenAreLeaves E t = true →
      ∃ r, v.getDependencies E = some r) := by
  have hu1 : u1.got_dependencies = true ∧ u1.dependency_visitor = found := by
    unfold Propagator.getDependencies at h
    split at h
    · rename_i hg
      simp only [Option.some.injEq, Prod.mk.injEq] at h
      obtain ⟨h1, h2⟩ := h
      subst h2
      exact ⟨hg, h1⟩
    · split at h
      · exact absurd h (by simp)
      · split at h
        · exact absurd h (by simp)
        · split at h
          · exact absurd h (by simp)
          · simp only [Option.some.injEq, Prod.mk.injEq] at h
            obtain ⟨h1, h2⟩ := h
            subst h2
            exact ⟨rfl, h1⟩
  have hagain : u1.getDependencies E = some (found, u1) := by
    unfold Propagator.getDependencies
    simp only [hu1.1, if_true, hu1.2]
  refine ⟨hagain, ?_, ?_, ?_, ?_, getDependencies_returns E⟩
  · intro found2 u2 h2
    rw [hagain] at h2
    simp only [Option.some.injEq, Prod.mk.injEq] at h2
    obtain ⟨_, h4⟩ := h2
    subst h4
    exact hagain
  · intro analyzer
    unfold Propagator.getDependencies
    simp only [hu1.1, if_true, hu1.2]
  · intro hg
    unfold Propagator.getDependencies at h
    simp only [hg, Bool.false_eq_true, if_false] at h
    cases ha : u.analyzer with
    | none => simp [ha] at h
    | some a =>
      cases ht : a.SyntaxTree with
      | none => simp [ha, ht] at h
      | some t =>
        cases hacc : DependencyVisitor.Accept E t u.dependency_visitor with
        | none => simp [ha, ht, hacc] at h
        | some collected =>
          simp only [ha, ht, hacc, Option.some.injEq, Prod.mk.injEq] at h
          obtain ⟨h1, h2⟩ := h
          subst h1
          exact ⟨a, t, rfl, ht, hacc, h2.symm⟩
  · intro analyze v content
    exact ⟨(parse_frame analyze v content).2.1, (parse_frame analyze v content).2.2.1⟩

/-- Witness for C13: the first call on a parsed unit that includes `"B.sv"`
returns the set with the member `B.sv`, and so does the next call, on an
unchanged unit. -/
theorem C13_getDependencies_is_lazy_and_cached_witness :
    (exampleUnit (exampleIncludeTree "\"B.sv\"") []).getDependencies exampleEnums
      = some (["B.sv"], { exampleUnit (exampleIncludeTree "\"B.sv\"") [] with
          dependency_visitor := ["B.sv"], got_dependencies := true }) ∧
    ({ exampleUnit (exampleIncludeTree "\"B.sv\"") [] with
          dependency_visitor := ["B.sv"], got_dependencies := true }).getDependencies
        exampleEnums
      = some (["B.sv"], { exampleUnit (exampleIncludeTree "\"B.sv\"") [] with
          dependency_visitor := ["B.sv"], got_dependencies := true }) :=
  ⟨rfl, (C13_getDependencies_is_lazy_and_cached exampleEnums
    (exampleUnit (exampleIncludeTree "\"B.sv\"") [])
    { exampleUnit (exampleIncludeTree "\"B.sv\"") [] with
      dependency_visitor := ["B.sv"], got_dependencies := true } ["B.sv"] rfl).1⟩

/-! ## Termination and the casts of the traversals, the claims -/

theorem includeChildrenAreLeaves_slots_iff (E : Enums) (tag : Int) :
    ∀ cs : List (Option Symbol),
      includeChildrenAreLeaves.slots E tag cs = true ↔
        ∀ child, some child ∈ cs →
          (tag = E.kPreprocessorInclude → (convert2Leaf child).isSome = true) ∧
          includeChildrenAreLeaves E child = true
  | [] => by simp [includeChildrenAreLeaves.slots]
  | none :: rest => by
    simp only [includeChildrenAreLeaves.slots, includeChildrenAreLeaves_slots_iff E tag rest,
      List.mem_cons]
    constructor
    · intro h child hc
      rcases hc with hc | hc
      · exact absurd hc (by simp)
      · exact h child hc
    · intro h child hc
      exact h child (Or.inr hc)
  | some c :: rest => by
    simp only [includeChildrenAreLeaves.slots, Bool.and_eq_true, Bool.or_eq_true,
      decide_eq_true_eq, includeChildrenAreLeaves_slots_iff E tag rest, List.mem_cons]
    constructor
    · rintro ⟨⟨h1, h2⟩, h3⟩ child hc
      rcases hc with hc | hc
      · simp only [Option.some.injEq] at hc
        subst hc
        refine ⟨fun ht => ?_, h2⟩
        rcases h1 with h1 | h1
        · exact absurd ht h1
        · exact h1
      · exact h3 child hc
    · intro h
      refine ⟨⟨?_, (h c (Or.inl rfl)).2⟩, fun child hc => h child (Or.inr hc)⟩
      by_cases ht : tag = E.kPreprocessorInclude
      · exact Or.inr ((h c (Or.inl rfl)).1 ht)
      · exact Or.inl ht

theorem slotAt_include_leaf (E : Enums) :
    ∀ (path : List Nat) (t : Symbol) (tag : Int) (s : Symbol),
      includeChildrenAreLeaves E t = true → slotAt t path = some (tag, s) →
      tag = E.kPreprocessorInclude → (convert2Leaf s).isSome = true := by
  intro path
  induction path with
  | nil => intro t tag s _ h; cases t <;> simp [slotAt] at h
  | cons i rest ih =>
    intro t tag s hw h ht
    cases t with
    | leaf token => simp [slotAt] at h
    | propagatorNode token target => simp [slotAt] at h
    | node tag0 cs =>
      simp only [includeChildrenAreLeaves] at hw
      rw [includeChildrenAreLeaves_slots_iff] at hw
      cases hg : cs[i]? with
      | none => cases rest <;> simp [slotAt, hg] at h
      | some slot =>
        cases slot with
        | none => cases rest <;> simp [slotAt, hg] at h
        | some child =>
          have hmem : some child ∈ cs := List.getElem?_mem hg
          cases rest with
          | nil =>
            simp only [slotAt, hg, Option.some.injEq, Prod.mk.injEq] at h
            obtain ⟨rfl, rfl⟩ := h
            exact (hw _ hmem).1 ht
          | cons j p =>
            simp only [slotAt, hg] at h
            exact ih child tag s (hw child hmem).2 h ht

mutual
theorem includeChildrenAreLeaves_of_slotAt (E : Enums) :
    ∀ t : Symbol,
      (∀ (path : List Nat) (tag : Int) (s : Symbol), slotAt t path = some (tag, s) →
        tag = E.kPreprocessorInclude → (convert2Leaf s).isSome = true) →
      includeChildrenAreLeaves E t = true
  | .leaf _, _ => rfl
  | .propagatorNode _ _, _ => rfl
  | .node tag cs, h => by
    simp only [includeChildrenAreLeaves]
    apply includeChildrenAreLeaves_slots_of_slotAt E tag cs
    intro child hc
    obtain ⟨i, hi⟩ := List.mem_iff_getElem?.1 hc
    refine ⟨fun ht => h [i] tag child (by simp [slotAt, hi]) ht, ?_⟩
    intro path tag1 s hs ht1
    cases path with
    | nil => cases child <;> simp [slotAt] at hs
    | cons j p => exact h (i :: j :: p) tag1 s (by simp [slotAt, hi, hs]) ht1
theorem includeChildrenAreLeaves_slots_of_slotAt (E : Enums) (tag : Int) :
    ∀ cs : List (Option Symbol),
      (∀ child, some child ∈ cs →
        (tag = E.kPreprocessorInclude → (convert2Leaf child).isSome = true) ∧
        ∀ (path : List Nat) (tag1 : Int) (s : Symbol), slotAt child path = some (tag1, s) →
          tag1 = E.kPreprocessorInclude → (convert2Leaf s).isSome = true) →
      includeChildrenAreLeaves.slots E tag cs = true
  | [], _ => rfl
  | none :: rest, h => by
    simp only [includeChildrenAreLeaves.slots]
    exact includeChildrenAreLeaves_slots_of_slotAt E tag rest
      (fun child hc => h child (List.mem_cons_of_mem _ hc))
  | some c :: rest, h => by
    have hc := h c (List.mem_cons_self _ _)
    simp only [includeChildrenAreLeaves.slots, Bool.and_eq_true, Bool.or_eq_true,
      decide_eq_true_eq]
    refine ⟨⟨?_, includeChildrenAreLeaves_of_slotAt E c hc.2⟩,
      includeChildrenAreLeaves_slots_of_slotAt E tag rest
        (fun child hm => h child (List.mem_cons_of_mem _ hm))⟩
    by_cases ht : tag = E.kPreprocessorInclude
    · exact Or.inr (hc.1 ht)
    · exact Or.inl ht
end

theorem nodeCount_slots_le :
    ∀ (cs : List (Option Symbol)) (child : Symbol), some child ∈ cs →
      nodeCount child ≤ nodeCount.slots cs
  | [], child, h => absurd h (by simp)
  | none :: rest, child, h => by
    simp only [List.mem_cons] at h
    rcases h with h | h
    · exact absurd h (by simp)
    · simpa only [nodeCount.slots] using nodeCount_slots_le rest child h
  | some c :: rest, child, h => by
    simp only [List.mem_cons, Option.some.injEq] at h
    simp only [nodeCount.slots]
    rcases h with h | h
    · subst h; omega
    · have := nodeCount_slots_le rest child h
      omega

theorem acceptMutable_constant (E : Enums) (u : Propagator) (a : VerilogAnalyzer) (t : Symbol)
    (ha : u.analyzer = some a) (ht : a.SyntaxTree = some t) :
    u.acceptMutable (fun tree => some (ConstantVisitor.Accept E tree)) = some u := by
  simp only [Propagator.acceptMutable, ha, ht, constantVisitor_accept_id]
  cases u with
  | mk filename content analyzer got visitor deps =>
    simp only at ha
    subst ha
    cases a with
    | mk l p s =>
      simp only at ht
      subst ht
      rfl

/-- C17: on every tree in which every non-null child of a
`kPreprocessorInclude` node is a leaf, null child slots allowed, each of the
three traversals returns a result, not an error: `DependencyVisitor` a set,
`ResolveDependencyVisitor` a tree, and `ConstantVisitor`, which has no failing
step, a tree on every tree whatsoever; so `getDependencies` and `propagate`
return on a unit holding such a tree.  Each traversal recurses on the non-null
children of the node it visits, and a child has strictly fewer nodes than its
parent. -/
theorem C17_traversals_terminate_without_error (E : Enums) (t : Symbol)
    (h : includeChildrenAreLeaves E t = true) :
    (∀ acc : List String, ∃ ds, DependencyVisitor.Accept E t acc = some ds) ∧
    (∀ deps : List (String × UnitRef), ∃ t1, ResolveDependencyVisitor.Accept E deps t = some t1) ∧
    (∀ (u : Propagator) (a : VerilogAnalyzer), u.analyzer = some a → a.SyntaxTree = some t →
      (∃ r, u.getDependencies E = some r) ∧ (∃ u1, u.propagate E = some u1) ∧
      ∃ u2, u.acceptMutable (fun tree => some (ConstantVisitor.Accept E tree)) = some u2) ∧
    (∀ (tag : Int) (cs : List (Option Symbol)) (child : Symbol), some child ∈ cs →
      nodeCount child < nodeCount (.node tag cs)) := by
  refine ⟨?_, ?_, ?_, ?_⟩
  · intro acc
    obtain ⟨ds, hds, _⟩ := dependencyVisitor_accept_spec E t acc h
    exact ⟨ds, hds⟩
  · intro deps
    exact ⟨_, resolveVisitor_accept_eq E deps t h⟩
  · intro u a ha ht
    refine ⟨getDependencies_returns E u a t ha ht h, ⟨_, propagate_eq E u a t _ ha ht
      (resolveVisitor_accept_eq E u.dependencies t h)⟩, ⟨u, acceptMutable_constant E u a t ha ht⟩⟩
  · intro tag cs child hc
    have := nodeCount_slots_le cs child hc
    simp only [nodeCount]
    omega

/-- Witness for C17 on a tree with a null slot and an include node. -/
theorem C17_traversals_terminate_without_error_witness :
    includeChildrenAreLeaves exampleEnums (exampleIncludeTree "\"B.sv\"") = true ∧
    (∃ ds, DependencyVisitor.Accept exampleEnums (exampleIncludeTree "\"B.sv\"") [] = some ds) ∧
    (∃ t1, ResolveDependencyVisitor.Accept exampleEnums [("B.sv", "B.sv")]
      (exampleIncludeTree "\"B.sv\"") = some t1) :=
  ⟨rfl,
    (C17_traversals_terminate_without_error exampleEnums (exampleIncludeTree "\"B.sv\"") rfl).1 [],
    (C17_traversals_terminate_without_error exampleEnums (exampleIncludeTree "\"B.sv\"")
      rfl).2.1 [("B.sv", "B.sv")]⟩

theorem dependencyVisitor_accept_none_iff (E : Enums) (t : Symbol) (acc : List String) :
    DependencyVisitor.Accept E t acc = none ↔ includeChildrenAreLeaves E t = false := by
  constructor
  · intro hn
    cases hw : includeChildrenAreLeaves E t with
    | false => rfl
    | true =>
      obtain ⟨ds, hds, _⟩ := dependencyVisitor_accept_spec E t acc hw
      rw [hn] at hds
      exact Option.noConfusion hds
  · intro hw
    cases hr : DependencyVisitor.Accept E t acc with
    | none => rfl
    | some ds =>
      rw [dependencyVisitor_accept_some_leaves E t acc ds hr] at hw
      exact Bool.noConfusion hw

theorem resolveVisitor_accept_none_iff (E : Enums) (deps : List (String × UnitRef))
    (t : Symbol) :
    ResolveDependencyVisitor.Accept E deps t = none ↔ includeChildrenAreLeaves E t = false := by
  constructor
  · intro hn
    cases hw : includeChildrenAreLeaves E t with
    | false => rfl
    | true =>
      have := resolveVisitor_accept_eq E deps t hw
      rw [hn] at this
      exact Option.noConfusion this
  · intro hw
    cases hr : ResolveDependencyVisitor.Accept E deps t with
    | none => rfl
    | some t1 =>
      rw [resolveVisitor_accept_some_leaves E deps t t1 hr] at hw
      exact Bool.noConfusion hw

/-- C18: in a tree in which every non-null child of every
`kPreprocessorInclude` node is a leaf, every symbol `convert2Leaf` is applied
to, a non-null child of a `kPreprocessorInclude` node, is a leaf, so neither
`DependencyVisitor` nor `ResolveDependencyVisitor` fails.  The slot a mutating
`Visit` receives holds the interior node being visited, so `convert2Node`
yields that node, for `ResolveDependencyVisitor` and for `ConstantVisitor`
(whereas it fails on a slot that is null or holds a leaf).  A traversal fails
exactly on the trees in which some `kPreprocessorInclude` node has an interior
child. -/
theorem C18_casts_of_the_traversals (E : Enums) (t : Symbol) :
    (includeChildrenAreLeaves E t = true →
      (∀ (path : List Nat) (tag : Int) (s : Symbol), slotAt t path = some (tag, s) →
        tag = E.kPreprocessorInclude → (convert2Leaf s).isSome = true) ∧
      (∀ acc : List String, DependencyVisitor.Accept E t acc ≠ none) ∧
      (∀ deps : List (String × UnitRef), ResolveDependencyVisitor.Accept E deps t ≠ none)) ∧
    (∀ (deps : List (String × UnitRef)) (tag : Int) (cs : List (Option Symbol)),
      convert2Node (some (.node tag cs)) = some (tag, cs) ∧
      ResolveDependencyVisitor.Accept E deps (.node tag cs)
        = ResolveDependencyVisitor.Visit E deps tag (some (.node tag cs)) ∧
      some (ConstantVisitor.Accept E (.node tag cs))
        = ConstantVisitor.Visit E tag (some (.node tag cs))) ∧
    (convert2Node none = none ∧ ∀ token : TokenInfo, convert2Node (some (.leaf token)) = none) ∧
    (∀ acc : List String,
      DependencyVisitor.Accept E t acc = none ↔
        ∃ (path : List Nat) (s : Symbol),
          slotAt t path = some (E.kPreprocessorInclude, s) ∧ convert2Leaf s = none) ∧
    (∀ deps : List (String × UnitRef),
      ResolveDependencyVisitor.Accept E deps t = none ↔
        ∃ (path : List Nat) (s : Symbol),
          slotAt t path = some (E.kPreprocessorInclude, s) ∧ convert2Leaf s = none) := by
  have hshape : includeChildrenAreLeaves E t = false ↔
      ∃ (path : List Nat) (s : Symbol),
        slotAt t path = some (E.kPreprocessorInclude, s) ∧ convert2Leaf s = none := by
    constructor
    · intro hw
      by_contra hne
      have : includeChildrenAreLeaves E t = true := by
        apply includeChildrenAreLeaves_of_slotAt
        intro path tag s hs ht
        subst ht
        cases hc : convert2Leaf s with
        | some token => rfl
        | none => exact absurd ⟨path, s, hs, hc⟩ hne
      rw [this] at hw
      exact Bool.noConfusion hw
    · rintro ⟨path, s, hs, hc⟩
      cases hw : includeChildrenAreLeaves E t with
      | false => rfl
      | true =>
        have := slotAt_include_leaf E path t _ s hw hs rfl
        rw [hc] at this
        exact Bool.noConfusion this
  refine ⟨?_, ?_, ⟨rfl, fun _ => rfl⟩, ?_, ?_⟩
  · intro hw
    refine ⟨fun path tag s hs ht => slotAt_include_leaf E path t tag s hw hs ht, ?_, ?_⟩
    · intro acc hn
      rw [(dependencyVisitor_accept_none_iff E t acc).1 hn] at hw
      exact Bool.noConfusion hw
    · intro deps hn
      rw [(resolveVisitor_accept_none_iff E deps t).1 hn] at hw
      exact Bool.noConfusion hw
  · intro deps tag cs
    refine ⟨rfl, ?_, ?_⟩
    · simp only [ResolveDependencyVisitor.Accept, ResolveDependencyVisitor.Visit, convert2Node]
    · simp only [ConstantVisitor.Accept, ConstantVisitor.Visit, convert2Node]
      split <;> rfl
  · intro acc
    rw [dependencyVisitor_accept_none_iff, hshape]
  · intro deps
    rw [resolveVisitor_accept_none_iff, hshape]

/-- Witness for C18: on the tree of a file that includes `"B.sv"` no cast
fails; on a tree with an interior child under the include node, at path
`0, 1`, both traversals fail. -/
theorem C18_casts_of_the_traversals_witness :
    includeChildrenAreLeaves exampleEnums (exampleIncludeTree "\"B.sv\"") = true ∧
    DependencyVisitor.Accept exampleEnums (exampleIncludeTree "\"B.sv\"") [] ≠ none ∧
    ResolveDependencyVisitor.Accept exampleEnums [] (exampleIncludeTree "\"B.sv\"") ≠ none ∧
    DependencyVisitor.Accept exampleEnums exampleInteriorOperand [] = none ∧
    ResolveDependencyVisitor.Accept exampleEnums [] exampleInteriorOperand = none :=
  ⟨rfl,
    ((C18_casts_of_the_traversals exampleEnums (exampleIncludeTree "\"B.sv\"")).1 rfl).2.1 [],
    ((C18_casts_of_the_traversals exampleEnums (exampleIncludeTree "\"B.sv\"")).1 rfl).2.2 [],
    ((C18_casts_of_the_traversals exampleEnums exampleInteriorOperand).2.2.2.1 []).2
      ⟨[0, 1], .node 7 [], rfl, rfl⟩,
    ((C18_casts_of_the_traversals exampleEnums exampleInteriorOperand).2.2.2.2 []).2
      ⟨[0, 1], .node 7 [], rfl, rfl⟩⟩

/-- C20: the constant-rewrite traversal is the identity: for every tree, the
tree after `ConstantVisitor` has run equals the tree before, whatever the tags,
`kBinaryExpression` included; so the traversal leaves a unit that holds a tree
unchanged. -/
theorem C20_constant_visitor_is_the_identity (E : Enums) (t : Symbol) :
    ConstantVisitor.Accept E t = t ∧
    (∀ cs : List (Option Symbol),
      ConstantVisitor.Accept E (.node E.kBinaryExpression cs) = .node E.kBinaryExpression cs) ∧
    (∀ (u : Propagator) (a : VerilogAnalyzer), u.analyzer = some a → a.SyntaxTree = some t →
      u.acceptMutable (fun tree => some (ConstantVisitor.Accept E tree)) = some u) :=
  ⟨constantVisitor_accept_id E t, fun _ => constantVisitor_accept_id E _,
    fun u a ha ht => acceptMutable_constant E u a t ha ht⟩

/-- Witness for C20 on a unit whose tree has a `kBinaryExpression` node. -/
theorem C20_constant_visitor_is_the_identity_witness :
    ConstantVisitor.Accept exampleEnums
        (.node 2 [some (.leaf ⟨5, "1", 0⟩), some (.leaf ⟨6, "+", 2⟩), none, some (.leaf ⟨5, "2", 4⟩)])
      = .node 2 [some (.leaf ⟨5, "1", 0⟩), some (.leaf ⟨6, "+", 2⟩), none, some (.leaf ⟨5, "2", 4⟩)] ∧
    (exampleUnit
        (.node 2 [some (.leaf ⟨5, "1", 0⟩), some (.leaf ⟨6, "+", 2⟩), none, some (.leaf ⟨5, "2", 4⟩)])
        []).acceptMutable (fun tree => some (ConstantVisitor.Accept exampleEnums tree))
      = some (exampleUnit
        (.node 2 [some (.leaf ⟨5, "1", 0⟩), some (.leaf ⟨6, "+", 2⟩), none, some (.leaf ⟨5, "2", 4⟩)])
        []) :=
  ⟨(C20_constant_visitor_is_the_identity exampleEnums _).1,
    (C20_constant_visitor_is_the_identity exampleEnums
      (.node 2 [some (.leaf ⟨5, "1", 0⟩), some (.leaf ⟨6, "+", 2⟩), none, some (.leaf ⟨5, "2", 4⟩)])).2.2
      _ _ rfl rfl⟩

/-! ## Idempotence of the link rewrite, the claim -/

theorem convert2Leaf_linkedSlot (E : Enums) (deps : List (String × UnitRef)) (tag : Int)
    (child : Symbol) :
    (convert2Leaf (linkedSlot E deps tag child)).isSome = (convert2Leaf child).isSome := by
  cases hr : replacement E deps tag child with
  | some linked =>
    obtain ⟨token, target, hc, _, _, _, rfl⟩ := replacement_some E deps tag child linked hr
    have h1 : linkedSlot E deps tag child = .propagatorNode token target := by
      simp only [linkedSlot, hr]
    rw [h1, hc]
    rfl
  | none =>
    simp only [linkedSlot, hr]
    cases child <;> rfl

theorem replacement_linkedSlot (E : Enums) (deps : List (String × UnitRef)) (tag : Int)
    (child : Symbol) :
    replacement E deps tag (linkedSlot E deps tag child) = replacement E deps tag child := by
  cases hr : replacement E deps tag child with
  | some linked =>
    obtain ⟨token, target, hc, ht, hk, hm, rfl⟩ := replacement_some E deps tag child linked hr
    have h1 : linkedSlot E deps tag child = .propagatorNode token target := by
      simp only [linkedSlot, hr]
    rw [h1]
    simp only [replacement, ht, hk, hm, and_self, if_true, Option.map_some']
  | none =>
    simp only [linkedSlot, hr]
    cases child with
    | leaf token => exact hr
    | propagatorNode token target => exact hr
    | node tag1 cs => rfl

mutual
theorem linkSpec_idem (E : Enums) (deps : List (String × UnitRef)) :
    ∀ t : Symbol, linkSpec E deps (linkSpec E deps t) = linkSpec E deps t
  | .leaf _ => rfl
  | .propagatorNode _ _ => rfl
  | .node tag children => by
    simp only [linkSpec, linkSpec_slots_idem E deps tag children]
theorem linkSpec_slots_idem (E : Enums) (deps : List (String × UnitRef)) (tag : Int) :
    ∀ cs : List (Option Symbol),
      linkSpec.slots E deps tag (linkSpec.slots E deps tag cs) = linkSpec.slots E deps tag cs
  | [] => rfl
  | none :: rest => by
    simp only [linkSpec.slots, linkSpec_slots_idem E deps tag rest]
  | some child :: rest => by
    have hslot : linkedSlot E deps tag (linkedSlot E deps tag child)
        = linkedSlot E deps tag child := by
      have hrep := replacement_linkedSlot E deps tag child
      cases hr : replacement E deps tag child with
      | some linked =>
        rw [hr] at hrep
        have h1 : linkedSlot E deps tag child = linked := by simp only [linkedSlot, hr]
        rw [h1] at hrep ⊢
        simp only [linkedSlot, hrep]
      | none =>
        rw [hr] at hrep
        have h1 : linkedSlot E deps tag child = linkSpec E deps child := by
          simp only [linkedSlot, hr]
        rw [h1] at hrep ⊢
        simp only [linkedSlot, hrep]
        exact linkSpec_idem E deps child
    have hcons : linkSpec.slots E deps tag (some child :: rest)
        = some (linkedSlot E deps tag child) :: linkSpec.slots E deps tag rest := by
      simp only [linkSpec.slots, linkedSlot]
    rw [hcons]
    have hcons2 : linkSpec.slots E deps tag
          (some (linkedSlot E deps tag child) :: linkSpec.slots E deps tag rest)
        = some (linkedSlot E deps tag (linkedSlot E deps tag child))
            :: linkSpec.slots E deps tag (linkSpec.slots E deps tag rest) := by
      simp only [linkSpec.slots, linkedSlot]
    rw [hcons2, hslot, linkSpec_slots_idem E deps tag rest]
end

mutual
theorem includeChildrenAreLeaves_linkSpec (E : Enums) (deps : List (String × UnitRef)) :
    ∀ t : Symbol, includeChildrenAreLeaves E t = true →
      includeChildrenAreLeaves E (linkSpec E deps t) = true
  | .leaf _, _ => rfl
  | .propagatorNode _ _, _ => rfl
  | .node tag children, h => by
    simp only [includeChildrenAreLeaves] at h
    simp only [linkSpec, includeChildrenAreLeaves]
    exact includeChildrenAreLeaves_linkSpec_slots E deps tag children h
theorem includeChildrenAreLeaves_linkSpec_slots (E : Enums) (deps : List (String × UnitRef))
    (tag : Int) :
    ∀ cs : List (Option Symbol), includeChildrenAreLeaves.slots E tag cs = true →
      includeChildrenAreLeaves.slots E tag (linkSpec.slots E deps tag cs) = true
  | [], _ => rfl
  | none :: rest, h => by
    simp only [includeChildrenAreLeaves.slots] at h
    simp only [linkSpec.slots, includeChildrenAreLeaves.slots]
    exact includeChildrenAreLeaves_linkSpec_slots E deps tag rest h
  | some child :: rest, h => by
    simp only [includeChildrenAreLeaves.slots, Bool.and_eq_true] at h
    obtain ⟨⟨h1, h2⟩, h3⟩ := h
    have hcons : linkSpec.slots E deps tag (some child :: rest)
        = some (linkedSlot E deps tag child) :: linkSpec.slots E deps tag rest := by
      simp only [linkSpec.slots, linkedSlot]
    rw [hcons]
    simp only [includeChildrenAreLeaves.slots, Bool.and_eq_true]
    refine ⟨⟨?_, ?_⟩, includeChildrenAreLeaves_linkSpec_slots E deps tag rest h3⟩
    · rw [convert2Leaf_linkedSlot]
      exact h1
    · cases hr : replacement E deps tag child with
      | some linked =>
        obtain ⟨token, target, _, _, _, _, rfl⟩ := replacement_some E deps tag child linked hr
        simp only [linkedSlot, hr]
        rfl
      | none =>
        simp only [linkedSlot, hr]
        exact includeChildrenAreLeaves_linkSpec E deps child h2
end

theorem resolveVisitor_accept_twice (E : Enums) (deps : List (String × UnitRef))
    (t t1 : Symbol) (h : ResolveDependencyVisitor.Accept E deps t = some t1) :
    ResolveDependencyVisitor.Accept E deps t1 = some t1 := by
  have hw := resolveVisitor_accept_some_leaves E deps t t1 h
  have h1 := resolveVisitor_accept_eq E deps t hw
  rw [h] at h1
  simp only [Option.some.injEq] at h1
  subst h1
  rw [resolveVisitor_accept_eq E deps _ (includeChildrenAreLeaves_linkSpec E deps t hw),
    linkSpec_idem]

theorem propagate_some (E : Enums) (u u1 : Propagator) (h : u.propagate E = some u1) :
    ∃ a t t1, u.analyzer = some a ∧ a.SyntaxTree = some t ∧
      ResolveDependencyVisitor.Accept E u.dependencies t = some t1 ∧
      u1 = { u with analyzer := some { a with SyntaxTree := some t1 } } := by
  cases ha : u.analyzer with
  | none =>
    have hn := (propagateCalls_none E u).2 (Or.inl (by simp [Propagator.tree, ha]))
    simp [Propagator.propagate, hn] at h
  | some a =>
    cases ht : a.SyntaxTree with
    | none =>
      have hn := (propagateCalls_none E u).2 (Or.inl (by simp [Propagator.tree, ha, ht]))
      simp [Propagator.propagate, hn] at h
    | some t =>
      cases hr : ResolveDependencyVisitor.Accept E u.dependencies t with
      | none =>
        have hn := (propagateCalls_none E u).2
          (Or.inr ⟨t, by simp [Propagator.tree, ha, ht], hr⟩)
        simp [Propagator.propagate, hn] at h
      | some t1 =>
        rw [propagate_eq E u a t t1 ha ht hr] at h
        simp only [Option.some.injEq] at h
        exact ⟨a, t, t1, rfl, ht, hr, h.symm⟩

/-- C21: the link rewrite is idempotent.  For every tree and every
resolved-reference map, running `ResolveDependencyVisitor` on its own result
with the same map yields that result again, so two runs in sequence yield what
one run yields (no tree at all when the first run fails a cast); and calling
`Propagator::propagate` on the unit a first call left yields that unit again,
tree included.  On a tree with only leaves and null slots under its include
nodes the first run returns a tree, and the second run returns the same
tree. -/
theorem C21_link_rewrite_is_idempotent (E : Enums) (deps : List (String × UnitRef))
    (t : Symbol) :
    (ResolveDependencyVisitor.Accept E deps t).bind (ResolveDependencyVisitor.Accept E deps)
      = ResolveDependencyVisitor.Accept E deps t ∧
    (∀ t1, ResolveDependencyVisitor.Accept E deps t = some t1 →
      ResolveDependencyVisitor.Accept E deps t1 = some t1 ∧
      leafTokens t1 = leafTokens t) ∧
    (includeChildrenAreLeaves E t = true →
      ∃ t1, ResolveDependencyVisitor.Accept E deps t = some t1 ∧
        ResolveDependencyVisitor.Accept E deps t1 = some t1) ∧
    (∀ u : Propagator, (u.propagate E).bind (Propagator.propagate E) = u.propagate E) ∧
    (∀ u u1 : Propagator, u.propagate E = some u1 →
      u1.propagate E = some u1 ∧ u1.tree = (u1.propagate E).bind Propagator.tree) := by
  have hprop : ∀ u u1 : Propagator, u.propagate E = some u1 → u1.propagate E = some u1 := by
    intro u u1 h
    obtain ⟨a, t0, t1, ha, ht, hr, rfl⟩ := propagate_some E u u1 h
    have h2 := resolveVisitor_accept_twice E u.dependencies t0 t1 hr
    exact propagate_eq E _ { a with SyntaxTree := some t1 } t1 t1 rfl rfl h2
  refine ⟨?_, ?_, ?_, ?_, ?_⟩
  · cases h : ResolveDependencyVisitor.Accept E deps t with
    | none => rfl
    | some t1 => simpa using resolveVisitor_accept_twice E deps t t1 h
  · intro t1 h
    refine ⟨resolveVisitor_accept_twice E deps t t1 h, ?_⟩
    have hw := resolveVisitor_accept_some_leaves E deps t t1 h
    have h1 := resolveVisitor_accept_eq E deps t hw
    rw [h] at h1
    simp only [Option.some.injEq] at h1
    rw [h1, leafTokens_linkSpec]
  · intro hw
    exact ⟨_, resolveVisitor_accept_eq E deps t hw,
      resolveVisitor_accept_twice E deps t _ (resolveVisitor_accept_eq E deps t hw)⟩
  · intro u
    cases h : u.propagate E with
    | none => rfl
    | some u1 => simpa using hprop u u1 h
  · intro u u1 h
    refine ⟨hprop u u1 h, ?_⟩
    rw [hprop u u1 h]
    rfl

/-- Witness for C21: the include of `"B.sv"` is linked by the first run and
left as it is by the second. -/
theorem C21_link_rewrite_is_idempotent_witness :
    ResolveDependencyVisitor.Accept exampleEnums [("B.sv", "B.sv")]
        (exampleIncludeTree "\"B.sv\"")
      = some (.node 0 [none, some (.node 1 [some (.leaf ⟨9, "`include", 0⟩),
          some (.propagatorNode ⟨3, "\"B.sv\"", 9⟩ "B.sv")])]) ∧
    ResolveDependencyVisitor.Accept exampleEnums [("B.sv", "B.sv")]
        (.node 0 [none, some (.node 1 [some (.leaf ⟨9, "`include", 0⟩),
          some (.propagatorNode ⟨3, "\"B.sv\"", 9⟩ "B.sv")])])
      = some (.node 0 [none, some (.node 1 [some (.leaf ⟨9, "`include", 0⟩),
          some (.propagatorNode ⟨3, "\"B.sv\"", 9⟩ "B.sv")])]) :=
  ⟨rfl, ((C21_link_rewrite_is_idempotent exampleEnums [("B.sv", "B.sv")]
    (exampleIncludeTree "\"B.sv\"")).2.1 _ rfl).1⟩

/-! ## Copying a unit, and the macro arguments of the driver: the claims -/

theorem clone_eq_copy (analyze : String → String → VerilogAnalyzer) (u : Propagator) :
    u.clone analyze = u.copy := rfl

theorem clone_members (analyze : String → String → VerilogAnalyzer) (u : Propagator) :
    (u.clone analyze).filename = u.filename ∧ (u.clone analyze).content = u.content ∧
    (u.clone analyze).dependencies = u.dependencies ∧ (u.clone analyze).analyzer = none ∧
    (u.clone analyze).tree = none :=
  ⟨rfl, rfl, rfl, rfl, rfl⟩

/-- C22, evaluated on the unit `A.sv` parsed with the content `a`: the unit
`Propagator::clone` returns has the filename, the stored content and the
resolved-reference map of the original, but it has no analyzer and so no tree,
whereas the original holds the tree of the analysis of `a`; the `parse()` call
in `clone` passes the empty default content and returns at once. -/
theorem C22_clone_has_no_tree :
    (((Propagator.new "A.sv").parse exampleAnalyzeContent "a").1.resolveDependency
        "B.sv" "B.sv").tree = (exampleAnalyzeContent "a" "A.sv").SyntaxTree ∧
    ((((Propagator.new "A.sv").parse exampleAnalyzeContent "a").1.resolveDependency
        "B.sv" "B.sv").clone exampleAnalyzeContent).filename = "A.sv" ∧
    ((((Propagator.new "A.sv").parse exampleAnalyzeContent "a").1.resolveDependency
        "B.sv" "B.sv").clone exampleAnalyzeContent).content = "a" ∧
    ((((Propagator.new "A.sv").parse exampleAnalyzeContent "a").1.resolveDependency
        "B.sv" "B.sv").clone exampleAnalyzeContent).dependencies = [("B.sv", "B.sv")] ∧
    ((((Propagator.new "A.sv").parse exampleAnalyzeContent "a").1.resolveDependency
        "B.sv" "B.sv").clone exampleAnalyzeContent).analyzer = none ∧
    ((((Propagator.new "A.sv").parse exampleAnalyzeContent "a").1.resolveDependency
        "B.sv" "B.sv").clone exampleAnalyzeContent).tree = none ∧
    ((((Propagator.new "A.sv").parse exampleAnalyzeContent "a").1.resolveDependency
        "B.sv" "B.sv").clone exampleAnalyzeContent).tree
      ≠ (exampleAnalyzeContent "a" "A.sv").SyntaxTree := by
  refine ⟨rfl, rfl, rfl, rfl, rfl, rfl, ?_⟩
  have h : ((((Propagator.new "A.sv").parse exampleAnalyzeContent "a").1.resolveDependency
      "B.sv" "B.sv").clone exampleAnalyzeContent).tree = none := rfl
  rw [h]
  simp [exampleAnalyzeContent]

theorem stringFind_append (c : Char) (value : List Char) :
    ∀ name : List Char, c ∉ name →
      stringFind c (name ++ c :: value) = some name.length
  | [], _ => by simp [stringFind]
  | x :: rest, h => by
    have hx : x ≠ c := fun e => h (by simp [e])
    have hr : c ∉ rest := fun e => h (List.mem_cons_of_mem _ e)
    simp [stringFind, hx, stringFind_append c value rest hr]

theorem stringFind_none (c : Char) :
    ∀ s : List Char, c ∉ s → stringFind c s = none
  | [], _ => rfl
  | x :: rest, h => by
    have hx : x ≠ c := fun e => h (by simp [e])
    have hr : c ∉ rest := fun e => h (List.mem_cons_of_mem _ e)
    simp [stringFind, hx, stringFind_none c rest hr]

/-- C24: `parseMacro` splits at the first `=`: for every name without an `=`
and every value string, with or without an `=`, `parseMacro(name + "=" +
value)` is the pair of the name and the value; and for every string `s`
without an `=`, `parseMacro(s)` is the pair of `s` and the empty string. -/
theorem C24_parseMacro_splits_at_first_equal (name value s : String)
    (hname : '=' ∉ name.data) (hs : '=' ∉ s.data) :
    parseMacro (name ++ "=" ++ value) = (name, value) ∧ parseMacro s = (s, "") := by
  constructor
  · have hd : (name ++ "=" ++ value).data = name.data ++ '=' :: value.data := by
      simp [String.data_append]
    unfold parseMacro
    rw [hd, stringFind_append '=' value.data name.data hname]
    simp only [List.take_left', List.length_append, List.length_cons]
    have h1 : List.drop (name.data.length + 1) (name.data ++ '=' :: value.data) = value.data := by
      rw [List.drop_append_eq_append_drop]
      simp
    have h2 : name.data.length + (value.data.length + 1) - name.data.length - 1
        = value.data.length := by omega
    rw [h1, h2, List.take_length]
  · unfold parseMacro
    rw [stringFind_none '=' s.data hs]

/-- Witness for C24: a value that holds an `=` itself, and a name alone. -/
theorem C24_parseMacro_splits_at_first_equal_witness :
    '=' ∉ ("WIDTH" : String).data ∧ '=' ∉ ("DEBUG" : String).data ∧
    parseMacro ("WIDTH" ++ "=" ++ "a=b") = ("WIDTH", "a=b") ∧
    parseMacro "DEBUG" = ("DEBUG", "") :=
  ⟨by decide, by decide,
    (C24_parseMacro_splits_at_first_equal "WIDTH" "a=b" "DEBUG" (by decide) (by decide)).1,
    (C24_parseMacro_splits_at_first_equal "WIDTH" "a=b" "DEBUG" (by decide) (by decide)).2⟩

end verilog.propagate

namespace verilog.analysis

open verilog.propagate

/-! ## Lint rules: lemmas -/

theorem mem_insertByOffset (v w : LintViolation) :
    ∀ s : List LintViolation, v ∈ insertByOffset w s ↔ v = w ∨ v ∈ s
  | [] => by simp [insertByOffset]
  | x :: rest => by
    unfold insertByOffset
    split
    · simp
    · rw [List.mem_cons, mem_insertByOffset v w rest, List.mem_cons]
      constructor
      · rintro (h | h | h)
        · exact Or.inr (Or.inl h)
        · exact Or.inl h
        · exact Or.inr (Or.inr h)
      · rintro (h | h | h)
        · exact Or.inr (Or.inl h)
        · exact Or.inl h
        · exact Or.inr (Or.inr h)

theorem mem_violationsInsert (v w : LintViolation) (s : List LintViolation) :
    v ∈ violationsInsert w s ↔ v = w ∨ v ∈ s := by
  unfold violationsInsert
  split
  · constructor
    · intro h; exact Or.inr h
    · rintro (rfl | h)
      · assumption
      · exact h
  · exact mem_insertByOffset v w s

theorem insertByOffset_last (v : LintViolation) :
    ∀ s : List LintViolation, (∀ w ∈ s, w.token.left < v.token.left) →
      insertByOffset v s = s ++ [v]
  | [], _ => rfl
  | x :: rest, h => by
    have hx : ¬ v.token.left ≤ x.token.left := Nat.not_le.2 (h x (List.mem_cons_self _ _))
    simp only [insertByOffset, hx, if_false, List.cons_append]
    rw [insertByOffset_last v rest (fun w hw => h w (List.mem_cons_of_mem _ hw))]

theorem violationsInsert_last (v : LintViolation) (s : List LintViolation)
    (h : ∀ w ∈ s, w.token.left < v.token.left) : violationsInsert v s = s ++ [v] := by
  have hv : v ∉ s := fun hm => Nat.lt_irrefl _ (h v hm)
  simp only [violationsInsert, hv, if_false]
  exact insertByOffset_last v s h

theorem firstComponent_of_noDot (u : String) (h : '.' ∉ u.data) : firstComponent u = u := by
  unfold firstComponent
  have : u.data.takeWhile (fun c => c != '.') = u.data := by
    rw [List.takeWhile_eq_self_iff]
    intro c hc
    simp only [bne_iff_ne, ne_eq]
    rintro rfl
    exact h hc
  rw [this]

theorem firstComponent_dotted (u rest : String) (h : '.' ∉ u.data) :
    firstComponent (u ++ "." ++ rest) = u := by
  unfold firstComponent
  have hd : (u ++ "." ++ rest).data = u.data ++ '.' :: rest.data := by
    simp [String.data_append]
  have : (u.data ++ '.' :: rest.data).takeWhile (fun c => c != '.') = u.data := by
    generalize u.data = l at h
    induction l with
    | nil => simp
    | cons c cs ih =>
      have hc : c ≠ '.' := fun e => h (e ▸ List.mem_cons_self _ _)
      simp only [List.cons_append, List.takeWhile_cons, bne_iff_ne, ne_eq, hc,
        not_false_eq_true, decide_True, if_true]
      rw [ih (fun hm => h (List.mem_cons_of_mem _ hm))]
  rw [hd, this]

/-- The unit name `PackageFilenameRule::Lint` computes is the text of the
basename of the stem up to its first dot. -/
theorem unitname_eq (H : PackageHelpers) (filename u rest : String) (hdot : '.' ∉ u.data)
    (hstem : H.Basename (H.Stem filename) = u ∨
      H.Basename (H.Stem filename) = u ++ "." ++ rest) :
    PackageFilenameRule.unitname H filename = u := by
  unfold PackageFilenameRule.unitname
  rcases hstem with h | h
  · rw [h, firstComponent_of_noDot u hdot]
  · rw [h, firstComponent_dotted u rest hdot]

theorem lintMatches_mem (H : PackageHelpers) (u : String) (v : LintViolation) :
    ∀ (ms : List Symbol) (V : List LintViolation),
      v ∈ PackageFilenameRule.lintMatches H u ms V ↔
        v ∈ V ∨ ∃ m ∈ ms, (H.GetPackageNameToken m).text ≠ u ∧
          (H.GetPackageNameToken m).text ++ "_pkg" ≠ u ∧
          v = { token := H.GetPackageNameToken m,
                reason := PackageFilenameRule.kMessage ++ "declaration: \"" ++
                  (H.GetPackageNameToken m).text ++ "\" vs. basename(file): \"" ++ u ++ "\"",
                context := [] }
  | [], V => by simp [PackageFilenameRule.lintMatches]
  | m :: rest, V => by
    unfold PackageFilenameRule.lintMatches
    simp only [optional_suffix]
    split
    · rename_i hc
      rw [lintMatches_mem H u v rest, mem_violationsInsert]
      simp only [List.mem_cons, exists_eq_or_imp]
      constructor
      · rintro ((h | h) | h)
        · exact Or.inr (Or.inl ⟨hc.1, hc.2, h⟩)
        · exact Or.inl h
        · exact Or.inr (Or.inr h)
      · rintro (h | ⟨_, _, h⟩ | h)
        · exact Or.inl (Or.inr h)
        · exact Or.inl (Or.inl h)
        · exact Or.inr h
    · rename_i hc
      rw [lintMatches_mem H u v rest]
      simp only [List.mem_cons, exists_eq_or_imp]
      constructor
      · rintro (h | h)
        · exact Or.inl h
        · exact Or.inr (Or.inr h)
      · rintro (h | ⟨h1, h2, _⟩ | h)
        · exact Or.inl h
        · exact absurd ⟨h1, h2⟩ hc
        · exact Or.inr h

/-- The loop of `Lint` on declarations whose name tokens stand at increasing
offsets, all after the anchors recorded before: the violations are appended,
one per mismatching declaration, in the order of the declarations. -/
theorem lintMatches_ordered (H : PackageHelpers) (u : String) :
    ∀ (ms : List Symbol) (V : List LintViolation),
      (∀ w ∈ V, ∀ m ∈ ms, w.token.left < (H.GetPackageNameToken m).left) →
      List.Pairwise
        (fun a b => (H.GetPackageNameToken a).left < (H.GetPackageNameToken b).left) ms →
      PackageFilenameRule.lintMatches H u ms V =
        V ++ (ms.filter (fun m => decide ((H.GetPackageNameToken m).text ≠ u ∧
            (H.GetPackageNameToken m).text ++ "_pkg" ≠ u))).map
          (fun m => { token := H.GetPackageNameToken m,
                      reason := PackageFilenameRule.kMessage ++ "declaration: \"" ++
                        (H.GetPackageNameToken m).text ++ "\" vs. basename(file): \"" ++
                        u ++ "\"",
                      context := [] })
  | [], V, _, _ => by simp [PackageFilenameRule.lintMatches]
  | m :: rest, V, hV, hp => by
    have hp1 := List.pairwise_cons.1 hp
    unfold PackageFilenameRule.lintMatches
    simp only [optional_suffix]
    split
    · rename_i hc
      rw [violationsInsert_last _ V (fun w hw => hV w hw m (List.mem_cons_self _ _))]
      rw [lintMatches_ordered H u rest _ _ hp1.2]
      · rw [List.filter_cons_of_pos (by simpa using hc)]
        simp only [List.map_cons, List.append_assoc, List.singleton_append]
      · intro w hw m1 hm1
        rcases List.mem_append.1 hw with h | h
        · exact hV w h m1 (List.mem_cons_of_mem _ hm1)
        · rw [List.mem_singleton] at h
          subst h
          exact hp1.1 m1 hm1
    · rename_i hc
      rw [lintMatches_ordered H u rest V
        (fun w hw m1 hm1 => hV w hw m1 (List.mem_cons_of_mem _ hm1)) hp1.2]
      rw [List.filter_cons_of_neg (by simpa using hc)]

/-! ## PackageFilenameRule: the claims -/

/-- C14: for every filename whose unit name `u`, the first dot-separated
component of the basename of the stem of the filename (the basename of the stem
is `u` or `u`, a dot and more text, and `u` has no dot), is non-empty, and every
tree: the unit name `PackageFilenameRule::Lint` computes is `u`; the violations
it records from an empty set are exactly those of the package declarations
found whose name `p` satisfies `p != u` and `p + "_pkg" != u`, each anchored at
the name token of its declaration, so a violation is anchored at the name token
of a declaration found if and only if its name satisfies both inequalities;
when the name tokens of the declarations found stand at increasing offsets,
the set holds one violation per such declaration, in source order.  When the
tree is absent, and when the unit name is empty, no violation is recorded. -/
theorem C14_package_filename_violation_iff (H : PackageHelpers) (tree : Symbol)
    (filename u rest : String) (hdot : '.' ∉ u.data) (hu : u ≠ "")
    (hstem : H.Basename (H.Stem filename) = u ∨
      H.Basename (H.Stem filename) = u ++ "." ++ rest) :
    PackageFilenameRule.unitname H filename = u ∧
    (∀ v, v ∈ PackageFilenameRule.Lint H [] (some tree) filename ↔
      ∃ m ∈ H.FindAllPackageDeclarations tree,
        (H.GetPackageNameToken m).text ≠ u ∧
        (H.GetPackageNameToken m).text ++ "_pkg" ≠ u ∧
        v = { token := H.GetPackageNameToken m,
              reason := PackageFilenameRule.kMessage ++ "declaration: \"" ++
                (H.GetPackageNameToken m).text ++ "\" vs. basename(file): \"" ++ u ++ "\"",
              context := [] }) ∧
    (∀ m ∈ H.FindAllPackageDeclarations tree,
      (∃ v ∈ PackageFilenameRule.Lint H [] (some tree) filename,
          v.token = H.GetPackageNameToken m) ↔
        ((H.GetPackageNameToken m).text ≠ u ∧ (H.GetPackageNameToken m).text ++ "_pkg" ≠ u)) ∧
    (List.Pairwise
        (fun a b => (H.GetPackageNameToken a).left < (H.GetPackageNameToken b).left)
        (H.FindAllPackageDeclarations tree) →
      PackageFilenameRule.Lint H [] (some tree) filename =
        ((H.FindAllPackageDeclarations tree).filter
          (fun m => decide ((H.GetPackageNameToken m).text ≠ u ∧
            (H.GetPackageNameToken m).text ++ "_pkg" ≠ u))).map
          (fun m => { token := H.GetPackageNameToken m,
                      reason := PackageFilenameRule.kMessage ++ "declaration: \"" ++
                        (H.GetPackageNameToken m).text ++ "\" vs. basename(file): \"" ++
                        u ++ "\"",
                      context := [] })) ∧
    (∀ (V : List LintViolation) (name : String),
      PackageFilenameRule.Lint H V none name = V ∧
      (PackageFilenameRule.unitname H name = "" →
        PackageFilenameRule.Lint H V (some tree) name = V)) := by
  have hname : PackageFilenameRule.unitname H filename = u :=
    unitname_eq H filename u rest hdot hstem
  have hmem : ∀ v, v ∈ PackageFilenameRule.Lint H [] (some tree) filename ↔
      ∃ m ∈ H.FindAllPackageDeclarations tree,
        (H.GetPackageNameToken m).text ≠ u ∧
        (H.GetPackageNameToken m).text ++ "_pkg" ≠ u ∧
        v = { token := H.GetPackageNameToken m,
              reason := PackageFilenameRule.kMessage ++ "declaration: \"" ++
                (H.GetPackageNameToken m).text ++ "\" vs. basename(file): \"" ++ u ++ "\"",
              context := [] } := by
    intro v
    simp only [PackageFilenameRule.Lint, hname, hu, if_false]
    rw [lintMatches_mem]
    simp
  refine ⟨hname, hmem, ?_, ?_, ?_⟩
  · intro m hm
    constructor
    · rintro ⟨v, hv, htok⟩
      obtain ⟨m1, _, h1, h2, rfl⟩ := (hmem v).1 hv
      simp only at htok
      rw [← htok]
      exact ⟨h1, h2⟩
    · rintro ⟨h1, h2⟩
      exact ⟨_, (hmem _).2 ⟨m, hm, h1, h2, rfl⟩, rfl⟩
  · intro hp
    simp only [PackageFilenameRule.Lint, hname, hu, if_false]
    rw [lintMatches_ordered H u _ [] (fun w hw => absurd hw (List.not_mem_nil w)) hp]
    rfl
  · intro V name
    refine ⟨rfl, fun h => ?_⟩
    simp only [PackageFilenameRule.Lint, h, if_true]

/-- Witness for C14, on the file `rtl/foo.bar.sv`, whose unit name is `foo`,
with the packages `foo`, `bar`, `foo_pkg` and `bar` in this order: `foo` is
accepted and each of the three others is recorded at its own name token, the
two declarations of `bar` apart.  Package `foo` is accepted in `foo.sv` and in
`foo_pkg.sv`, package `foo_pkg` is accepted in `foo_pkg.sv` and rejected in
`foo.sv`. -/
theorem C14_package_filename_violation_iff_witness :
    '.' ∉ ("foo" : String).data ∧ ("foo" : String) ≠ "" ∧
    examplePackageHelpers.Basename (examplePackageHelpers.Stem "rtl/foo.bar.sv")
      = "foo" ++ "." ++ "bar" ∧
    List.Pairwise
      (fun a b => (examplePackageHelpers.GetPackageNameToken a).left
        < (examplePackageHelpers.GetPackageNameToken b).left)
      (examplePackageHelpers.FindAllPackageDeclarations
        (examplePackageTree ["foo", "bar", "foo_pkg", "bar"])) ∧
    firstComponent "foo.bar" = "foo" ∧
    PackageFilenameRule.unitname examplePackageHelpers "rtl/foo.bar.sv" = "foo" ∧
    PackageFilenameRule.Lint examplePackageHelpers []
        (some (examplePackageTree ["foo", "bar", "foo_pkg", "bar"])) "rtl/foo.bar.sv" =
      [{ token := ⟨31, "bar", 108⟩,
         reason := PackageFilenameRule.kMessage ++
           "declaration: \"bar\" vs. basename(file): \"foo\"",
         context := [] },
       { token := ⟨31, "foo_pkg", 208⟩,
         reason := PackageFilenameRule.kMessage ++
           "declaration: \"foo_pkg\" vs. basename(file): \"foo\"",
         context := [] },
       { token := ⟨31, "bar", 308⟩,
         reason := PackageFilenameRule.kMessage ++
           "declaration: \"bar\" vs. basename(file): \"foo\"",
         context := [] }] ∧
    PackageFilenameRule.Lint examplePackageHelpers [] (some (examplePackageTree ["foo"]))
      "rtl/foo.sv" = [] ∧
    PackageFilenameRule.Lint examplePackageHelpers [] (some (examplePackageTree ["foo"]))
      "foo_pkg.sv" = [] ∧
    PackageFilenameRule.Lint examplePackageHelpers [] (some (examplePackageTree ["foo_pkg"]))
      "foo_pkg.sv" = [] ∧
    PackageFilenameRule.Lint examplePackageHelpers [] (some (examplePackageTree ["foo_pkg"]))
      "rtl/foo.sv" =
      [{ token := ⟨31, "foo_pkg", 8⟩,
         reason := PackageFilenameRule.kMessage ++
           "declaration: \"foo_pkg\" vs. basename(file): \"foo\"",
         context := [] }] :=
  ⟨by decide, by decide, by decide, by decide, by decide,
    (C14_package_filename_violation_iff examplePackageHelpers
      (examplePackageTree ["foo", "bar", "foo_pkg", "bar"]) "rtl/foo.bar.sv" "foo" "bar"
      (by decide) (by decide) (Or.inr (by decide))).1,
    (C14_package_filename_violation_iff examplePackageHelpers
      (examplePackageTree ["foo", "bar", "foo_pkg", "bar"]) "rtl/foo.bar.sv" "foo" "bar"
      (by decide) (by decide) (Or.inr (by decide))).2.2.2.1 (by decide),
    by decide, by decide, by decide, by decide⟩

theorem randomize_reason_ne (text : String) :
    ("randomize() is forbidden within void casts" : String)
      ≠ text ++ " is an invalid call within this void cast" := by
  intro h
  have hd := congrArg (fun s : String => s.data.reverse.head?) h
  simp [String.data_append] at hd

/-- C19: for every symbol the blacklisted-function matcher matches with a leaf
captured under `id`, `VoidCastRule::HandleSymbol`, when it returns, has
recorded the violation anchored at the token of that leaf, with the message
made of the leaf text followed by ` is an invalid call within this void cast`,
if and only if the leaf text is a member of the blacklist set or that violation
was in the set before; the blacklist set is exactly `uvm_hdl_read`.  When the
randomize matcher does not match the symbol, `HandleSymbol` returns and adds
that violation, and only it, for a blacklisted text, and adds nothing
otherwise. -/
theorem C19_blacklisted_call_violation_iff (H : VoidCastHelpers) (symbol leaf : Symbol)
    (manager : BoundSymbolManager) (function_id : TokenInfo) (context : List Int)
    (hmatch : H.blacklisted_function_matcher_ symbol = some manager)
    (hbound : mapFind "id" manager.bound_symbols = some leaf)
    (hleaf : convert2Leaf leaf = some function_id) :
    (∀ text : String, text ∈ VoidCastRule.BlacklistedFunctionsSet ↔ text = "uvm_hdl_read") ∧
    (∀ V V1 : List LintViolation, VoidCastRule.HandleSymbol H V symbol context = some V1 →
      (({ token := function_id,
          reason := function_id.text ++ " is an invalid call within this void cast",
          context := context } : LintViolation) ∈ V1 ↔
        (function_id.text ∈ VoidCastRule.BlacklistedFunctionsSet ∨
          ({ token := function_id,
             reason := function_id.text ++ " is an invalid call within this void cast",
             context := context } : LintViolation) ∈ V))) ∧
    (H.randomize_matcher_ symbol = none →
      ∀ V : List LintViolation,
        VoidCastRule.HandleSymbol H V symbol context =
          some (if function_id.text ∈ VoidCastRule.BlacklistedFunctionsSet then
              violationsInsert
                { token := function_id,
                  reason := function_id.text ++ " is an invalid call within this void cast",
                  context := context } V
            else V)) := by
  have hget : manager.GetAsLeaf "id" = some (some function_id) := by
    simp only [BoundSymbolManager.GetAsLeaf, hbound, hleaf]
  have hfirst : ∀ V, VoidCastRule.checkBlacklisted H V symbol context =
      some (if function_id.text ∈ VoidCastRule.BlacklistedFunctionsSet then
          violationsInsert
            { token := function_id,
              reason := function_id.text ++ " is an invalid call within this void cast",
              context := context } V
        else V) := by
    intro V
    simp only [VoidCastRule.checkBlacklisted, hmatch, hget, VoidCastRule.FormatReason]
    split <;> rfl
  refine ⟨fun text => by simp [VoidCastRule.BlacklistedFunctionsSet], ?_, ?_⟩
  · intro V V1 hV1
    simp only [VoidCastRule.HandleSymbol, hfirst] at hV1
    have hsecond : ∀ W : List LintViolation,
        VoidCastRule.checkRandomize H W symbol context = some V1 →
        (({ token := function_id,
            reason := function_id.text ++ " is an invalid call within this void cast",
            context := context } : LintViolation) ∈ V1 ↔
          ({ token := function_id,
             reason := function_id.text ++ " is an invalid call within this void cast",
             context := context } : LintViolation) ∈ W) := by
      intro W hW
      unfold VoidCastRule.checkRandomize at hW
      split at hW
      · simp only [Option.some.injEq] at hW
        subst hW; rfl
      · split at hW
        · exact absurd hW (by simp)
        · simp only [Option.some.injEq] at hW
          subst hW; rfl
        · split at hW
          · exact absurd hW (by simp)
          · simp only [Option.some.injEq] at hW
            subst hW
            rw [mem_violationsInsert]
            constructor
            · rintro (h | h)
              · have := congrArg LintViolation.reason h
                simp only at this
                exact absurd this.symm (randomize_reason_ne _)
              · exact h
            · exact Or.inr
    rw [hsecond _ hV1]
    split
    · rename_i hb
      rw [mem_violationsInsert]
      simp [hb]
    · rename_i hb
      simp [hb]
  · intro hr V
    simp only [VoidCastRule.HandleSymbol, hfirst, VoidCastRule.checkRandomize, hr]

/-- Witness for C19: a call of `uvm_hdl_read` is recorded, a call of `foo` is
not. -/
theorem C19_blacklisted_call_violation_iff_witness :
    exampleVoidCastHelpers.blacklisted_function_matcher_
        (.node 40 [some (.leaf ⟨50, "uvm_hdl_read", 6⟩)])
      = some { bound_symbols := [("id", .leaf ⟨50, "uvm_hdl_read", 6⟩)] } ∧
    VoidCastRule.HandleSymbol exampleVoidCastHelpers []
        (.node 40 [some (.leaf ⟨50, "uvm_hdl_read", 6⟩)]) [7] =
      some [{ token := ⟨50, "uvm_hdl_read", 6⟩,
              reason := "uvm_hdl_read is an invalid call within this void cast",
              context := [7] }] ∧
    VoidCastRule.HandleSymbol exampleVoidCastHelpers []
        (.node 40 [some (.leaf ⟨50, "foo", 6⟩)]) [7] = some [] :=
  ⟨rfl,
    ((C19_blacklisted_call_violation_iff exampleVoidCastHelpers
      (.node 40 [some (.leaf ⟨50, "uvm_hdl_read", 6⟩)]) (.leaf ⟨50, "uvm_hdl_read", 6⟩)
      { bound_symbols := [("id", .leaf ⟨50, "uvm_hdl_read", 6⟩)] } ⟨50, "uvm_hdl_read", 6⟩ [7]
      rfl rfl rfl).2.2 rfl []),
    ((C19_blacklisted_call_violation_iff exampleVoidCastHelpers
      (.node 40 [some (.leaf ⟨50, "foo", 6⟩)]) (.leaf ⟨50, "foo", 6⟩)
      { bound_symbols := [("id", .leaf ⟨50, "foo", 6⟩)] } ⟨50, "foo", 6⟩ [7]
      rfl rfl rfl).2.2 rfl [])⟩

end verilog.analysis

namespace verilog.CST

open verilog.propagate

/-! ## Tree builders of function declarations: the claims -/

theorem makeFunctionDeclaration_of_expectations (N : FunctionNodeEnums)
    (ExpectString : Option Symbol → String → Bool)
    (qualifiers : TreeArgument) (function_start : Option Symbol) (lifetime : TreeArgument)
    (return_type_id : TreeArgument) (ports : TreeArgument) (semicolon : Option Symbol)
    (function_items : TreeArgument) (body : TreeArgument) (function_end : Option Symbol)
    (label : TreeArgument)
    (h1 : ExpectString function_start "function" = true)
    (h2 : ExpectString semicolon ";" = true)
    (h3 : ExpectString function_end "endfunction" = true) :
    ∃ header, MakeFunctionHeader N ExpectString qualifiers function_start lifetime
        return_type_id ports semicolon = some header ∧
      header = .node N.kFunctionHeader (qualifiers.slots ++ [function_start] ++ lifetime.slots
        ++ return_type_id.slots ++ ports.slots ++ [semicolon]) ∧
      MakeFunctionDeclaration N ExpectString qualifiers function_start lifetime return_type_id
          ports semicolon function_items body function_end label =
        some (.node N.kFunctionDeclaration
          (some header :: (function_items.slots ++ body.slots ++ [function_end]
            ++ label.slots))) := by
  refine ⟨MakeTaggedNode N.kFunctionHeader
      [qualifiers, .symbol function_start, lifetime, return_type_id, ports, .symbol semicolon],
    by simp [MakeFunctionHeader, h1, h2], ?_, ?_⟩
  · simp [MakeTaggedNode, TreeArgument.allSlots, TreeArgument.slots]
  · simp [MakeFunctionDeclaration, h3, MakeTaggedNode, TreeArgument.allSlots,
      TreeArgument.slots]

/-- C23, evaluated on arguments whose `function_start` is a leaf with the text
`task`: `MakeFunctionHeader` rejects them, its check of `function_start`
against `function` failing, whereas `MakeFunctionDeclaration`, which checks
`function_end` only, builds the declaration with an unchecked
`kFunctionHeader` node as its first child.  On the same arguments with a
`function` leaf the header is built and is the first child of the declaration,
followed by `function_items`, `body`, `function_end` and `label`. -/
theorem C23_declaration_skips_header_expectations :
    exampleExpectString (some (.leaf ⟨70, "task", 0⟩)) "function" = false ∧
    MakeFunctionHeader exampleFunctionNodeEnums exampleExpectString
      (.symbol none) (some (.leaf ⟨70, "task", 0⟩)) (.symbol none)
      (.forwardChildren [some (.leaf ⟨71, "int", 9⟩), some (.leaf ⟨72, "f", 13⟩)])
      (.symbol none) (some (.leaf ⟨73, ";", 14⟩)) = none ∧
    MakeFunctionDeclaration exampleFunctionNodeEnums exampleExpectString
      (.symbol none) (some (.leaf ⟨70, "task", 0⟩)) (.symbol none)
      (.forwardChildren [some (.leaf ⟨71, "int", 9⟩), some (.leaf ⟨72, "f", 13⟩)])
      (.symbol none) (some (.leaf ⟨73, ";", 14⟩))
      (.symbol none) (.symbol none) (some (.leaf ⟨74, "endfunction", 16⟩)) (.symbol none) =
      some (.node 61
        [some (.node 60 [none, some (.leaf ⟨70, "task", 0⟩), none, some (.leaf ⟨71, "int", 9⟩),
            some (.leaf ⟨72, "f", 13⟩), none, some (.leaf ⟨73, ";", 14⟩)]),
          none, none, some (.leaf ⟨74, "endfunction", 16⟩), none]) ∧
    MakeFunctionHeader exampleFunctionNodeEnums exampleExpectString
      (.symbol none) (some (.leaf ⟨70, "function", 0⟩)) (.symbol none)
      (.forwardChildren [some (.leaf ⟨71, "int", 9⟩), some (.leaf ⟨72, "f", 13⟩)])
      (.symbol none) (some (.leaf ⟨73, ";", 14⟩)) =
      some (.node 60 [none, some (.leaf ⟨70, "function", 0⟩), none, some (.leaf ⟨71, "int", 9⟩),
        some (.leaf ⟨72, "f", 13⟩), none, some (.leaf ⟨73, ";", 14⟩)]) ∧
    MakeFunctionDeclaration exampleFunctionNodeEnums exampleExpectString
      (.symbol none) (some (.leaf ⟨70, "function", 0⟩)) (.symbol none)
      (.forwardChildren [some (.leaf ⟨71, "int", 9⟩), some (.leaf ⟨72, "f", 13⟩)])
      (.symbol none) (some (.leaf ⟨73, ";", 14⟩))
      (.symbol none) (.symbol none) (some (.leaf ⟨74, "endfunction", 16⟩)) (.symbol none) =
      some (.node 61
        [some (.node 60 [none, some (.leaf ⟨70, "function", 0⟩), none, some (.leaf ⟨71, "int", 9⟩),
            some (.leaf ⟨72, "f", 13⟩), none, some (.leaf ⟨73, ";", 14⟩)]),
          none, none, some (.leaf ⟨74, "endfunction", 16⟩), none]) :=
  ⟨rfl, rfl, rfl, rfl, rfl⟩

end verilog.CST
